import Mathlib

/-!
Verification of the schema-object library (the ES6 source, referred to below
by its line numbers) against its specification. The development shallowly
embeds the library's core: the per-type typecast engine, the property
interceptor (getter/setter), the typed array wrapper (SchemaArray), the
instance machinery (construction, populate, clear, toObject, getErrors) and,
in a separate heap model, the schema-declaration normalizer.

Modelling conventions:
* JS numbers are rationals (exact for every numeric literal the library's
  pipeline handles); NaN is represented by `Option` results of conversions.
* User-supplied hook functions (transform, stringTransform, getter,
  onBeforeValueSet, onValueSet, filter, function-valued required/default,
  custom constructors/methods) are outside the model; all theorems are about
  hook-free schemas, which is the code path the claims describe.
* Mutation is explicit state passing; reference aliasing of the stored
  nested instances/wrappers is reflected by threading the updated value back
  into the store even when the typecast raises.
* Recursive instance operations take a fuel argument (the source recursion
  is unbounded and genuinely diverges on cyclic schema graphs); `none`
  models a computation that did not complete within the given depth.
-/

set_option maxRecDepth 8000

namespace SchemaObj

/-- Plain JavaScript values as exchanged with the library: primitives, dates,
plain arrays and plain objects. JS numbers are modelled as rationals; NaN is
not a value of this type, it appears as `none` in the conversion helpers. -/
inductive JSValue where
  | undef
  | null
  | bool (b : Bool)
  | num (q : ℚ)
  | str (s : String)
  | date (ms : Int)
  | arr (xs : List JSValue)
  | obj (kvs : List (String × JSValue))

namespace JSValue

/-- lodash `_.isObject`: true for plain objects, arrays and dates (functions
are outside the value model), false for primitives and null. -/
def isObjectJS : JSValue → Bool
  | .date _ | .arr _ | .obj _ => true
  | _ => false

/-- lodash `_.isArray`. -/
def isArrayJS : JSValue → Bool
  | .arr _ => true
  | _ => false

/-- lodash `_.isString`. -/
def isStringJS : JSValue → Bool
  | .str _ => true
  | _ => false

/-- lodash `_.isNumber`. -/
def isNumberJS : JSValue → Bool
  | .num _ => true
  | _ => false

/-- lodash `_.isBoolean`. -/
def isBooleanJS : JSValue → Bool
  | .bool _ => true
  | _ => false

/-- lodash `_.isDate`. -/
def isDateJS : JSValue → Bool
  | .date _ => true
  | _ => false

/-- JS truthiness of a plain value. -/
def jsTruthy : JSValue → Bool
  | .undef | .null => false
  | .bool b => b
  | .num q => decide (q ≠ 0)
  | .str s => decide (s ≠ "")
  | .date _ | .arr _ | .obj _ => true

end JSValue

mutual

/-- Structural equality test on plain values. It models the value-equality
(`SameValueZero`) comparisons lodash performs on primitives; on plain
objects/arrays JS compares references instead, so uses of this test are
restricted to primitive elements by the well-formedness side conditions. -/
def jsEqB : JSValue → JSValue → Bool
  | .undef, .undef => true
  | .null, .null => true
  | .bool a, .bool b => a == b
  | .num a, .num b => a == b
  | .str a, .str b => a == b
  | .date a, .date b => a == b
  | .arr xs, .arr ys => jsListEqB xs ys
  | .obj xs, .obj ys => jsPairsEqB xs ys
  | _, _ => false

/-- Elementwise `jsEqB` on lists of values. -/
def jsListEqB : List JSValue → List JSValue → Bool
  | [], [] => true
  | x :: xs, y :: ys => jsEqB x y && jsListEqB xs ys
  | _, _ => false

/-- Elementwise `jsEqB` on key-value lists. -/
def jsPairsEqB : List (String × JSValue) → List (String × JSValue) → Bool
  | [], [] => true
  | (k, x) :: xs, (l, y) :: ys => k == l && jsEqB x y && jsPairsEqB xs ys
  | _, _ => false

end

/-- Numeric value of a list of decimal digit characters. -/
def natOfDigits (cs : List Char) : Nat :=
  cs.foldl (fun a c => a * 10 + (c.toNat - 48)) 0

/-- Models the JS `Number()` conversion on strings for the shapes the library
exercises: optional sign, decimal digits, optional fractional part; the empty
string converts to 0. `none` models NaN (exponent and hex literal forms are
outside the model). The rational is assembled with `mkRat` over integer
arithmetic so that every use is kernel-computable. -/
def jsStringToNumber (s : String) : Option ℚ :=
  if s = "" then some 0 else
  let p : Int × List Char :=
    match s.data with
    | '-' :: t => (-1, t)
    | '+' :: t => (1, t)
    | t => (1, t)
  let intPart := p.2.takeWhile (·.isDigit)
  let rest := p.2.dropWhile (·.isDigit)
  match rest with
  | [] =>
    if intPart = [] then none
    else some (mkRat (p.1 * (natOfDigits intPart : Int)) 1)
  | '.' :: frac =>
    if frac.all (·.isDigit) ∧ (intPart ≠ [] ∨ frac ≠ []) then
      some (mkRat
        (p.1 * ((natOfDigits intPart * 10 ^ frac.length + natOfDigits frac : Nat) : Int))
        (10 ^ frac.length))
    else none
  | _ => none

/-- Whether JS `parseFloat` yields a number (not NaN) on the string: after an
optional sign the string starts with a digit, or with a decimal point followed
by a digit. -/
def parseFloatDefined (s : String) : Bool :=
  let body : List Char :=
    match s.data with
    | '-' :: t => t
    | '+' :: t => t
    | t => t
  match body with
  | c :: rest =>
    c.isDigit || (c = '.' && (match rest with | d :: _ => d.isDigit | [] => false))
  | [] => false

/-- Decimal digits of the fraction `r / d` (with `r < d`) by long division,
with fuel bounding the number of digits. -/
def fracDigitChars : Nat → Nat → Nat → List Char
  | 0, _, _ => []
  | fuel + 1, r, d =>
    if r = 0 then []
    else Char.ofNat (48 + r * 10 / d) :: fracDigitChars fuel (r * 10 % d) d

/-- Models JS `String(number)` for the rational number model: exact for
integers (the only numbers whose rendering any proved property depends on),
a plain decimal expansion otherwise. -/
def ratToString (q : ℚ) : String :=
  if q.den = 1 then toString q.num
  else
    (if q.num < 0 then "-" else "") ++ toString (q.num.natAbs / q.den) ++ "." ++
      String.mk (fracDigitChars 20 (q.num.natAbs % q.den) q.den)

/-- Joins a JS array's elements for string coercion: `null`/`undefined`
render as the empty string inside a join, per JS `Array.prototype.toString`. -/
def jsToStringF : Nat → JSValue → String
  | _, .undef => "undefined"
  | _, .null => "null"
  | _, .bool b => if b then "true" else "false"
  | _, .num q => ratToString q
  | _, .str s => s
  | _, .date _ => "[Date]"
  | _, .obj _ => "[object Object]"
  | 0, .arr _ => ""
  | fuel + 1, .arr xs =>
    String.intercalate ","
      (xs.map fun x =>
        match x with
        | .undef => ""
        | .null => ""
        | y => jsToStringF fuel y)

/-- JS string coercion `value + ''` of a plain value. The date rendering is a
placeholder: dates never reach string coercion on the modelled paths (the
string branch rejects them as objects first). -/
def jsToString (v : JSValue) : String := jsToStringF 8 v

/-- The library's `isNumeric` helper (source line 1736):
`!isNaN(parseFloat(n)) && isFinite(n)`. Arrays coerce through their joined
string form, everything else non-numeric and non-numeric-string is false. -/
def isNumeric (v : JSValue) : Bool :=
  match v with
  | .num _ => true
  | .str s => parseFloatDefined s && (jsStringToNumber s).isSome
  | .arr _ =>
    let s := jsToString v
    parseFloatDefined s && (jsStringToNumber s).isSome
  | _ => false

/-- Total JS `Number()` coercion for values already known numeric via
`isNumeric` (the only places the model multiplies or compares such values). -/
def jsToNumberTotal (v : JSValue) : ℚ :=
  match v with
  | .num q => q
  | .str s => (jsStringToNumber s).getD 0
  | .bool b => if b then 1 else 0
  | .null => 0
  | .arr _ => (jsStringToNumber (jsToString v)).getD 0
  | _ => 0

/-- Models `Date.parse` for the strings this development exercises: an
ISO-like date `YYYY-MM-DD` is accepted and mapped to a timestamp, every other
string is rejected (NaN). Only which strings parse — never the exact numeric
value of a parsed timestamp — is load-bearing for the proved properties. -/
def jsDateParse (s : String) : Option Int :=
  match s.data with
  | [y1, y2, y3, y4, '-', m1, m2, '-', d1, d2] =>
    if ([y1, y2, y3, y4, m1, m2, d1, d2].all (·.isDigit)) then
      let y := natOfDigits [y1, y2, y3, y4]
      let m := natOfDigits [m1, m2]
      let d := natOfDigits [d1, d2]
      if 1 ≤ m ∧ m ≤ 12 ∧ 1 ≤ d ∧ d ≤ 31 then
        some (((y * 372 + (m - 1) * 31 + (d - 1) : Nat) : Int) * 86400000)
      else none
    else none
  | _ => none

/-- A value recorded in an error record's `setValue`/`originalValue` slot: a
plain value, the NaN/Invalid-Date intermediate of the date pipeline, or a
reference (nested instance / array wrapper) that has no plain representation. -/
inductive ErrVal where
  | js (v : JSValue)
  | nan
  | nonPlain

/-- An error record as built by the `SetterError` hierarchy (source lines
1795-1997): subclass kind, stable numeric code, message, the rejected input,
the previous value and the offending field's name (`fieldSchema.name`; the
base class sets no `errorType`, hence the `Option`). The `schemaObject`
back-reference attached by `getErrors` is outside the value model. -/
structure SErr where
  errorType : Option String
  errorCode : Nat
  errorMessage : String
  setValue : ErrVal
  originalValue : ErrVal
  fieldName : Option String

/-- JS `errorMessage || default` defaulting in the error constructors: an
absent or empty custom message falls back to the default. -/
def msgOr (custom : Option String) (dflt : String) : String :=
  match custom with
  | some m => if m = "" then dflt else m
  | none => dflt

def mkSetterError (m : String) (sv ov : ErrVal) (fname : Option String) : SErr :=
  ⟨none, 1000, m, sv, ov, fname⟩

def mkStringCastError (sv ov : ErrVal) (fname : Option String) : SErr :=
  ⟨some "CastError", 1101, "String type cannot typecast Object or Array types.",
    sv, ov, fname⟩

def mkNumberCastError (src : String) (sv ov : ErrVal) (fname : Option String) : SErr :=
  ⟨some "CastError", 1102, "Number could not be typecast from the provided " ++ src,
    sv, ov, fname⟩

def mkArrayCastError (sv ov : ErrVal) (fname : Option String) : SErr :=
  ⟨some "CastError", 1103, "Array type cannot typecast non-Array types.", sv, ov, fname⟩

def mkObjectCastError (sv ov : ErrVal) (fname : Option String) : SErr :=
  ⟨some "CastError", 1104, "Object type cannot typecast non-Object types.", sv, ov, fname⟩

def mkDateCastError (sv ov : ErrVal) (fname : Option String) : SErr :=
  ⟨some "CastError", 1105, "Date type cannot typecast Array or Object types.",
    sv, ov, fname⟩

def mkStringEnumErr (c : Option String) (sv ov : ErrVal) (fname : Option String) : SErr :=
  ⟨some "ValidationError", 1211, msgOr c "String does not exist in enum list.",
    sv, ov, fname⟩

def mkStringMinLenErr (c : Option String) (sv ov : ErrVal) (fname : Option String) : SErr :=
  ⟨some "ValidationError", 1212,
    msgOr c "String length too short to meet minLength requirement.", sv, ov, fname⟩

def mkStringMaxLenErr (c : Option String) (sv ov : ErrVal) (fname : Option String) : SErr :=
  ⟨some "ValidationError", 1213,
    msgOr c "String length too long to meet maxLength requirement.", sv, ov, fname⟩

def mkStringRegexErr (c : Option String) (sv ov : ErrVal) (fname : Option String) : SErr :=
  ⟨some "ValidationError", 1214,
    msgOr c "String does not match regular expression pattern.", sv, ov, fname⟩

def mkNumberMinErr (c : Option String) (sv ov : ErrVal) (fname : Option String) : SErr :=
  ⟨some "ValidationError", 1221,
    msgOr c "Number is too small to meet min requirement.", sv, ov, fname⟩

def mkNumberMaxErr (c : Option String) (sv ov : ErrVal) (fname : Option String) : SErr :=
  ⟨some "ValidationError", 1222,
    msgOr c "Number is too big to meet max requirement.", sv, ov, fname⟩

def mkDateParseErr (sv ov : ErrVal) (fname : Option String) : SErr :=
  ⟨some "ValidationError", 1231, msgOr none "Could not parse date.", sv, ov, fname⟩

/-- A numeric validator declaration: the bare value or the
`[value, customMessage]` pair form (source `detectCustomErrorMessage`, lines
2014-2031; the `{value, errorMessage}` object form behaves like the pair form
and is not separately modelled). -/
inductive QC where
  | bare (v : ℚ)
  | pair (v : ℚ) (msg : String)

/-- `detectCustomErrorMessage(key).value`. -/
def QC.value : QC → ℚ
  | .bare v => v
  | .pair v _ => v

/-- `detectCustomErrorMessage(key).errorMessage`. -/
def QC.msg : QC → Option String
  | .bare _ => none
  | .pair _ m => some m

/-- The enum validator declaration: a bare list of strings or the
`[[values], customMessage]` pair form (source lines 2061-2078). -/
inductive EnumC where
  | bare (vs : List String)
  | pair (vs : List String) (msg : String)

def EnumC.values : EnumC → List String
  | .bare vs => vs
  | .pair vs _ => vs

def EnumC.msg : EnumC → Option String
  | .bare _ => none
  | .pair _ m => some m

/-- The regex validator declaration, modelled by its `test` predicate. -/
inductive REC where
  | bare (t : String → Bool)
  | pair (t : String → Bool) (msg : String)

def REC.test : REC → String → Bool
  | .bare t => t
  | .pair t _ => t

def REC.msg : REC → Option String
  | .bare _ => none
  | .pair _ m => some m

/-- String-type constraints of a compiled field descriptor. `clipSet` models
`properties.clip !== undefined` (any clip value, even `false`, triggers the
clipping shortcut). -/
structure StrCons where
  clipSet : Bool := false
  enum : Option EnumC := none
  minLength : Option QC := none
  maxLength : Option QC := none
  regex : Option REC := none

/-- Number-type constraints of a compiled field descriptor. -/
structure NumCons where
  min : Option QC := none
  max : Option QC := none

/-- The recognized configuration options the model depends on (source lines
2577-2611 defaults). Hook-valued options are outside the model. -/
structure Options where
  strict : Bool := true
  setUndefined : Bool := false
  preserveNull : Bool := false
  keysIgnoreCase : Bool := false
  allowFalsyValues : Bool := true
  useDecimalNumberGroupSeparator : Bool := false

def isUndefV : JSValue → Bool
  | .undef => true
  | _ => false

def isNullV : JSValue → Bool
  | .null => true
  | _ => false

def isEmptyStrV : JSValue → Bool
  | .str s => decide (s = "")
  | _ => false

def isFalseStrV : JSValue → Bool
  | .str s => decide (s = "false")
  | _ => false

/-- The length JS `substr(0, properties.maxLength)` actually uses when the
clip shortcut runs (source line 2058): the shortcut passes the RAW declared
`maxLength`, so a bare number is used as is, while the `[value, message]`
pair form coerces through `ToNumber(array)` to NaN, which `substr` turns into
length 0. -/
def rawClipLength : Option QC → Nat
  | some (.bare v) => if v ≤ 0 then 0 else v.floor.toNat
  | some (.pair _ _) => 0
  | none => 0

/-- `enumValidation.value !== undefined && isArray && indexOf === -1`. -/
def enumFails (e : Option EnumC) (s : String) : Bool :=
  match e with
  | none => false
  | some ec => decide (s ∉ ec.values)

/-- `minLength.value !== undefined && value.length < minLength.value`. -/
def minLenFails (c : Option QC) (s : String) : Bool :=
  match c with
  | none => false
  | some c => decide ((s.length : ℚ) < c.value)

/-- `maxLength.value !== undefined && value.length > maxLength.value`. -/
def maxLenFails (c : Option QC) (s : String) : Bool :=
  match c with
  | none => false
  | some c => decide ((s.length : ℚ) > c.value)

/-- `regex.value && !regex.value.test(value)`. -/
def regexFails (r : Option REC) (s : String) : Bool :=
  match r with
  | none => false
  | some r => !r.test s

/-- `min.value !== undefined && value < min.value`. -/
def minFails (c : Option QC) (q : ℚ) : Bool :=
  match c with
  | none => false
  | some c => decide (q < c.value)

/-- `max.value !== undefined && value > max.value`. -/
def maxFails (c : Option QC) (q : ℚ) : Bool :=
  match c with
  | none => false
  | some c => decide (q > c.value)

/-- Replaces every occurrence of one character (the source only ever replaces
the single characters `,` and `.`) by a replacement string. -/
def replaceChar (s : String) (c : Char) (r : String) : String :=
  String.mk (s.data.foldr (fun ch acc => if ch = c then r.data ++ acc else ch :: acc) [])

/-- First `n` characters of a string, as JS `substr(0, n)` takes them. -/
def strTake (s : String) (n : Nat) : String :=
  String.mk (s.data.take n)

/-- Digit-group separator normalization of a numeric string (source lines
2127-2137). -/
def groupSepNormalize (opts : Options) (s : String) : String :=
  if opts.useDecimalNumberGroupSeparator then
    replaceChar (replaceChar s '.' "") ',' "."
  else replaceChar s ',' ""

/-- Whether the (already separator-normalized) string value fails the
`isNaN(Number(value))` rejection of the number branch (source line 2140). -/
def strNaN : JSValue → Bool
  | .str s => (jsStringToNumber s).isNone
  | _ => false

/-- Truncation toward zero of `q * m`, as JS `ToIntegerOrInfinity`/`TimeClip`
do, computed on the numerator/denominator so it is kernel-computable. -/
def ratTruncMul (q : ℚ) (m : Nat) : Int :=
  if q.num < 0 then -((q.num.natAbs * m / q.den : Nat) : Int)
  else ((q.num.natAbs * m / q.den : Nat) : Int)

/-- The scalar field types: the recursion-free branches of the typecast
switch. Array, object and alias types live in the instance machinery below. -/
inductive ScalarT where
  | strT (c : StrCons)
  | numT (c : NumCons)
  | boolT
  | dateT
  | anyT

/-- The scalar branches of the typecast engine (source `typecast`, lines
2001-2295), hook-free. The second value is the previous field value, used by
the source only inside the raised error records. Models:
`string` (2035-2113), `number` (2115-2178), `boolean` (2180-2204),
`date` (2259-2290), `any` (2292-2293), plus the `preserveNull` short-circuit
before the switch (2010-2012). -/
def typecastScalar (opts : Options) (k : ScalarT) (fname : Option String)
    (value : JSValue) (orig : ErrVal) : Except SErr JSValue :=
  if isNullV value && opts.preserveNull then .ok .null
  else
    match k with
    | .strT c =>
      if value.isObjectJS || value.isArrayJS then
        .error (mkStringCastError (.js value) orig fname)
      else if isUndefV value || isNullV value then .ok .undef
      else
        let s0 := jsToString value
        let s := if c.clipSet && c.maxLength.isSome then
            strTake s0 (rawClipLength c.maxLength) else s0
        if enumFails c.enum s then
          .error (mkStringEnumErr ((c.enum.map EnumC.msg).join) (.js (.str s)) orig fname)
        else if minLenFails c.minLength s then
          .error (mkStringMinLenErr ((c.minLength.map QC.msg).join) (.js (.str s)) orig fname)
        else if maxLenFails c.maxLength s then
          .error (mkStringMaxLenErr ((c.maxLength.map QC.msg).join) (.js (.str s)) orig fname)
        else if regexFails c.regex s then
          .error (mkStringRegexErr ((c.regex.map REC.msg).join) (.js (.str s)) orig fname)
        else .ok (.str s)
    | .numT c =>
      if isUndefV value || isNullV value || isEmptyStrV value then .ok .undef
      else
        let v1 := match value with
          | .bool b => JSValue.num (if b then 1 else 0)
          | w => w
        let v2 := match v1 with
          | .str s0 => JSValue.str (groupSepNormalize opts s0)
          | w => w
        if strNaN v2 then
          .error (mkNumberCastError "String" (.js v2) orig fname)
        else if v2.isArrayJS then
          .error (mkNumberCastError "Array" (.js v2) orig fname)
        else if v2.isObjectJS then
          .error (mkNumberCastError "Object" (.js v2) orig fname)
        else if !isNumeric v2 then
          .error (mkNumberCastError "Non-numeric" (.js v2) orig fname)
        else
          let q := jsToNumberTotal v2
          if minFails c.min q then
            .error (mkNumberMinErr ((c.min.map QC.msg).join) (.js (.num q)) orig fname)
          else if maxFails c.max q then
            .error (mkNumberMaxErr ((c.max.map QC.msg).join) (.js (.num q)) orig fname)
          else .ok (.num q)
    | .boolT =>
      if isUndefV value || isNullV value || isEmptyStrV value then .ok .undef
      else if isFalseStrV value then .ok (.bool false)
      else if isNumeric value then .ok (.bool (decide (jsToNumberTotal value > 0)))
      else .ok (.bool value.jsTruthy)
    | .dateT =>
      if isUndefV value || isNullV value || isEmptyStrV value then .ok .undef
      else if !(value.isDateJS || value.isStringJS || value.isNumberJS) then
        .error (mkDateCastError (.js value) orig fname)
      else
        -- Date.parse on strings; `none` models the NaN result (line 2272)
        let parsed : Option JSValue :=
          match value with
          | .str s => (jsDateParse s).map (fun ms => JSValue.num (ms : ℚ))
          | w => some w
        match parsed with
        | none => .error (mkDateParseErr .nan orig fname)
        | some w =>
          -- timestamp conversion with second/millisecond inference (2276-2278)
          -- and the TimeClip range of a JS Date; `none` models Invalid Date
          let w2 : Option JSValue :=
            if isNumeric w then
              let q := jsToNumberTotal w
              let msInt :=
                if (ratToString q).length > 10 then ratTruncMul q 1
                else ratTruncMul q 1000
              if msInt.natAbs ≤ 8640000000000000 then some (.date msInt) else none
            else some w
          match w2 with
          | none => .error (mkDateParseErr .nonPlain orig fname)
          | some w3 =>
            if w3.isDateJS then .ok w3
            else .error (mkDateParseErr (.js w3) orig fname)
    | .anyT => .ok value

/-- The `required` slot of a field declaration: absent, a boolean, or the
`[boolean, customMessage]` pair form (source lines 2953-2961).
Function-valued required predicates are outside the model. -/
inductive ReqC where
  | noReq
  | rbare (b : Bool)
  | rpair (b : Bool) (msg : String)

/-- Field descriptor slots shared by every type and used by the interceptor
and instance machinery. `dflt` models `properties.default`; `JSValue.undef`
means no default, matching the source's `properties.default !== undefined`
guards (a key holding undefined is indistinguishable from an absent key).
Function-valued defaults and the per-field hooks are outside the model. -/
structure FieldCommon where
  readOnly : Bool := false
  invisible : Bool := false
  required : ReqC := .noReq
  dflt : JSValue := .undef

mutual

/-- A compiled field descriptor's type tag with its type-specific pieces:
scalar constraint bags, the array element descriptor plus uniqueness flag,
or the nested schema compiled into the `objectType` factory (`objT none` is
a plain object field with no nested schema). Alias fields are outside the
model. -/
inductive FType where
  | scalar (k : ScalarT)
  | arrT (unique : Bool) (elem : Option EDesc)
  | objT (sub : Option Schema)

/-- A normalized array element descriptor (`properties.arrayType`): its
`name` slot (set only if the element declaration carried one; errors raised
for elements then name that field) and its type. -/
inductive EDesc where
  | mk (name : Option String) (t : FType)

/-- A compiled schema: the ordered mapping from field name to descriptor. -/
inductive Schema where
  | snil
  | scons (name : String) (common : FieldCommon) (t : FType) (rest : Schema)

end

def EDesc.name : EDesc → Option String
  | .mk n _ => n

def EDesc.t : EDesc → FType
  | .mk _ t => t

/-- Looks a field up in the schema (exact key match; the case-insensitive
resolution layer is outside the model). -/
def Schema.lookupF : Schema → String → Option (FieldCommon × FType)
  | .snil, _ => none
  | .scons n c t rest, k => if n = k then some (c, t) else Schema.lookupF rest k

mutual

/-- A stored field value: a plain value (`prim JSValue.undef` is the unset
state, observationally identical to an absent key of the raw store), a
nested schema-object instance, or the contents of the field's array
wrapper. -/
inductive FVal where
  | prim (v : JSValue)
  | instV (i : Inst)
  | arrV (xs : List EVal)

/-- An element held by an array wrapper: a plain value or a nested
instance. -/
inductive EVal where
  | eprim (v : JSValue)
  | einst (i : Inst)

/-- An object instance's own state: the accumulated error log and the raw
value store (`_errors` and `_obj`). The compiled schema is not stored: every
operation receives it from the field descriptor at hand, mirroring how the
source reaches instances only through their factory-typed fields. -/
inductive Inst where
  | mk (errors : List SErr) (vals : List (String × FVal))

end

def Inst.errors : Inst → List SErr
  | .mk es _ => es

def Inst.vals : Inst → List (String × FVal)
  | .mk _ vs => vs

/-- Raw store lookup: an absent key reads as undefined. -/
def Inst.get (i : Inst) (n : String) : FVal :=
  match i.vals.find? (fun p => p.1 = n) with
  | some p => p.2
  | none => .prim .undef

def listSetVal (vs : List (String × FVal)) (n : String) (v : FVal) :
    List (String × FVal) :=
  match vs with
  | [] => [(n, v)]
  | (k, w) :: rest =>
    if k = n then (k, v) :: rest else (k, w) :: listSetVal rest n v

/-- Raw store write (insertion-ordered, as JS object keys are). -/
def Inst.setVal (i : Inst) (n : String) (v : FVal) : Inst :=
  .mk i.errors (listSetVal i.vals n v)

def Inst.pushErr (i : Inst) (e : SErr) : Inst :=
  .mk (i.errors ++ [e]) i.vals

def emptyInst : Inst := .mk [] []

/-- JS truthiness of a stored value (instances and wrappers are objects,
hence truthy even when empty). -/
def FVal.truthy : FVal → Bool
  | .prim v => v.jsTruthy
  | .instV _ => true
  | .arrV _ => true

/-- `typeof this[index] === 'boolean'` on a read value. -/
def FVal.isBool : FVal → Bool
  | .prim (.bool _) => true
  | _ => false

/-- `this[index] !== undefined` on a read value. -/
def FVal.isUndef : FVal → Bool
  | .prim .undef => true
  | _ => false

/-- How a stored value appears inside an error record. -/
def errValOfF : FVal → ErrVal
  | .prim v => .js v
  | .instV _ => .nonPlain
  | .arrV _ => .nonPlain

/-- The keys `for (const key in value)` iterates on a plain value: object
keys, array indices, nothing for primitives (string index iteration is
outside the model; such keys never match a schema field in this
development). -/
def jsOwnKeys : JSValue → List (String × JSValue)
  | .obj kvs => kvs
  | .arr xs => xs.enum.map (fun p => (toString p.1, p.2))
  | _ => []

/-- Membership of a candidate in the wrapper's current elements, as the
`_.difference(values, _.toArray(this))` uniqueness check compares them:
SameValueZero on primitives; plain objects and instances compare by
reference there, and a freshly cast candidate is never reference-equal to a
stored element, so instance candidates are always kept. -/
def evalMemB (v : EVal) (cur : List EVal) : Bool :=
  match v with
  | .eprim p =>
    cur.any (fun c =>
      match c with
      | .eprim q => jsEqB p q
      | .einst _ => false)
  | .einst _ => false

/-- Result of one typecast: the value to store, or the raised error together
with the original value's state after any in-place mutation the source
performed before throwing (the array branch repopulates the existing wrapper
in place, so an aborted element loop leaves the accepted prefix behind). -/
inductive TCRes where
  | okS (store : FVal)
  | errS (e : SErr) (origAfter : FVal)

mutual

/-- The full typecast engine (source `typecast`, lines 2001-2295), hook-free:
scalar branches delegate to `typecastScalar`; the `array` branch (2206-2225)
converts enumerable input to a list, clears the existing wrapper and pushes
each element individually; the `object` branch (2227-2257) clears and
repopulates an existing nested instance, or constructs one when the previous
value is undefined (the array-element path). A `none` result models either
fuel exhaustion or a path outside the model (a raw JS TypeError such as
clearing through a non-instance, or an array element that is itself an
array). -/
def typecastF : Nat → Options → Option String → FType → JSValue → FVal →
    Option TCRes
  | 0, _, _, _, _, _ => none
  | fuel + 1, opts, fname, t, value, orig =>
    if isNullV value && opts.preserveNull then some (.okS (.prim .null)) else
    match t with
    | .scalar k =>
      match typecastScalar opts k fname value (errValOfF orig) with
      | .ok v => some (.okS (.prim v))
      | .error e => some (.errS e orig)
    | .arrT unique elem =>
      -- enumerable objects convert to a list first (line 2208-2210)
      let value := if value.isObjectJS then
          match value with
          | .arr xs => JSValue.arr xs
          | .obj kvs => JSValue.arr (kvs.map Prod.snd)
          | _ => JSValue.arr []
        else value
      match value with
      | .arr xs =>
        match orig with
        | .arrV _ =>
          -- `originalValue.length = 0` then push one element per call
          match arrAssignF fuel opts fname unique elem [] xs with
          | some (.ok final) => some (.okS (.arrV final))
          | some (.error p) => some (.errS p.1 (.arrV p.2))
          | none => none
        | _ => none
      | _ => some (.errS (mkArrayCastError (.js value) (errValOfF orig) fname) orig)
    | .objT sub =>
      if !value.isObjectJS then
        some (.errS (mkObjectCastError (.js value) (errValOfF orig) fname) orig)
      else
        match sub with
        | some subsch =>
          match orig with
          | .instV i =>
            match clearFieldsF fuel opts subsch i with
            | some cleared =>
              match populateF fuel opts subsch cleared (jsOwnKeys value) with
              | some filled => some (.okS (.instV filled))
              | none => none
            | none => none
          | .prim .undef =>
            match constructF fuel opts subsch (.obj []) with
            | some fresh =>
              match populateF fuel opts subsch fresh (jsOwnKeys value) with
              | some filled => some (.okS (.instV filled))
              | none => none
            | none => none
          | _ => none
        | none => some (.okS (.prim value))

/-- One `SchemaArray.push` element-typecast pass (the `[].map` of source
lines 2499-2502): all candidates are cast before anything is appended, and
the first raised error aborts the whole call. -/
def pushCastF : Nat → Options → EDesc → List JSValue →
    Option (Except SErr (List EVal))
  | 0, _, _, _ => none
  | fuel + 1, opts, ed, args =>
    match args with
    | [] => some (.ok [])
    | a :: rest =>
      match typecastF fuel opts ed.name ed.t a (.prim .undef) with
      | some (.errS e _) => some (.error e)
      | some (.okS sv) =>
        let ev : Option EVal :=
          match sv with
          | .prim p => some (.eprim p)
          | .instV i => some (.einst i)
          | .arrV _ => none
        match ev with
        | none => none
        | some ev =>
          match pushCastF fuel opts ed rest with
          | some (.ok evs) => some (.ok (ev :: evs))
          | some (.error e) => some (.error e)
          | none => none
      | none => none

/-- `SchemaArray.push` (source lines 2495-2518), filter hook outside the
model: candidates are element-typecast when an element descriptor exists,
deduplicated against the current contents when `unique`, then appended.
The `Except.error` result models the raised error crossing `push` to the
caller. -/
def pushF : Nat → Options → Bool → Option EDesc → List EVal → List JSValue →
    Option (Except SErr (List EVal))
  | 0, _, _, _, _, _ => none
  | fuel + 1, opts, unique, elem, cur, args =>
    match elem with
    | some ed =>
      match pushCastF fuel opts ed args with
      | some (.error e) => some (.error e)
      | some (.ok values) =>
        let values := if unique then values.filter (fun v => !evalMemB v cur)
          else values
        some (.ok (cur ++ values))
      | none => none
    | none =>
      let values : List EVal := args.map .eprim
      let values := if unique then values.filter (fun v => !evalMemB v cur)
        else values
      some (.ok (cur ++ values))

/-- The array branch's element loop (source lines 2220-2223): push one source
element per call; a raised element error aborts the loop, leaving the
already-accepted prefix in the wrapper. -/
def arrAssignF : Nat → Options → Option String → Bool → Option EDesc →
    List EVal → List JSValue → Option (Except (SErr × List EVal) (List EVal))
  | 0, _, _, _, _, _, _ => none
  | fuel + 1, opts, fname, unique, elem, cur, xs =>
    match xs with
    | [] => some (.ok cur)
    | x :: rest =>
      match pushF fuel opts unique elem cur [x] with
      | some (.ok cur') => arrAssignF fuel opts fname unique elem cur' rest
      | some (.error e) => some (.error (e, cur))
      | none => none

/-- The per-field setter (source `defineSetter`, lines 2435-2451): a no-op on
read-only fields; otherwise the previous value is read through the getter
(materializing object/array fields), the input is typecast, and either the
result is written or the raised error is appended to the instance's log with
the store left to whatever the typecast mutated in place. -/
def setFieldF : Nat → Options → String → FieldCommon → FType → Inst →
    JSValue → Option Inst
  | 0, _, _, _, _, _, _ => none
  | fuel + 1, opts, name, common, t, inst, value =>
    if common.readOnly then some inst
    else
      match readFieldF fuel opts name common t inst with
      | some (orig, inst1) =>
        match typecastF fuel opts (some name) t value orig with
        | some (.okS store) => some (inst1.setVal name store)
        | some (.errS e origAfter) =>
          some ((inst1.setVal name origAfter).pushErr e)
        | none => none
      | none => none

/-- The per-field getter (source `defineGetter`, lines 2400-2432), hook-free:
object/array fields materialize lazily when the stored value is falsy — an
object field writes its declared raw default if present, else a fresh nested
instance (or a plain empty object without a nested schema); an array field
writes a fresh empty wrapper — and the (possibly materialized) value is
returned. -/
def readFieldF : Nat → Options → String → FieldCommon → FType → Inst →
    Option (FVal × Inst)
  | 0, _, _, _, _, _ => none
  | fuel + 1, opts, name, common, t, inst =>
    let cur := inst.get name
    match t with
    | .objT sub =>
      if !cur.truthy then
        if !isUndefV common.dflt then
          some (.prim common.dflt, inst.setVal name (.prim common.dflt))
        else
          match sub with
          | some subsch =>
            match constructF fuel opts subsch (.obj []) with
            | some ni => some (.instV ni, inst.setVal name (.instV ni))
            | none => none
          | none => some (.prim (.obj []), inst.setVal name (.prim (.obj [])))
      else some (cur, inst)
    | .arrT _ _ =>
      if !cur.truthy then some (.arrV [], inst.setVal name (.arrV []))
      else some (cur, inst)
    | .scalar _ => some (cur, inst)

/-- `populate` (source lines 2865-2869) through the proxy's set trap: each
key routes through its field's setter; unknown keys are silently ignored in
strict mode (the non-strict dynamic-admission layer is outside the model). -/
def populateF : Nat → Options → Schema → Inst → List (String × JSValue) →
    Option Inst
  | 0, _, _, _, _ => none
  | fuel + 1, opts, sch, inst, kvs =>
    match kvs with
    | [] => some inst
    | (k, v) :: rest =>
      match sch.lookupF k with
      | some (common, t) =>
        match setFieldF fuel opts k common t inst v with
        | some inst' => populateF fuel opts sch inst' rest
        | none => none
      | none => populateF fuel opts sch inst rest

/-- The constructor's defaults loop (source lines 2846-2855): every field
with a declared default is assigned it through its setter, with read-only
temporarily suspended. -/
def defaultsF : Nat → Options → Schema → Inst → Option Inst
  | 0, _, _, _ => none
  | fuel + 1, opts, walk, inst =>
    match walk with
    | .snil => some inst
    | .scons name common t rest =>
      if isUndefV common.dflt then defaultsF fuel opts rest inst
      else
        match setFieldF fuel opts name { common with readOnly := false } t inst
            common.dflt with
        | some inst' => defaultsF fuel opts rest inst'
        | none => none

/-- Instance construction (source constructor, lines 2710-2861) with the
default construction hook: bind interceptors (implicit in the model), apply
declared defaults, then shallow-populate from the initial values. -/
def constructF : Nat → Options → Schema → JSValue → Option Inst
  | 0, _, _, _ => none
  | fuel + 1, opts, sch, values =>
    match defaultsF fuel opts sch emptyInst with
    | some inst1 => populateF fuel opts sch inst1 (jsOwnKeys values)
    | none => none

/-- `clear` (source lines 2938-2942 with `clearField`, 2454-2473): nested
object fields recursively clear (reading them first, which materializes),
array fields truncate to empty, scalar fields are written undefined. A field
whose read produces neither an instance nor a wrapper (e.g. an object field
with a scalar default) makes the source call `.clear()`/set `.length` on a
plain value — a raw TypeError, outside the model (`none`). -/
def clearFieldsF : Nat → Options → Schema → Inst → Option Inst
  | 0, _, _, _ => none
  | fuel + 1, opts, walk, inst =>
    match walk with
    | .snil => some inst
    | .scons name common t rest =>
      match t with
      | .objT sub =>
        match readFieldF fuel opts name common t inst with
        | some (.instV ni, i1) =>
          match sub with
          | some subsch =>
            match clearFieldsF fuel opts subsch ni with
            | some ni' => clearFieldsF fuel opts rest (i1.setVal name (.instV ni'))
            | none => none
          | none => none
        | some _ => none
        | none => none
      | .arrT _ _ =>
        match readFieldF fuel opts name common t inst with
        | some (_, i1) => clearFieldsF fuel opts rest (i1.setVal name (.arrV []))
        | none => none
      | .scalar _ =>
        clearFieldsF fuel opts rest (inst.setVal name (.prim .undef))

end

/-- The keep-check `toObject` applies to a primitive field value (source
lines 2906-2918): empty plain arrays/objects are dropped unless
`setUndefined`. -/
def keepB (opts : Options) (p : JSValue) : Bool :=
  match p with
  | .arr xs => opts.setUndefined || !xs.isEmpty
  | .obj kvs => opts.setUndefined || !kvs.isEmpty
  | _ => true

mutual

/-- The field loop of `toObject` (source lines 2877-2929): skip invisible
fields; read each remaining field through its getter (materializing lazy
defaults — the state is threaded); skip undefined values unless
`setUndefined`; recursively serialize nested instances and wrappers, copy
plain arrays, deep-copy dates (the source's date clone is immediately
overwritten by the original reference, which is value-equal here), shallow
clone plain objects; and drop resulting empty objects/arrays unless
`setUndefined`. -/
def toObjFieldsF : Nat → Options → Schema → Inst →
    Option (List (String × JSValue) × Inst)
  | 0, _, _, _ => none
  | fuel + 1, opts, walk, inst =>
    match walk with
    | .snil => some ([], inst)
    | .scons name common t rest =>
      if common.invisible then toObjFieldsF fuel opts rest inst
      else
        match readFieldF fuel opts name common t inst with
        | none => none
        | some (v, i1) =>
          match v with
          | .prim p =>
            if isUndefV p && !opts.setUndefined then
              toObjFieldsF fuel opts rest i1
            else
              if keepB opts p then
                match toObjFieldsF fuel opts rest i1 with
                | some (out, i2) => some ((name, p) :: out, i2)
                | none => none
              else toObjFieldsF fuel opts rest i1
          | .instV ni =>
            match t with
            | .objT (some sub) =>
              match toObjectF fuel opts sub ni with
              | some (o, ni') =>
                let i2 := i1.setVal name (.instV ni')
                let okvs := jsOwnKeys o
                if opts.setUndefined || !okvs.isEmpty then
                  match toObjFieldsF fuel opts rest i2 with
                  | some (out, i3) => some ((name, o) :: out, i3)
                  | none => none
                else toObjFieldsF fuel opts rest i2
              | none => none
            | _ => none
          | .arrV xs =>
            match t with
            | .arrT _ elem =>
              match toArrayF fuel opts elem xs with
              | some os =>
                if opts.setUndefined || !os.isEmpty then
                  match toObjFieldsF fuel opts rest i1 with
                  | some (out, i2) => some ((name, .arr os) :: out, i2)
                  | none => none
                else toObjFieldsF fuel opts rest i1
              | none => none
            | _ => none

/-- `toObject` (source lines 2877-2929), global `toObject` hook outside the
model: the plain snapshot together with the instance state after the
materializing reads. -/
def toObjectF : Nat → Options → Schema → Inst → Option (JSValue × Inst)
  | 0, _, _, _ => none
  | fuel + 1, opts, sch, inst =>
    match toObjFieldsF fuel opts sch inst with
    | some (out, i') => some (.obj out, i')
    | none => none

/-- `SchemaArray.toArray` (source lines 2542-2561): nested instances are
recursively serialized through the element descriptor's nested schema, plain
object elements are shallow-cloned (structural identity here), primitives
are copied as-is. -/
def toArrayF : Nat → Options → Option EDesc → List EVal →
    Option (List JSValue)
  | 0, _, _, _ => none
  | fuel + 1, opts, elem, xs =>
    match xs with
    | [] => some []
    | .eprim p :: rest =>
      match toArrayF fuel opts elem rest with
      | some os => some (p :: os)
      | none => none
    | .einst ni :: rest =>
      match elem with
      | some ed =>
        match ed.t with
        | .objT (some sub) =>
          match toObjectF fuel opts sub ni with
          | some (o, _) =>
            match toArrayF fuel opts elem rest with
            | some os => some (o :: os)
            | none => none
          | none => none
        | _ => none
      | none => none

end

/-- The required-violation synthesis for one field (source lines 2953-2983):
resolve the pair form and its custom message, skip an absent or false
`required`, read the field, and skip when the value is truthy, is a boolean,
or is defined while falsy values are allowed; otherwise produce the base
`SetterError` with code 1000. -/
def requiredErrF (fuel : Nat) (opts : Options) (name : String)
    (common : FieldCommon) (t : FType) (inst : Inst) :
    Option (Option SErr × Inst) :=
  let dfltMsg := name ++ " is required but not provided"
  let p : Bool × String :=
    match common.required with
    | .noReq => (false, dfltMsg)
    | .rbare b => (b, dfltMsg)
    | .rpair b m => (b, if m = "" then dfltMsg else m)
  if !p.1 then some (none, inst)
  else
    match readFieldF fuel opts name common t inst with
    | some (v, i1) =>
      if v.truthy || v.isBool || (opts.allowFalsyValues && !v.isUndef) then
        some (none, i1)
      else
        some (some (mkSetterError p.2 (errValOfF v) (errValOfF v) (some name)), i1)
    | none => none

mutual

/-- The required-check loop of `getErrors` (source lines 2953-2983). -/
def getErrorsReqF : Nat → Options → Schema → Inst →
    Option (List SErr × Inst)
  | 0, _, _, _ => none
  | fuel + 1, opts, walk, inst =>
    match walk with
    | .snil => some ([], inst)
    | .scons name common t rest =>
      match requiredErrF fuel opts name common t inst with
      | some (e?, i1) =>
        match getErrorsReqF fuel opts rest i1 with
        | some (es, i2) =>
          some ((match e? with | some e => [e] | none => []) ++ es, i2)
        | none => none
      | none => none

/-- The sub-instance aggregation loop of `getErrors` (source lines
2985-2996): for every field compiled with a nested schema factory, collect
the nested instance's errors with the field name prefixed (an element error
without a name prefixes the literal `undefined`, as the JS template string
does). Reaching a stored value that is not an instance would call
`.getErrors()` on a plain value — outside the model. -/
def getErrorsSubF : Nat → Options → Schema → Inst →
    Option (List SErr × Inst)
  | 0, _, _, _ => none
  | fuel + 1, opts, walk, inst =>
    match walk with
    | .snil => some ([], inst)
    | .scons name common t rest =>
      match t with
      | .objT (some sub) =>
        match readFieldF fuel opts name common t inst with
        | some (.instV ni, i1) =>
          match getErrorsF fuel opts sub ni with
          | some (subErrs, ni') =>
            let prefixed := subErrs.map (fun e =>
              let sn := match e.fieldName with
                | some n => n
                | none => "undefined"
              { e with fieldName := some (name ++ "." ++ sn) })
            match getErrorsSubF fuel opts rest (i1.setVal name (.instV ni')) with
            | some (es, i2) => some (prefixed ++ es, i2)
            | none => none
          | none => none
        | some _ => none
        | none => none
      | _ =>
        match getErrorsSubF fuel opts rest inst with
        | some (es, i2) => some (es, i2)
        | none => none

/-- `getErrors` (source lines 2945-2998): the instance's own pending errors
(cloned — structural identity here; the `schemaObject` back-reference is
outside the value model), then the lazily synthesized required violations,
then the recursively collected nested errors. -/
def getErrorsF : Nat → Options → Schema → Inst → Option (List SErr × Inst)
  | 0, _, _, _ => none
  | fuel + 1, opts, sch, inst =>
    match getErrorsReqF fuel opts sch inst with
    | some (reqs, i1) =>
      match getErrorsSubF fuel opts sch i1 with
      | some (subs, i2) => some (inst.errors ++ reqs ++ subs, i2)
      | none => none
    | none => none

end

/-!
A small mutable-heap model for the schema compiler, used to settle the
frame property of `normalizeProperties` (source lines 2299-2390) and of the
constructor's normalization loop (lines 2739-2742): which caller-owned
objects the compilation writes to. Raw declaration values live in a store of
numbered entities; JS references are `href` indices into it.
-/

/-- A raw heap value of the declaration-normalization model: primitives, a
reference into the store, a named plain function (a constructor such as
`String` or `Number`), or a SchemaObject factory closing over its raw
schema (whose class name is `SchemaObjectInstance`). -/
inductive HVal where
  | hundef
  | hnull
  | hbool (b : Bool)
  | hnum (q : ℚ)
  | hstr (s : String)
  | href (a : Nat)
  | hfun (fname : String)
  | hfactory (schema : HVal)

/-- A heap entity: a plain object (insertion-ordered fields) or an array. -/
inductive HEnt where
  | hobj (fields : List (String × HVal))
  | harr (xs : List HVal)

/-- The mutable store: entity addresses are list indices. -/
abbrev Store := List HEnt

def hvalTruthy : HVal → Bool
  | .hundef | .hnull => false
  | .hbool b => b
  | .hnum q => decide (q ≠ 0)
  | .hstr s => decide (s ≠ "")
  | .href _ | .hfun _ | .hfactory _ => true

def isUndefH : HVal → Bool
  | .hundef => true
  | _ => false

def isStringH : HVal → Bool
  | .hstr _ => true
  | _ => false

/-- lodash `_.isObject` on a heap value (functions and factories count). -/
def isObjectH : HVal → Bool
  | .href _ | .hfun _ | .hfactory _ => true
  | _ => false

def isFunctionH : HVal → Bool
  | .hfun _ | .hfactory _ => true
  | _ => false

def isArrayH (st : Store) : HVal → Bool
  | .href a =>
    match st[a]? with
    | some (.harr _) => true
    | _ => false
  | _ => false

def hobjLookup (fields : List (String × HVal)) (k : String) : HVal :=
  match fields.find? (fun p => p.1 = k) with
  | some p => p.2
  | none => .hundef

def hobjSet (fields : List (String × HVal)) (k : String) (v : HVal) :
    List (String × HVal) :=
  match fields with
  | [] => [(k, v)]
  | (n, w) :: rest =>
    if n = k then (n, v) :: rest else (n, w) :: hobjSet rest k v

/-- Property read `v[k]`: a TypeError (`none`) on null/undefined, the field
on objects, undefined on primitives/functions (the `name`/`length` meta
properties are read through dedicated helpers). -/
def hGetField (st : Store) (v : HVal) (k : String) : Option HVal :=
  match v with
  | .hnull | .hundef => none
  | .href a =>
    match st[a]? with
    | some (.hobj fields) => some (hobjLookup fields k)
    | some (.harr _) => some .hundef
    | none => none
  | _ => some (.hundef)

/-- Property write `target[k] = v` on an object entity. -/
def hSetField (st : Store) (a : Nat) (k : String) (v : HVal) : Option Store :=
  match st[a]? with
  | some (.hobj fields) => some (st.set a (.hobj (hobjSet fields k v)))
  | _ => none

/-- `fn.name` / the factory class name (`SchemaObjectInstance`), a string
field named `name` on plain objects, undefined otherwise. -/
def hTypeName (st : Store) (v : HVal) : HVal :=
  match v with
  | .hfun n => .hstr n
  | .hfactory _ => .hstr "SchemaObjectInstance"
  | .href a =>
    match st[a]? with
    | some (.hobj fields) => hobjLookup fields "name"
    | _ => .hundef
  | _ => (.hundef)

/-- `Object.keys(v).length`: own enumerable keys (0 for functions and
factories). -/
def hKeysLen (st : Store) (v : HVal) : Nat :=
  match v with
  | .href a =>
    match st[a]? with
    | some (.hobj fields) => fields.length
    | some (.harr xs) => xs.length
    | none => 0
  | _ => 0

/-- `_.size`. -/
def hSize (st : Store) (v : HVal) : Nat := hKeysLen st v

/-- ASCII `toLowerCase`, as the compiler applies to type tags. -/
def strToLower (s : String) : String :=
  String.mk (s.data.map (fun c =>
    if 65 ≤ c.toNat ∧ c.toNat ≤ 90 then Char.ofNat (c.toNat + 32) else c))

mutual

/-- lodash `_.cloneDeep` of a heap value: references are cloned into fresh
entities, functions and factories are kept by reference, primitives are
copied. Fuel bounds the recursion (`none` models a cyclic structure). -/
def cloneDeepV : Nat → Store → HVal → Option (Store × HVal)
  | 0, _, _ => none
  | fuel + 1, st, v =>
    match v with
    | .href a =>
      match st[a]? with
      | some ent =>
        match cloneDeepEnt fuel st ent with
        | some (st', ent') => some (st' ++ [ent'], .href st'.length)
        | none => none
      | none => none
    | w => some (st, w)

def cloneDeepEnt : Nat → Store → HEnt → Option (Store × HEnt)
  | 0, _, _ => none
  | fuel + 1, st, ent =>
    match ent with
    | .hobj fields =>
      match cloneDeepFields fuel st fields with
      | some (st', fields') => some (st', .hobj fields')
      | none => none
    | .harr xs =>
      match cloneDeepList fuel st xs with
      | some (st', xs') => some (st', .harr xs')
      | none => none

def cloneDeepFields : Nat → Store → List (String × HVal) →
    Option (Store × List (String × HVal))
  | 0, _, _ => none
  | fuel + 1, st, fields =>
    match fields with
    | [] => some (st, [])
    | (k, v) :: rest =>
      match cloneDeepV fuel st v with
      | some (st1, v') =>
        match cloneDeepFields fuel st1 rest with
        | some (st2, rest') => some (st2, (k, v') :: rest')
        | none => none
      | none => none

def cloneDeepList : Nat → Store → List HVal → Option (Store × List HVal)
  | 0, _, _ => none
  | fuel + 1, st, xs =>
    match xs with
    | [] => some (st, [])
    | v :: rest =>
      match cloneDeepV fuel st v with
      | some (st1, v') =>
        match cloneDeepList fuel st1 rest with
        | some (st2, rest') => some (st2, v' :: rest')
        | none => none
      | none => none

end

/-- The `type.type` merge step (source lines 2325-2332): copy each field of
the type object into the properties object where absent, then replace
`type` by the inner `type`. `target` is the wrapper/clone address. -/
def mergeTypeObjH (st : Store) (target : Nat) (typeFields : List (String × HVal)) :
    Option Store :=
  match typeFields with
  | [] => some st
  | (k, v) :: rest =>
    match hGetField st (.href target) k with
    | some cur =>
      match (if isUndefH cur then hSetField st target k v else some st) with
      | some st' => mergeTypeObjH st' target rest
      | none => none
    | none => none

/-- The shorthand handling of `normalizeProperties` (source lines
2303-2319): wrap a raw type into a fresh `{type: ...}` object, clone a
declaration hash with `_.cloneDeep`, leave a falsy declaration alone. -/
def normStage1H (fuel : Nat) (st0 : Store) (properties0 : HVal) :
    Option (Store × HVal) :=
  match hGetField st0 properties0 "type" with
  | none => if hvalTruthy properties0 then none else some (st0, properties0)
  | some ty =>
    if hvalTruthy properties0 then
      if isUndefH ty then
        some (st0 ++ [HEnt.hobj [("type", properties0)]], .href st0.length)
      else cloneDeepV fuel st0 properties0
    else some (st0, properties0)

/-- The type-with-properties merge (source lines 2325-2332). -/
def normStep2H (st1 : Store) (target : Nat) (ty1 : HVal) : Option Store :=
  match ty1 with
  | .href ta =>
    match st1[ta]? with
    | some (.hobj tfields) =>
      if isUndefH (hobjLookup tfields "type") then some st1
      else
        match mergeTypeObjH st1 target tfields with
        | some st' => hSetField st' target "type" (hobjLookup tfields "type")
        | none => none
    | _ => some st1
  | _ => some st1

/-- Null/undefined type becomes `any`; named function references collapse
to their name (source lines 2334-2345). -/
def normStep3H (st2 : Store) (target : Nat) (ty2 : HVal) : Option Store :=
  match ty2 with
  | .hundef | .hnull => hSetField st2 target "type" (.hstr "any")
  | t =>
    match hTypeName st2 t with
    | .hstr n =>
      if n ≠ "SchemaObjectInstance" ∧ hKeysLen st2 t = 0 then
        hSetField st2 target "type" (.hstr n)
      else some st2
    | _ => some st2

/-- Lowercase string types (source lines 2346-2348). -/
def normStep4H (st3 : Store) (target : Nat) (ty3 : HVal) : Option Store :=
  match ty3 with
  | .hstr s => hSetField st3 target "type" (.hstr (strToLower s))
  | _ => some st3

/-- The array shorthand (source lines 2350-2357). -/
def normStep5H (st4 : Store) (target : Nat) (ty4 : HVal) : Option Store :=
  match ty4 with
  | .href ta =>
    match st4[ta]? with
    | some (.harr xs) =>
      match (match xs with
        | [] => some st4
        | x :: _ => hSetField st4 target "arrayType" x) with
      | some st' => hSetField st' target "type" (.hstr "array")
      | none => none
    | _ => some st4
  | _ => some st4

/-- Function / object types (source lines 2359-2381). -/
def normStep6H (st5 : Store) (target : Nat) (ty5 : HVal) : Option Store :=
  match ty5 with
  | .hstr _ => some st5
  | t =>
    if isFunctionH t then
      match hSetField st5 target "objectType" t with
      | some st' => hSetField st' target "type" (.hstr "object")
      | none => none
    else if isObjectH t then
      match (if hSize st5 t ≠ 0 then
          hSetField st5 target "objectType" (.hfactory t)
        else some st5) with
      | some st' => hSetField st' target "type" (.hstr "object")
      | none => none
    else some st5

/-- The field-name write (source lines 2383-2387). -/
def normStep7H (st6 : Store) (target : Nat) (name : Option String) :
    Option Store :=
  match name with
  | some n => hSetField st6 target "name" (.hstr n)
  | none => some st6

/-- `normalizeProperties` (source lines 2299-2390) over the heap model,
hook-free and without the per-instance `this` (only used there for
sub-schema option inheritance, which carries no heap effect). Returns the
store and the resulting descriptor reference. `none` models a TypeError
(normalizing a falsy declaration) or fuel exhaustion inside `cloneDeep`. -/
def normalizePropsH (fuel : Nat) (st0 : Store) (properties0 : HVal)
    (name : Option String) : Option (Store × HVal) :=
  match normStage1H fuel st0 properties0 with
  | none => none
  | some (st1, properties) =>
    match properties with
    | .href target =>
      match hGetField st1 properties "type" with
      | none => none
      | some ty1 =>
        match normStep2H st1 target ty1 with
        | none => none
        | some st2 =>
          match hGetField st2 properties "type" with
          | none => none
          | some ty2 =>
            match normStep3H st2 target ty2 with
            | none => none
            | some st3 =>
              match hGetField st3 properties "type" with
              | none => none
              | some ty3 =>
                match normStep4H st3 target ty3 with
                | none => none
                | some st4 =>
                  match hGetField st4 properties "type" with
                  | none => none
                  | some ty4 =>
                    match normStep5H st4 target ty4 with
                    | none => none
                    | some st5 =>
                      match hGetField st5 properties "type" with
                      | none => none
                      | some ty5 =>
                        match normStep6H st5 target ty5 with
                        | none => none
                        | some st6 =>
                          match normStep7H st6 target name with
                          | some st7 => some (st7, properties)
                          | none => none
    | _ => none

/-- The constructor's schema-normalization loop (source lines 2739-2742):
`schema[index] = normalizeProperties.call(this, properties, index)` for every
field of the raw schema object the factory captured. -/
def normalizeLoopH (fuel : Nat) (st : Store) (schemaRef : Nat)
    (keys : List String) : Option Store :=
  match keys with
  | [] => some st
  | k :: rest =>
    match hGetField st (.href schemaRef) k with
    | some decl =>
      match normalizePropsH fuel st decl (some k) with
      | some (st1, norm) =>
        match hSetField st1 schemaRef k norm with
        | some st2 => normalizeLoopH fuel st2 schemaRef rest
        | none => none
      | none => none
    | none => none

/-- The keys of the schema object the loop iterates. -/
def schemaKeysH (st : Store) (schemaRef : Nat) : List String :=
  match st[schemaRef]? with
  | some (.hobj fields) => fields.map Prod.fst
  | _ => []

/-- Instance construction as far as the schema compiler is concerned: the
normalization loop over the captured raw schema object. -/
def constructNormalizeH (fuel : Nat) (st : Store) (schemaRef : Nat) :
    Option Store :=
  normalizeLoopH fuel st schemaRef (schemaKeysH st schemaRef)

/-- A declaration value is flat: it is no reference at all, or a reference —
distinct from the schema object — to a plain object none of whose field
values is itself a reference (the common shape of a literal schema such as
`{ age: { type: 'number' } }`). -/
def DeclFlat (st : Store) (schemaRef : Nat) (decl : HVal) : Prop :=
  ∀ a : Nat, decl = .href a →
    a ≠ schemaRef ∧ ∃ fields, st[a]? = some (.hobj fields) ∧
      ∀ p ∈ fields, ∀ b : Nat, p.2 ≠ .href b

/-!
Concrete fixtures for the scenario claims.
-/

/-- The field type of Scenario A's `age: { type: number, min: 0, max: 120 }`. -/
def ageT : FType := .scalar (.numT { min := some (.bare 0), max := some (.bare 120) })

/-- Scenario A's compiled one-field schema. -/
def ageSchema : Schema := .scons "age" {} ageT .snil

/-- Scenario A, first step: construct with no input, then assign `age = "15"`
through the setter. -/
def c3afterFirst : Option Inst :=
  (constructF 9 {} ageSchema .undef).bind fun i =>
    setFieldF 9 {} "age" {} ageT i (.str "15")

/-- Scenario A, second step: then assign `age = "-1"`. -/
def c3afterSecond : Option Inst :=
  c3afterFirst.bind fun i => setFieldF 9 {} "age" {} ageT i (.str "-1")

/-- The field type of Scenario C's `name: { type: string, required: true }`. -/
def nameT : FType := .scalar (.strT {})
def nameCommon : FieldCommon := { required := .rbare true }

/-- Scenario C's compiled one-field schema. -/
def nameSchema : Schema := .scons "name" nameCommon nameT .snil

/-- Scenario C: a fresh instance constructed with no input. -/
def c4inst : Option Inst := constructF 9 {} nameSchema (.undef)

/-- Scenario C: `getErrors()` of the fresh instance. -/
def c4errs : Option (List SErr) :=
  c4inst.bind fun i => (getErrorsF 9 {} nameSchema i).map Prod.fst

/-- Scenario C: `getErrors()` after `name = "Ann"`. -/
def c4errs2 : Option (List SErr) :=
  (c4inst.bind fun i => setFieldF 9 {} "name" nameCommon nameT i (.str "Ann")).bind
    fun i2 => (getErrorsF 9 {} nameSchema i2).map Prod.fst

/-- Scenario B's element descriptor `{ type: string, maxLength: 5 }` (array
element descriptors are normalized without a name). -/
def tagElem : EDesc := .mk none (.scalar (.strT { maxLength := some (.bare 5) }))

/-- The array-with-default schema of the serialization counterexample:
`{ q: { type: Array, default: [1, 2] } }`. -/
def qCommon : FieldCommon := { dflt := .arr [.num 1, .num 2] }
def qSchema : Schema := .scons "q" qCommon (.arrT false none) .snil

/-- The counterexample instance: constructed (defaults applied), then the
array emptied by assigning `[]`. Every field holds validly cast data (an
empty typed array). -/
def c7inst : Option Inst :=
  (constructF 9 {} qSchema .undef).bind fun i0 =>
    setFieldF 9 {} "q" qCommon (.arrT false none) i0 (.arr [])

/-- First serialization of the counterexample instance. -/
def c7snap : Option JSValue :=
  c7inst.bind fun i => (toObjectF 9 {} qSchema i).map Prod.fst

/-- Reconstruction from the snapshot and second serialization. -/
def c7resnap : Option JSValue :=
  c7snap.bind fun o => (constructF 9 {} qSchema o).bind fun i2 =>
    (toObjectF 9 {} qSchema i2).map Prod.fst

/-- The raw heap of the compiler frame counterexample: the caller's schema
object `{ age: <declaration> }` at address 0 and the declaration object
`{ type: 'number' }` at address 1. -/
def c6st0 : Store := [.hobj [("age", .href 1)], .hobj [("type", .hstr "number")]]

/-- A declaration value is flat when it is not a reference, or references a
plain object none of whose field values is a reference (the compiled clone
then shares nothing with the caller's heap). -/
def flatEnt : HEnt → Prop
  | .hobj fields => ∀ p ∈ fields, ∀ a : Nat, p.2 ≠ .href a
  | .harr _ => False

def flatDeclVal (st : Store) : HVal → Prop
  | .href a => a ≠ 0 ∧ a < st.length ∧ ∃ fields, st[a]? = some (.hobj fields) ∧
      flatEnt (.hobj fields)
  | _ => True

/-- The bare-value form of a declared constraint: the same value with the
custom message stripped. -/
def QC.bare0 : QC → QC
  | .bare v => .bare v
  | .pair v _ => .bare v

def EnumC.bare0 : EnumC → EnumC
  | .bare vs => .bare vs
  | .pair vs _ => .bare vs

def REC.bare0 : REC → REC
  | .bare t => .bare t
  | .pair t _ => .bare t

/-- The same string-constraint bag with every constraint in bare form. -/
def StrCons.bareOf (c : StrCons) : StrCons :=
  { clipSet := c.clipSet,
    enum := c.enum.map EnumC.bare0,
    minLength := c.minLength.map QC.bare0,
    maxLength := c.maxLength.map QC.bare0,
    regex := c.regex.map REC.bare0 }

/-- The custom message the constraint bag declares for each string
validation error code. -/
def declaredMsg (c : StrCons) : Nat → Option String
  | 1211 => (c.enum.map EnumC.msg).join
  | 1212 => (c.minLength.map QC.msg).join
  | 1213 => (c.maxLength.map QC.msg).join
  | 1214 => (c.regex.map REC.msg).join
  | _ => none

/-- Overrides an error's message by the constraint bag's declared custom
message for its code (empty or absent custom messages keep the default). -/
def withDeclaredMsg (c : StrCons) (e : SErr) : SErr :=
  { e with errorMessage := msgOr (declaredMsg c e.errorCode) e.errorMessage }

/-- The instance and result of the C1 witness: a stored 15 rejected by the
`"-1"` assignment. -/
def c1wInst : Inst := Inst.mk [] [("age", .prim (.num 15))]
def c1wErr : SErr := mkNumberMinErr none (.js (.num (-1))) (.js (.num 15)) (some "age")
def c1wInst2 : Inst := Inst.mk [c1wErr] [("age", .prim (.num 15))]

/-- The declared field names of a compiled schema, in order. -/
def Schema.names : Schema → List String
  | .snil => []
  | .scons name _ _ rest => name :: Schema.names rest

/-- A primitive value survives serialization under the default options:
defined, and not an empty plain array/object (`toObject` drops those unless
`setUndefined`). -/
def KeepPrim (v : JSValue) : Prop :=
  v ≠ .undef ∧ (∀ xs, v = .arr xs → xs ≠ []) ∧
    (∀ kvs, v = .obj kvs → kvs ≠ [])

mutual

/-- The instance's stored values present exactly the snapshot `out` (a
schema-ordered subsequence of fields): each listed field's stored value
serializes to its snapshot value, each unlisted field is in a void state
that serializes to nothing. -/
inductive InstAgree : Schema → Inst → List (String × JSValue) → Prop where
  | nil (i : Inst) : InstAgree .snil i []
  | present (name : String) (common : FieldCommon) (t : FType) (rest : Schema)
      (i : Inst) (v : JSValue) (out : List (String × JSValue)) :
      StoredGood t (i.get name) v → InstAgree rest i out →
      InstAgree (.scons name common t rest) i ((name, v) :: out)
  | absent (name : String) (common : FieldCommon) (t : FType) (rest : Schema)
      (i : Inst) (out : List (String × JSValue)) :
      FieldVoid t (i.get name) → InstAgree rest i out →
      InstAgree (.scons name common t rest) i out

/-- A stored field value that serializes to nothing: unset, an empty
wrapper, an all-void nested instance, or the materialized `{}` of a
schemaless object field. -/
inductive FieldVoid : FType → FVal → Prop where
  | scalarV (k : ScalarT) : FieldVoid (.scalar k) (.prim .undef)
  | arrU (u : Bool) (e : Option EDesc) : FieldVoid (.arrT u e) (.prim .undef)
  | arrE (u : Bool) (e : Option EDesc) : FieldVoid (.arrT u e) (.arrV [])
  | objU (sub : Option Schema) : FieldVoid (.objT sub) (.prim .undef)
  | objI (sub : Schema) (m : Inst) : InstAgree sub m [] →
      FieldVoid (.objT (some sub)) (.instV m)
  | objP : FieldVoid (.objT none) (.prim (.obj []))

/-- A stored field value that serializes to the snapshot value `v`. -/
inductive StoredGood : FType → FVal → JSValue → Prop where
  | scalarG (k : ScalarT) (v : JSValue) : KeepPrim v →
      StoredGood (.scalar k) (.prim v) v
  | arrG (u : Bool) (e : Option EDesc) (evs : List EVal) (os : List JSValue) :
      os ≠ [] → ElemsAgree e evs os →
      StoredGood (.arrT u e) (.arrV evs) (.arr os)
  | objG (sub : Schema) (m : Inst) (okvs : List (String × JSValue)) :
      okvs ≠ [] → InstAgree sub m okvs →
      StoredGood (.objT (some sub)) (.instV m) (.obj okvs)
  | objNoneG (v : JSValue) : v.isObjectJS = true → KeepPrim v →
      StoredGood (.objT none) (.prim v) v

/-- Wrapper elements that serialize elementwise to the snapshot list. -/
inductive ElemsAgree : Option EDesc → List EVal → List JSValue → Prop where
  | nil (e : Option EDesc) : ElemsAgree e [] []
  | cons (e : Option EDesc) (ev : EVal) (o : JSValue) (evs : List EVal)
      (os : List JSValue) : ElemAgree e ev o → ElemsAgree e evs os →
      ElemsAgree e (ev :: evs) (o :: os)

/-- One wrapper element that serializes to the snapshot value `o`. -/
inductive ElemAgree : Option EDesc → EVal → JSValue → Prop where
  | prim (e : Option EDesc) (p : JSValue) : ElemAgree e (.eprim p) p
  | inst (nm : Option String) (sub : Schema) (m : Inst)
      (okvs : List (String × JSValue)) : InstAgree sub m okvs →
      ElemAgree (some (.mk nm (.objT (some sub)))) (.einst m)
        (.obj okvs)

end

mutual

/-- The schema shapes covered by the round-trip theorem: hook-free fields
with no declared default, not read-only, not invisible, distinct names;
array fields are non-unique with untyped, scalar or nested-schema
elements. -/
inductive SchemaWF : Schema → Prop where
  | nil : SchemaWF .snil
  | cons (name : String) (common : FieldCommon) (t : FType) (rest : Schema) :
      common.dflt = .undef → common.readOnly = false →
      common.invisible = false → name ∉ Schema.names rest →
      FTypeWF t → SchemaWF rest → SchemaWF (.scons name common t rest)

inductive FTypeWF : FType → Prop where
  | scalarW (k : ScalarT) : FTypeWF (.scalar k)
  | arrW (e : Option EDesc) : EOptWF e → FTypeWF (.arrT false e)
  | objW (sub : Schema) : SchemaWF sub → FTypeWF (.objT (some sub))
  | objNoneW : FTypeWF (.objT none)

inductive EOptWF : Option EDesc → Prop where
  | enone : EOptWF none
  | escalar (nm : Option String) (k : ScalarT) :
      EOptWF (some (.mk nm (.scalar k)))
  | eobj (nm : Option String) (sub : Schema) : SchemaWF sub →
      EOptWF (some (.mk nm (.objT (some sub))))

end

mutual

/-- A snapshot that repopulates cleanly: a schema-ordered subsequence of
fields whose values each typecast to themselves at their field. -/
inductive SnapCastGood (opts : Options) : Schema → List (String × JSValue) →
    Prop where
  | nil : SnapCastGood opts .snil []
  | present (name : String) (common : FieldCommon) (t : FType) (rest : Schema)
      (v : JSValue) (out : List (String × JSValue)) :
      FieldCastGood opts (some name) t v → SnapCastGood opts rest out →
      SnapCastGood opts (.scons name common t rest) ((name, v) :: out)
  | absent (name : String) (common : FieldCommon) (t : FType) (rest : Schema)
      (out : List (String × JSValue)) :
      SnapCastGood opts rest out →
      SnapCastGood opts (.scons name common t rest) out

/-- A snapshot value the field's typecast maps to itself (stored in the
shape the serializer reproduces). -/
inductive FieldCastGood (opts : Options) : Option String → FType → JSValue →
    Prop where
  | scalarNull (fn : Option String) (k : ScalarT) : opts.preserveNull = true →
      FieldCastGood opts fn (.scalar k) .null
  | scalarOk (fn : Option String) (k : ScalarT) (v : JSValue) :
      typecastScalar opts k fn v (.js .undef) = .ok v → KeepPrim v →
      FieldCastGood opts fn (.scalar k) v
  | arrGood (fn : Option String) (u : Bool) (e : Option EDesc)
      (os : List JSValue) : os ≠ [] →
      (∀ o, o ∈ os → ElemCastGood opts e o) →
      FieldCastGood opts fn (.arrT u e) (.arr os)
  | objGood (fn : Option String) (sub : Schema)
      (okvs : List (String × JSValue)) : okvs ≠ [] →
      SnapCastGood opts sub okvs →
      FieldCastGood opts fn (.objT (some sub)) (.obj okvs)
  | objNoneGood (fn : Option String) (v : JSValue) : v.isObjectJS = true →
      KeepPrim v → FieldCastGood opts fn (.objT none) v

/-- A snapshot array element the element typecast maps to itself. -/
inductive ElemCastGood (opts : Options) : Option EDesc → JSValue → Prop where
  | noneE (o : JSValue) : ElemCastGood opts none o
  | nullE (ed : EDesc) : opts.preserveNull = true →
      ElemCastGood opts (some ed) .null
  | scalarE (nm : Option String) (k : ScalarT) (o : JSValue) :
      typecastScalar opts k nm o (.js .undef) = .ok o →
      ElemCastGood opts (some (.mk nm (.scalar k))) o
  | objE (nm : Option String) (sub : Schema)
      (okvs : List (String × JSValue)) : SnapCastGood opts sub okvs →
      ElemCastGood opts (some (.mk nm (.objT (some sub)))) (.obj okvs)

end

/-- The original value a setter reads from a void field (after lazy
materialization). -/
def OrigVoid : FType → FVal → Prop
  | .scalar _, orig => orig = .prim .undef
  | .arrT _ _, orig => orig = .arrV []
  | .objT (some sub), orig =>
    orig = .prim .undef ∨ ∃ m, orig = .instV m ∧ InstAgree sub m []
  | .objT none, orig => orig = .prim (.obj [])

/-- The stored shape of a typecast element result. -/
def evalToFVal : EVal → FVal
  | .eprim p => .prim p
  | .einst m => .instV m

/-- Witness fixture for the amended C7 claim: the schema `{ title: String }`
with no default. -/
def c7wSchema : Schema := .scons "title" {} (.scalar (.strT {})) .snil

/-- A witness instance of it holding `title = "a"`. -/
def c7wInstW : Inst := .mk [] [("title", .prim (.str "a"))]

/-!
Theorems. Each claim of the specification review is settled by one named
theorem below (with a witness instantiation where the theorem carries
hypotheses); shared helper lemmas precede them.
-/

theorem enumFails_bare (e : Option EnumC) (s : String) :
    enumFails (e.map EnumC.bare0) s = enumFails e s := by
  cases e with
  | none => rfl
  | some ec => cases ec <;> rfl

theorem minLenFails_bare (c : Option QC) (s : String) :
    minLenFails (c.map QC.bare0) s = minLenFails c s := by
  cases c with
  | none => rfl
  | some qc => cases qc <;> rfl

theorem maxLenFails_bare (c : Option QC) (s : String) :
    maxLenFails (c.map QC.bare0) s = maxLenFails c s := by
  cases c with
  | none => rfl
  | some qc => cases qc <;> rfl

theorem regexFails_bare (r : Option REC) (s : String) :
    regexFails (r.map REC.bare0) s = regexFails r s := by
  cases r with
  | none => rfl
  | some rc => cases rc <;> rfl

theorem enum_bare_msg (e : Option EnumC) :
    ((e.map EnumC.bare0).map EnumC.msg).join = none := by
  cases e with
  | none => rfl
  | some ec => cases ec <;> rfl

theorem qc_bare_msg (c : Option QC) :
    ((c.map QC.bare0).map QC.msg).join = none := by
  cases c with
  | none => rfl
  | some qc => cases qc <;> rfl

theorem rec_bare_msg (r : Option REC) :
    ((r.map REC.bare0).map REC.msg).join = none := by
  cases r with
  | none => rfl
  | some rc => cases rc <;> rfl

theorem clipStr_bare (c : StrCons) (s : String)
    (hclip : c.clipSet = false ∨ ∀ n m, c.maxLength ≠ some (.pair n m)) :
    (if c.clipSet && (c.maxLength.map QC.bare0).isSome then
        strTake s (rawClipLength (c.maxLength.map QC.bare0)) else s)
      = (if c.clipSet && c.maxLength.isSome then
        strTake s (rawClipLength c.maxLength) else s) := by
  rcases hclip with hc | hm
  · simp [hc]
  · cases hml : c.maxLength with
    | none => rfl
    | some qc =>
      cases qc with
      | bare n => rfl
      | pair n m => exact absurd hml (hm n m)

/-- C8 (amended): on string fields, declaring constraints in the
`[value, customMessage]` pair form yields exactly the same run as declaring
the bare values — same acceptance, same resulting value, same rejecting
constraint and error code — with only the error message replaced by the
declared custom message; this holds whenever clip is off or `maxLength` is
bare, the carve-out forced by the clip counterexample. -/
theorem C8_pair_form_equivalence (opts : Options) (fname : Option String)
    (v : JSValue) (orig : ErrVal) (c : StrCons)
    (hclip : c.clipSet = false ∨ ∀ n m, c.maxLength ≠ some (.pair n m)) :
    typecastScalar opts (.strT c) fname v orig =
      match typecastScalar opts (.strT c.bareOf) fname v orig with
      | .ok a => .ok a
      | .error e => .error (withDeclaredMsg c e) := by
  unfold typecastScalar
  split
  · rfl
  · simp only [StrCons.bareOf]
    split
    · simp [withDeclaredMsg, declaredMsg, msgOr, mkStringCastError]
    · split
      · rfl
      · rw [clipStr_bare c (jsToString v) hclip, enumFails_bare,
          minLenFails_bare, maxLenFails_bare, regexFails_bare]
        generalize (if c.clipSet && c.maxLength.isSome then
          strTake (jsToString v) (rawClipLength c.maxLength)
          else jsToString v) = s
        split
        · simp only [withDeclaredMsg, mkStringEnumErr, declaredMsg,
            enum_bare_msg, msgOr]
        · split
          · simp only [withDeclaredMsg, mkStringMinLenErr, declaredMsg,
              qc_bare_msg, msgOr]
          · split
            · simp only [withDeclaredMsg, mkStringMaxLenErr, declaredMsg,
                qc_bare_msg, msgOr]
            · split
              · simp only [withDeclaredMsg, mkStringRegexErr, declaredMsg,
                  rec_bare_msg, msgOr]
              · rfl

/-- C8 witness: a `minLength` declared as the pair `[3, "too short"]`
rejects `"ab"` exactly as the bare 3 does, and the logged error carries the
custom message. -/
theorem C8_witness :
    typecastScalar {} (.strT { minLength := some (.pair 3 "too short") })
        none (.str "ab") .nonPlain =
      (match typecastScalar {}
          (.strT (StrCons.bareOf { minLength := some (.pair 3 "too short") }))
          none (.str "ab") .nonPlain with
      | .ok a => .ok a
      | .error e =>
        .error (withDeclaredMsg { minLength := some (.pair 3 "too short") } e)) ∧
    typecastScalar {} (.strT { minLength := some (.pair 3 "too short") })
        none (.str "ab") .nonPlain
      = .error (mkStringMinLenErr (some "too short") (.js (.str "ab"))
          .nonPlain none) :=
  ⟨C8_pair_form_equivalence {} none (.str "ab") .nonPlain
      { minLength := some (.pair 3 "too short") } (Or.inl rfl), rfl⟩

/-- C3: for `{ age: { type: number, min: 0, max: 120 } }`, assigning
`age = "15"` stores the number 15 with an empty error log, and then
assigning `age = "-1"` leaves the stored value at 15 and appends exactly the
`NumberMinValidationError` (code 1221, a ValidationError, not a CastError)
carrying the rejected `-1` and the prior value 15. -/
theorem C3_scenarioA_number_min :
    c3afterFirst = some (Inst.mk [] [("age", .prim (.num 15))]) ∧
    c3afterSecond = some (Inst.mk
      [mkNumberMinErr none (.js (.num (-1))) (.js (.num 15)) (some "age")]
      [("age", .prim (.num 15))]) ∧
    (mkNumberMinErr none (.js (.num (-1))) (.js (.num 15)) (some "age")).errorCode
      = 1221 ∧
    (mkNumberMinErr none (.js (.num (-1))) (.js (.num 15)) (some "age")).errorType
      = some "ValidationError" := by
  refine ⟨rfl, rfl, rfl, rfl⟩

/-- C4: for `{ name: { type: string, required: true } }`, construction with
no input records nothing in the instance's own error log, yet `getErrors()`
synthesizes exactly one required-violation record for `name` (base
`SetterError`, code 1000); after assigning `name = "Ann"` the same call
returns the empty list — required violations are computed at retrieval time
from the current value, not recorded at assignment time. -/
theorem C4_required_lazy_scenarioC :
    c4inst = some (Inst.mk [] []) ∧
    c4errs = some [mkSetterError "name is required but not provided"
      (.js .undef) (.js .undef) (some "name")] ∧
    c4errs2 = some [] := by
  refine ⟨rfl, rfl, rfl⟩

/-- C2: against `{ type: string, maxLength: 5 }` elements, `push("hello")`
appends and yields length 1, but `push("toolong")` does not drop the
rejected candidate: the element typecast raises
`StringMaxLengthValidationError` and the error propagates uncaught out of
`push` to the caller (the `Except.error` result), contradicting both the
claim and the comment above `push` in the source (lines 2496-2497), which
promise a silent drop with the length unchanged. -/
theorem C2_push_rejection_behavior :
    pushF 9 {} false (some tagElem) [] [.str "hello"]
      = some (.ok [.eprim (.str "hello")]) ∧
    pushF 9 {} false (some tagElem) [.eprim (.str "hello")] [.str "toolong"]
      = some (.error (mkStringMaxLenErr none (.js (.str "toolong"))
          (.js .undef) none)) := by
  refine ⟨rfl, rfl⟩

/-- C8 counterexample: with `clip` set, declaring `maxLength` as a bare 5
clips `"helloworld"` to `"hello"`, but declaring it as the pair
`[5, "too long"]` clips to the empty string — the clip shortcut passes the
raw declared value to `substr`, and `ToNumber` of the pair array is NaN,
which `substr` treats as length 0. The pair form therefore does not clip to
the same length as the bare form. -/
theorem C8_clip_pair_clips_to_zero :
    typecastScalar {} (.strT { clipSet := true, maxLength := some (.bare 5) })
      none (.str "helloworld") (.js .undef) = .ok (.str "hello") ∧
    typecastScalar {}
      (.strT { clipSet := true, maxLength := some (.pair 5 "too long") })
      none (.str "helloworld") (.js .undef) = .ok (.str "") := by
  refine ⟨rfl, rfl⟩

/-- C9 counterexample: an object-typed field declared with `default: null`
reads as null — the lazy materialization writes the raw declared default and
returns it, so object/array reads can observe null after all. -/
theorem C9_default_null_read :
    readFieldF 9 {} "profile" { dflt := .null } (.objT none) emptyInst
      = some (.prim .null, Inst.mk [] [("profile", .prim .null)]) := rfl

/-- C7 counterexample: for `{ q: { type: Array, default: [1, 2] } }`, an
instance whose array was emptied (valid data throughout) serializes to `{}`
(empty arrays are dropped), but reconstruction re-applies the construction
default, so the second serialization is `{ q: [1, 2] }` — serialize after
reconstruct differs from the first serialize. -/
theorem C7_default_breaks_serialize_idempotence :
    c7snap = some (.obj []) ∧
    c7resnap = some (.obj [("q", .arr [.num 1, .num 2])]) := by
  refine ⟨rfl, rfl⟩

theorem listSetVal_get_self (vs : List (String × FVal)) (n : String) (v : FVal) :
    (listSetVal vs n v).find? (fun p => p.1 = n) = some (n, v) := by
  induction vs with
  | nil => simp [listSetVal, List.find?]
  | cons hd tl ih =>
    rcases hd with ⟨k, w⟩
    by_cases hk : k = n
    · subst hk
      simp [listSetVal, List.find?]
    · simp [listSetVal, hk, List.find?, ih]

theorem get_setVal_self (i : Inst) (n : String) (v : FVal) :
    (i.setVal n v).get n = v := by
  cases i with
  | mk es vs => simp [Inst.setVal, Inst.get, Inst.vals, listSetVal_get_self]

theorem listSetVal_get_other (vs : List (String × FVal)) (n k : String)
    (v : FVal) (hk : k ≠ n) :
    (listSetVal vs n v).find? (fun p => p.1 = k)
      = vs.find? (fun p => p.1 = k) := by
  induction vs with
  | nil =>
    simp only [listSetVal, List.find?]
    rw [decide_eq_false (fun hc => hk hc.symm)]
  | cons hd tl ih =>
    rcases hd with ⟨k1, w⟩
    by_cases h1 : k1 = n
    · subst h1
      by_cases h2 : k1 = k
      · exact absurd h2.symm hk
      · simp [listSetVal, List.find?, h2]
    · by_cases h2 : k1 = k
      · subst h2
        simp [listSetVal, h1, List.find?]
      · simp [listSetVal, h1, List.find?, h2, ih]

theorem get_setVal_other (i : Inst) (n k : String) (v : FVal) (hk : k ≠ n) :
    (i.setVal n v).get k = i.get k := by
  cases i with
  | mk es vs =>
    simp [Inst.setVal, Inst.get, Inst.vals, listSetVal_get_other vs n k v hk]

theorem errors_setVal (i : Inst) (n : String) (v : FVal) :
    (i.setVal n v).errors = i.errors := by
  cases i with
  | mk es vs => rfl

theorem errors_pushErr (i : Inst) (e : SErr) :
    (i.pushErr e).errors = i.errors ++ [e] := by
  cases i with
  | mk es vs => rfl

theorem get_pushErr (i : Inst) (e : SErr) (n : String) :
    (i.pushErr e).get n = i.get n := by
  cases i with
  | mk es vs => rfl

theorem readFieldF_props (fuel : Nat) (opts : Options) (name : String)
    (common : FieldCommon) (t : FType) (inst : Inst) (orig : FVal) (mid : Inst)
    (h : readFieldF (fuel + 1) opts name common t inst = some (orig, mid)) :
    mid.get name = orig ∧ mid.errors = inst.errors ∧
    (∀ k, k ≠ name → mid.get k = inst.get k) := by
  have base : ∀ nv : FVal, mid = inst.setVal name nv → orig = nv →
      mid.get name = orig ∧ mid.errors = inst.errors ∧
      (∀ k, k ≠ name → mid.get k = inst.get k) := by
    intro nv hm ho
    subst hm; subst ho
    exact ⟨get_setVal_self .., errors_setVal .., fun k hk =>
      get_setVal_other _ _ _ _ hk⟩
  have triv : mid = inst → orig = inst.get name →
      mid.get name = orig ∧ mid.errors = inst.errors ∧
      (∀ k, k ≠ name → mid.get k = inst.get k) := by
    intro hm ho
    subst hm; subst ho
    exact ⟨rfl, rfl, fun _ _ => rfl⟩
  cases t with
  | scalar k =>
    simp only [readFieldF, Option.some.injEq, Prod.mk.injEq] at h
    exact triv h.2.symm h.1.symm
  | arrT u elem =>
    simp only [readFieldF] at h
    by_cases ht : (inst.get name).truthy
    · simp only [ht, Bool.not_true, Bool.false_eq_true, if_false,
        Option.some.injEq, Prod.mk.injEq] at h
      exact triv h.2.symm h.1.symm
    · simp only [ht, Bool.not_false, if_true, Option.some.injEq,
        Prod.mk.injEq] at h
      exact base _ h.2.symm h.1.symm
  | objT sub =>
    simp only [readFieldF] at h
    by_cases ht : (inst.get name).truthy
    · simp only [ht, Bool.not_true, Bool.false_eq_true, if_false,
        Option.some.injEq, Prod.mk.injEq] at h
      exact triv h.2.symm h.1.symm
    · simp only [ht, Bool.not_false, if_true] at h
      by_cases hd : isUndefV common.dflt
      · simp only [hd, Bool.not_true, Bool.false_eq_true, if_false] at h
        cases sub with
        | some subsch =>
          rcases hc : constructF fuel opts subsch (.obj []) with _ | ni
          · simp only [hc] at h
            exact Option.noConfusion h
          · simp only [hc, Option.some.injEq, Prod.mk.injEq] at h
            exact base _ h.2.symm h.1.symm
        | none =>
          simp only [Option.some.injEq, Prod.mk.injEq] at h
          exact base _ h.2.symm h.1.symm
      · simp only [hd, Bool.not_false, if_true, Option.some.injEq,
          Prod.mk.injEq] at h
        exact base _ h.2.symm h.1.symm

theorem typecastF_scalar_err (fuel : Nat) (opts : Options)
    (fname : Option String) (k : ScalarT) (value : JSValue) (orig : FVal)
    (e : SErr) (after : FVal)
    (h : typecastF (fuel + 1) opts fname (.scalar k) value orig
      = some (.errS e after)) :
    after = orig ∧
    typecastScalar opts k fname value (errValOfF orig) = .error e := by
  rcases hts : typecastScalar opts k fname value (errValOfF orig) with er | a
  · simp only [typecastF, hts] at h
    split at h
    · simp at h
    · simp only [Option.some.injEq, TCRes.errS.injEq] at h
      exact ⟨h.2.symm, by rw [h.1]⟩
  · simp only [typecastF, hts] at h
    split at h <;> simp at h

theorem typecastF_objT_err (fuel : Nat) (opts : Options)
    (fname : Option String) (sub : Option Schema) (value : JSValue)
    (orig : FVal) (e : SErr) (after : FVal)
    (h : typecastF (fuel + 1) opts fname (.objT sub) value orig
      = some (.errS e after)) :
    after = orig := by
  simp only [typecastF] at h
  split at h
  · simp at h
  · by_cases hobj : value.isObjectJS
    · simp only [hobj, Bool.not_true, Bool.false_eq_true, if_false] at h
      cases sub with
      | some subsch =>
        cases orig with
        | instV i =>
          rcases hc : clearFieldsF fuel opts subsch i with _ | cleared <;>
            simp only [hc] at h
          · exact Option.noConfusion h
          · rcases hp : populateF fuel opts subsch cleared (jsOwnKeys value)
              with _ | filled <;> simp only [hp] at h
            · exact Option.noConfusion h
            · simp at h
        | prim p =>
          cases p <;> simp at h
          rcases hc : constructF fuel opts subsch (.obj []) with _ | fresh <;>
            simp only [hc] at h
          · exact Option.noConfusion h
          · rcases hp : populateF fuel opts subsch fresh (jsOwnKeys value)
              with _ | filled <;> simp only [hp] at h
            · exact Option.noConfusion h
            · simp at h
        | arrV xs => simp at h
      | none => simp at h
    · simp only [hobj, Bool.not_false, if_true, Option.some.injEq,
        TCRes.errS.injEq] at h
      exact h.2.symm

/-- C1: assigning a non-readOnly field never throws — the setter is total
and absorbs the typecast error — and every completed assignment either
succeeds with no error recorded, or appends exactly one error record to the
instance's log; on rejection a scalar field's stored value (and the whole
instance store) is exactly what it was before, and an object field's stored
value is exactly what a mere read would have materialized. The array
branch's in-place clear-and-repush on rejection is the defined
partial-acceptance policy carved out by the claim, like clip's partial
acceptance on strings (which is an accepting, not a rejecting, run). -/
theorem C1_failed_write (fuel : Nat) (opts : Options) (name : String)
    (common : FieldCommon) (t : FType) (inst : Inst) (value : JSValue)
    (inst' : Inst) (hro : common.readOnly = false)
    (h : setFieldF (fuel + 1) opts name common t inst value = some inst') :
    ∃ orig mid, readFieldF fuel opts name common t inst = some (orig, mid) ∧
      ((∃ store, typecastF fuel opts (some name) t value orig
          = some (.okS store) ∧
          inst' = mid.setVal name store ∧ inst'.errors = inst.errors) ∨
       (∃ e after, typecastF fuel opts (some name) t value orig
          = some (.errS e after) ∧
          inst' = (mid.setVal name after).pushErr e ∧
          inst'.errors = inst.errors ++ [e] ∧ inst'.get name = after ∧
          (∀ k, t = .scalar k → after = orig ∧ mid = inst ∧
            inst'.get name = inst.get name) ∧
          (∀ sub, t = .objT sub → after = orig ∧
            inst'.get name = mid.get name))) := by
  cases fuel with
  | zero => simp [setFieldF, hro, readFieldF] at h
  | succ f =>
    simp only [setFieldF, hro, Bool.false_eq_true, if_false] at h
    rcases hr : readFieldF (f + 1) opts name common t inst with _ | ⟨orig, mid⟩
    · simp only [hr] at h
      exact Option.noConfusion h
    · simp only [hr] at h
      refine ⟨orig, mid, rfl, ?_⟩
      obtain ⟨hg, he, -⟩ :=
        readFieldF_props f opts name common t inst orig mid hr
      rcases ht : typecastF (f + 1) opts (some name) t value orig with _ | res
      · simp only [ht] at h
        exact Option.noConfusion h
      · simp only [ht] at h
        cases res with
        | okS store =>
          left
          simp only [Option.some.injEq] at h
          refine ⟨store, rfl, h.symm, ?_⟩
          rw [← h, errors_setVal, he]
        | errS e after =>
          right
          simp only [Option.some.injEq] at h
          refine ⟨e, after, rfl, h.symm, ?_, ?_, ?_, ?_⟩
          · rw [← h, errors_pushErr, errors_setVal, he]
          · rw [← h, get_pushErr, get_setVal_self]
          · intro k hk
            subst hk
            obtain ⟨hao, -⟩ :=
              typecastF_scalar_err f opts (some name) k value orig e after ht
            have hsc : orig = inst.get name ∧ mid = inst := by
              simp only [readFieldF, Option.some.injEq, Prod.mk.injEq] at hr
              exact ⟨hr.1.symm, hr.2.symm⟩
            refine ⟨hao, hsc.2, ?_⟩
            rw [← h, get_pushErr, get_setVal_self, hao, hsc.1]
          · intro sub hsub
            subst hsub
            have hao :=
              typecastF_objT_err f opts (some name) sub value orig e after ht
            refine ⟨hao, ?_⟩
            rw [← h, get_pushErr, get_setVal_self, hao, hg]

/-- C1 witness: the `"-1"` assignment against `age: {type: number, min: 0}`
completes without throwing, appends exactly the min-validation record, and
leaves the stored 15 in place. -/
theorem C1_witness :
    ∃ orig mid, readFieldF 8 {} "age" {} ageT c1wInst = some (orig, mid) ∧
      ((∃ store, typecastF 8 {} (some "age") ageT (.str "-1") orig
          = some (.okS store) ∧
          c1wInst2 = mid.setVal "age" store ∧
          c1wInst2.errors = c1wInst.errors) ∨
       (∃ e after, typecastF 8 {} (some "age") ageT (.str "-1") orig
          = some (.errS e after) ∧
          c1wInst2 = (mid.setVal "age" after).pushErr e ∧
          c1wInst2.errors = c1wInst.errors ++ [e] ∧
          c1wInst2.get "age" = after ∧
          (∀ k, ageT = .scalar k → after = orig ∧ mid = c1wInst ∧
            c1wInst2.get "age" = c1wInst.get "age") ∧
          (∀ sub, ageT = .objT sub → after = orig ∧
            c1wInst2.get "age" = mid.get "age"))) :=
  C1_failed_write 8 {} "age" {} ageT c1wInst (.str "-1") c1wInst2 rfl rfl

/-- C5: on a date-typed field, every error the typecast raises for an input
of the accepted shapes (a date value, a number, or a string) is the
`DateParseValidationError` — a ValidationError with code 1231 in the 12xx
validation group — never a CastError; and every error raised for the other
shapes is the `DateCastError` (code 1105), whose inputs are exactly the
boolean/array/object shapes. -/
theorem C5_date_error_classification (opts : Options) (fname : Option String)
    (v : JSValue) (orig : ErrVal) (e : SErr)
    (h : typecastScalar opts .dateT fname v orig = .error e) :
    ((v.isDateJS || v.isStringJS || v.isNumberJS) = true →
      e.errorType = some "ValidationError" ∧ e.errorCode = 1231) ∧
    ((v.isDateJS || v.isStringJS || v.isNumberJS) = false →
      e.errorType = some "CastError" ∧ e.errorCode = 1105 ∧
        (v.isObjectJS || v.isArrayJS || v.isBooleanJS) = true) := by
  cases v with
  | undef => simp [typecastScalar, isNullV, isUndefV] at h
  | null =>
    simp only [typecastScalar, isNullV, isUndefV, isEmptyStrV] at h
    rcases Bool.eq_false_or_eq_true opts.preserveNull with hp | hp <;>
      simp [hp] at h
  | bool b =>
    refine ⟨fun ht => by simp [JSValue.isDateJS, JSValue.isStringJS,
      JSValue.isNumberJS] at ht, fun _ => ?_⟩
    simp only [typecastScalar, isNullV, isUndefV, isEmptyStrV] at h
    simp [JSValue.isDateJS, JSValue.isStringJS, JSValue.isNumberJS] at h
    subst h
    exact ⟨rfl, rfl, by simp [JSValue.isObjectJS, JSValue.isArrayJS,
      JSValue.isBooleanJS]⟩
  | arr xs =>
    refine ⟨fun ht => by simp [JSValue.isDateJS, JSValue.isStringJS,
      JSValue.isNumberJS] at ht, fun _ => ?_⟩
    simp only [typecastScalar, isNullV, isUndefV, isEmptyStrV] at h
    simp [JSValue.isDateJS, JSValue.isStringJS, JSValue.isNumberJS] at h
    subst h
    exact ⟨rfl, rfl, by simp [JSValue.isObjectJS, JSValue.isArrayJS,
      JSValue.isBooleanJS]⟩
  | obj kvs =>
    refine ⟨fun ht => by simp [JSValue.isDateJS, JSValue.isStringJS,
      JSValue.isNumberJS] at ht, fun _ => ?_⟩
    simp only [typecastScalar, isNullV, isUndefV, isEmptyStrV] at h
    simp [JSValue.isDateJS, JSValue.isStringJS, JSValue.isNumberJS] at h
    subst h
    exact ⟨rfl, rfl, by simp [JSValue.isObjectJS, JSValue.isArrayJS,
      JSValue.isBooleanJS]⟩
  | date ms =>
    simp [typecastScalar, isNullV, isUndefV, isEmptyStrV, isNumeric,
      JSValue.isDateJS, JSValue.isStringJS, JSValue.isNumberJS] at h
  | num q =>
    refine ⟨fun _ => ?_, fun hf => by simp [JSValue.isNumberJS] at hf⟩
    simp [typecastScalar, isNullV, isUndefV, isEmptyStrV,
      JSValue.isDateJS, JSValue.isStringJS, JSValue.isNumberJS,
      JSValue.isObjectJS, JSValue.isArrayJS, isNumeric] at h
    all_goals try split at h
    all_goals try split at h
    all_goals
      first
      | exact Except.noConfusion h
      | (simp only [Except.error.injEq] at h; subst h; exact ⟨rfl, rfl⟩)
  | str s =>
    refine ⟨fun _ => ?_, fun hf => by simp [JSValue.isStringJS] at hf⟩
    simp [typecastScalar, isNullV, isUndefV, isEmptyStrV,
      JSValue.isDateJS, JSValue.isStringJS, JSValue.isNumberJS,
      JSValue.isObjectJS, JSValue.isArrayJS, isNumeric] at h
    all_goals try split at h
    all_goals try split at h
    all_goals try split at h
    all_goals try split at h
    all_goals
      first
      | exact Except.noConfusion h
      | (simp only [Except.error.injEq] at h; subst h; exact ⟨rfl, rfl⟩)

/-- C5 witness: the unparseable string `"not a date"` raises exactly the
`DateParseValidationError` (ValidationError, code 1231). -/
theorem C5_witness :
    typecastScalar {} .dateT none (.str "not a date") .nonPlain
      = .error (mkDateParseErr .nan .nonPlain none) ∧
    (mkDateParseErr .nan .nonPlain none).errorType = some "ValidationError" ∧
    (mkDateParseErr .nan .nonPlain none).errorCode = 1231 :=
  ⟨rfl, (C5_date_error_classification {} none (.str "not a date") .nonPlain
      (mkDateParseErr .nan .nonPlain none) rfl).1 rfl⟩

/-- C10: a field declared required (boolean `true` or pair form) whose
current value is the boolean `false` is never reported as
required-but-missing by the retrieval-time check, whatever the
`allowFalsyValues` option says; by contrast a field holding the empty string
satisfies required exactly when `allowFalsyValues` is enabled, and is
otherwise reported with the base `SetterError`. -/
theorem C10_required_false_boolean (fuel : Nat) (opts : Options)
    (name : String) (k : ScalarT) (common : FieldCommon) (inst : Inst)
    (hreq : common.required = .rbare true ∨ ∃ m, common.required = .rpair true m) :
    (inst.get name = .prim (.bool false) →
      requiredErrF (fuel + 1) opts name common (.scalar k) inst
        = some (none, inst)) ∧
    (inst.get name = .prim (.str "") →
      (opts.allowFalsyValues = true →
        requiredErrF (fuel + 1) opts name common (.scalar k) inst
          = some (none, inst)) ∧
      (opts.allowFalsyValues = false →
        ∃ msg, requiredErrF (fuel + 1) opts name common (.scalar k) inst
          = some (some (mkSetterError msg (.js (.str "")) (.js (.str ""))
              (some name)), inst))) := by
  have hread : readFieldF (fuel + 1) opts name common (.scalar k) inst
      = some (inst.get name, inst) := by
    simp [readFieldF]
  constructor
  · intro hval
    rcases hreq with hr | ⟨m, hr⟩ <;>
      simp [requiredErrF, hr, hread, hval, FVal.truthy, FVal.isBool]
  · intro hval
    constructor
    · intro ha
      rcases hreq with hr | ⟨m, hr⟩ <;>
        simp [requiredErrF, hr, hread, hval, FVal.truthy, FVal.isBool,
          FVal.isUndef, JSValue.jsTruthy, ha]
    · intro ha
      rcases hreq with hr | ⟨m, hr⟩
      · refine ⟨name ++ " is required but not provided", ?_⟩
        simp [requiredErrF, hr, hread, hval, FVal.truthy, FVal.isBool,
          FVal.isUndef, JSValue.jsTruthy, ha, errValOfF]
      · refine ⟨if m = "" then name ++ " is required but not provided" else m, ?_⟩
        simp [requiredErrF, hr, hread, hval, FVal.truthy, FVal.isBool,
          FVal.isUndef, JSValue.jsTruthy, ha, errValOfF]

/-- C10 witness: with `allowFalsyValues` disabled, a required boolean field
holding `false` synthesizes no required error, while one holding the empty
string does. -/
theorem C10_witness :
    requiredErrF 1 { allowFalsyValues := false } "flag"
      { required := .rbare true } (.scalar .boolT)
      (Inst.mk [] [("flag", .prim (.bool false))])
      = some (none, Inst.mk [] [("flag", .prim (.bool false))]) ∧
    (∃ msg, requiredErrF 1 { allowFalsyValues := false } "note"
      { required := .rbare true } (.scalar (.strT {}))
      (Inst.mk [] [("note", .prim (.str ""))])
      = some (some (mkSetterError msg (.js (.str "")) (.js (.str ""))
          (some "note")), Inst.mk [] [("note", .prim (.str ""))])) :=
  ⟨(C10_required_false_boolean 0 { allowFalsyValues := false } "flag" .boolT
      { required := .rbare true } (Inst.mk [] [("flag", .prim (.bool false))])
      (Or.inl rfl)).1 rfl,
   ((C10_required_false_boolean 0 { allowFalsyValues := false } "note"
      (.strT {}) { required := .rbare true }
      (Inst.mk [] [("note", .prim (.str ""))]) (Or.inl rfl)).2 rfl).2 rfl⟩

/-- C9 (amended): a read of an object-typed field observes null or undefined
only when the field declares `default: null` (and then it observes exactly
that null); a read of an array-typed field never observes null or undefined
— in every other case the lazy materialization returns a default value, a
fresh nested instance, a plain object, or a wrapper. -/
theorem C9_lazy_read_nullish_only_from_null_default (fuel : Nat)
    (opts : Options) (name : String) (common : FieldCommon) (inst : Inst)
    (v : FVal) (inst' : Inst) :
    (∀ sub, readFieldF (fuel + 1) opts name common (.objT sub) inst
        = some (v, inst') →
      (v = .prim .null ∨ v = .prim .undef) →
      common.dflt = .null ∧ v = .prim .null) ∧
    (∀ u elem, readFieldF (fuel + 1) opts name common (.arrT u elem) inst
        = some (v, inst') →
      v ≠ .prim .null ∧ v ≠ .prim .undef) := by
  constructor
  · intro sub h hnull
    simp only [readFieldF] at h
    by_cases ht : (inst.get name).truthy
    · simp only [ht, Bool.not_true, Bool.false_eq_true, if_false,
        Option.some.injEq, Prod.mk.injEq] at h
      rcases h with ⟨hv, _⟩
      rcases hnull with hn | hn <;> rw [hv, hn] at ht <;>
        simp [FVal.truthy, JSValue.jsTruthy] at ht
    · simp only [ht, Bool.not_false, if_true] at h
      by_cases hd : isUndefV common.dflt
      · simp only [hd, Bool.not_true, Bool.false_eq_true, if_false] at h
        rcases hnull with hn | hn <;> subst hn <;>
          rcases sub with _ | subsch
        · simp at h
        · rcases hc : constructF fuel opts subsch (.obj []) with _ | ni <;>
            simp [hc] at h
        · simp at h
        · rcases hc : constructF fuel opts subsch (.obj []) with _ | ni <;>
            simp [hc] at h
      · simp only [hd, Bool.not_false, if_true, Option.some.injEq,
          Prod.mk.injEq] at h
        rcases h with ⟨hv, _⟩
        rcases hnull with hn | hn <;> rw [hn] at hv
        · injection hv with h2
          exact ⟨h2, hn⟩
        · injection hv with h2
          rw [h2] at hd
          exact absurd rfl hd
  · intro u elem h
    simp only [readFieldF] at h
    by_cases ht : (inst.get name).truthy
    · simp only [ht, Bool.not_true, Bool.false_eq_true, if_false,
        Option.some.injEq, Prod.mk.injEq] at h
      rcases h with ⟨hv, _⟩
      constructor <;> intro hn <;> rw [hv, hn] at ht <;>
        simp [FVal.truthy, JSValue.jsTruthy] at ht
    · simp only [ht, Bool.not_false, if_true, Option.some.injEq,
        Prod.mk.injEq] at h
      rcases h with ⟨hv, _⟩
      constructor <;> intro hn <;> rw [hn] at hv <;> cases hv
/-- C9 witness: the null-default object field materializes exactly its null,
and reading an unset array field materializes the (non-null) empty wrapper. -/
theorem C9_witness :
    (FieldCommon.dflt { dflt := .null } = .null ∧
      (.prim .null : FVal) = .prim .null) ∧
    ((.arrV [] : FVal) ≠ .prim .null ∧ (.arrV [] : FVal) ≠ .prim .undef) :=
  ⟨(C9_lazy_read_nullish_only_from_null_default 0 {} "profile"
      { dflt := .null } emptyInst (.prim .null)
      (Inst.mk [] [("profile", .prim .null)])).1 none rfl (Or.inl rfl),
   (C9_lazy_read_nullish_only_from_null_default 0 {} "tags" {} emptyInst
      (.arrV []) (Inst.mk [] [("tags", .arrV [])])).2 false none rfl⟩

/-- C6 counterexample: compiling the raw schema `{ age: { type: 'number' } }`
(triggered by instance construction) leaves the declaration object at
address 1 untouched but overwrites the caller's schema object at address 0:
its `age` slot now references the freshly allocated normalized clone instead
of the caller's declaration. -/
theorem C6_schema_object_is_written :
    constructNormalizeH 9 c6st0 0 =
      some [.hobj [("age", .href 2)], .hobj [("type", .hstr "number")],
            .hobj [("type", .hstr "number"), ("name", .hstr "age")]] ∧
    (constructNormalizeH 9 c6st0 0).bind (fun st => st[1]?) = c6st0[1]? ∧
    (constructNormalizeH 9 c6st0 0).bind (fun st => st[0]?) ≠ c6st0[0]? := by
  refine ⟨rfl, rfl, ?_⟩
  show some (HEnt.hobj [("age", .href 2)]) ≠ some (HEnt.hobj [("age", .href 1)])
  intro h
  simp only [Option.some.injEq, HEnt.hobj.injEq, List.cons.injEq,
    Prod.mk.injEq, HVal.href.injEq] at h
  exact absurd h.1.2 (by decide)

/-- A successful property write changes no store address other than the
target and keeps the store's length. -/
theorem hSetField_pres (st : Store) (a : Nat) (k : String) (v : HVal)
    (st' : Store) (h : hSetField st a k v = some st') :
    st'.length = st.length ∧ ∀ b, b ≠ a → st'[b]? = st[b]? := by
  unfold hSetField at h
  split at h
  · simp only [Option.some.injEq] at h
    subst h
    exact ⟨List.length_set .., fun b hb => List.getElem?_set_ne hb.symm⟩
  · exact Option.noConfusion h

/-- The `type.type` merge writes only to its target address. -/
theorem mergeTypeObjH_pres (tfields : List (String × HVal)) (st : Store)
    (target : Nat) (st' : Store)
    (h : mergeTypeObjH st target tfields = some st') :
    st'.length = st.length ∧ ∀ b, b ≠ target → st'[b]? = st[b]? := by
  induction tfields generalizing st with
  | nil =>
    simp only [mergeTypeObjH, Option.some.injEq] at h
    subst h
    exact ⟨rfl, fun _ _ => rfl⟩
  | cons p rest ih =>
    rcases p with ⟨k, v⟩
    simp only [mergeTypeObjH] at h
    rcases hg : hGetField st (.href target) k with _ | cur
    · rw [hg] at h
      exact Option.noConfusion h
    · rw [hg] at h
      by_cases hu : isUndefH cur
      · simp only [hu, if_true] at h
        rcases hs : hSetField st target k v with _ | st1
        · rw [hs] at h
          exact Option.noConfusion h
        · rw [hs] at h
          obtain ⟨hl1, hp1⟩ := hSetField_pres st target k v st1 hs
          obtain ⟨hl2, hp2⟩ := ih st1 h
          exact ⟨hl2.trans hl1, fun b hb => (hp2 b hb).trans (hp1 b hb)⟩
      · simp only [hu, Bool.false_eq_true, if_false] at h
        exact ih st h

/-- `cloneDeep` of a field list holding no references copies it verbatim and
allocates nothing. -/
theorem cloneDeepFields_flat_inv (fields : List (String × HVal)) :
    ∀ fuel st res, (∀ p ∈ fields, ∀ a : Nat, p.2 ≠ .href a) →
    cloneDeepFields fuel st fields = some res → res = (st, fields) := by
  induction fields with
  | nil =>
    intro fuel st res _ h
    cases fuel with
    | zero => exact Option.noConfusion h
    | succ f =>
      simp only [cloneDeepFields, Option.some.injEq] at h
      exact h.symm
  | cons p rest ih =>
    intro fuel st res hflat h
    rcases p with ⟨k, v⟩
    cases fuel with
    | zero => exact Option.noConfusion h
    | succ f =>
      have hstep : cloneDeepFields (f + 1) st ((k, v) :: rest)
          = (match cloneDeepV f st v with
            | some (st1, v') =>
              (match cloneDeepFields f st1 rest with
              | some (st2, rest') => some (st2, (k, v') :: rest')
              | none => none)
            | none => none) := rfl
      rw [hstep] at h
      rcases hv : cloneDeepV f st v with _ | ⟨st1, v'⟩
      · rw [hv] at h
        exact Option.noConfusion h
      · rw [hv] at h
        have h4 : (match cloneDeepFields f st1 rest with
          | some (st2, rest') => some (st2, (k, v') :: rest')
          | none => none) = some res := h
        obtain ⟨hst1, hv'⟩ : st1 = st ∧ v' = v := by
          cases f with
          | zero => exact Option.noConfusion hv
          | succ g =>
            have hred : cloneDeepV (g + 1) st v = some (st, v) := by
              cases v with
              | href a => exact absurd rfl (hflat (k, .href a) (by simp) a)
              | hundef => rfl
              | hnull => rfl
              | hbool b => rfl
              | hnum q => rfl
              | hstr s => rfl
              | hfun n => rfl
              | hfactory s => rfl
            rw [hred] at hv
            have h2 := Option.some.inj hv
            simp only [Prod.mk.injEq] at h2
            exact ⟨h2.1.symm, h2.2.symm⟩
        rw [hst1, hv'] at h4
        rcases hrest : cloneDeepFields f st rest with _ | ⟨st2, rest'⟩
        · rw [hrest] at h4
          exact Option.noConfusion h4
        · rw [hrest] at h4
          have h5 : some (st2, (k, v) :: rest') = some res := h4
          have h3 := ih f st (st2, rest')
            (fun p hp a => hflat p (by simp [hp]) a) hrest
          simp only [Prod.mk.injEq] at h3
          obtain ⟨h3a, h3b⟩ := h3
          rw [h3a, h3b] at h5
          exact (Option.some.inj h5).symm

/-- `cloneDeep` of a reference to a flat plain object appends exactly one
fresh copy of it and returns the fresh reference. -/
theorem cloneDeepV_flat_inv (fuel : Nat) (st : Store) (a : Nat)
    (fields : List (String × HVal)) (res : Store × HVal)
    (ha : st[a]? = some (.hobj fields))
    (hflat : ∀ p ∈ fields, ∀ b : Nat, p.2 ≠ .href b)
    (h : cloneDeepV fuel st (.href a) = some res) :
    res = (st ++ [.hobj fields], .href st.length) := by
  cases fuel with
  | zero => exact Option.noConfusion h
  | succ f =>
    have hstep : cloneDeepV (f + 1) st (.href a)
        = (match st[a]? with
          | some ent =>
            (match cloneDeepEnt f st ent with
            | some (st', ent') => some (st' ++ [ent'], HVal.href st'.length)
            | none => none)
          | none => none) := rfl
    rw [hstep, ha] at h
    have h2 : (match cloneDeepEnt f st (.hobj fields) with
      | some (st', ent') => some (st' ++ [ent'], HVal.href st'.length)
      | none => none) = some res := h
    rcases hent : cloneDeepEnt f st (.hobj fields) with _ | ⟨st2, ent2⟩
    · rw [hent] at h2
      exact Option.noConfusion h2
    · rw [hent] at h2
      obtain ⟨he1, he2⟩ : st2 = st ∧ ent2 = .hobj fields := by
        cases f with
        | zero => exact Option.noConfusion hent
        | succ g =>
          have hstep2 : cloneDeepEnt (g + 1) st (.hobj fields)
              = (match cloneDeepFields g st fields with
                | some (st3, fields') => some (st3, HEnt.hobj fields')
                | none => none) := rfl
          rw [hstep2] at hent
          rcases hf : cloneDeepFields g st fields with _ | ⟨st3, fields'⟩
          · rw [hf] at hent
            exact Option.noConfusion hent
          · rw [hf] at hent
            have h3 := cloneDeepFields_flat_inv fields g st (st3, fields')
              hflat hf
            simp only [Prod.mk.injEq] at h3
            obtain ⟨h3a, h3b⟩ := h3
            rw [h3a, h3b] at hent
            have h4 := Option.some.inj hent
            simp only [Prod.mk.injEq] at h4
            exact ⟨h4.1.symm, h4.2.symm⟩
      rw [he1, he2] at h2
      exact (Option.some.inj h2).symm

/-- The shorthand stage, when it produces a reference, produces a fresh one:
the result store is the input store plus one appended entity, and the
reference points at it. -/
theorem normStage1H_chr (fuel : Nat) (st : Store) (decl : HVal)
    (st1 : Store) (target : Nat)
    (hdecl : ∀ a : Nat, decl = .href a →
      ∃ fields, st[a]? = some (.hobj fields) ∧
        ∀ p ∈ fields, ∀ b : Nat, p.2 ≠ .href b)
    (h : normStage1H fuel st decl = some (st1, .href target)) :
    target = st.length ∧ ∃ ent, st1 = st ++ [ent] := by
  unfold normStage1H at h
  rcases hg : hGetField st decl "type" with _ | ty
  · rw [hg] at h
    have h2 : (if hvalTruthy decl = true then none
        else some (st, decl) : Option (Store × HVal))
        = some (st1, HVal.href target) := h
    by_cases ht : hvalTruthy decl = true
    · rw [if_pos ht] at h2
      exact Option.noConfusion h2
    · rw [if_neg ht] at h2
      have h3 : (st, decl) = (st1, HVal.href target) := Option.some.inj h2
      have hd : decl = .href target := congrArg Prod.snd h3
      rw [hd] at ht
      exact absurd rfl ht
  · rw [hg] at h
    have h2 : (if hvalTruthy decl = true then
        if isUndefH ty = true then
          some (st ++ [HEnt.hobj [("type", decl)]], HVal.href st.length)
        else cloneDeepV fuel st decl
      else some (st, decl)) = some (st1, HVal.href target) := h
    by_cases ht : hvalTruthy decl = true
    · rw [if_pos ht] at h2
      by_cases hu : isUndefH ty = true
      · rw [if_pos hu] at h2
        have h3 : (st ++ [HEnt.hobj [("type", decl)]], HVal.href st.length)
            = (st1, HVal.href target) := Option.some.inj h2
        have hA : st ++ [HEnt.hobj [("type", decl)]] = st1 :=
          congrArg Prod.fst h3
        have hB : HVal.href st.length = HVal.href target :=
          congrArg Prod.snd h3
        exact ⟨(HVal.href.inj hB).symm, _, hA.symm⟩
      · rw [if_neg hu] at h2
        cases decl with
        | hnull => exact Option.noConfusion hg
        | hundef => exact Option.noConfusion hg
        | hbool b =>
          have hy := Option.some.inj hg
          rw [← hy] at hu
          exact absurd rfl hu
        | hnum q =>
          have hy := Option.some.inj hg
          rw [← hy] at hu
          exact absurd rfl hu
        | hstr s =>
          have hy := Option.some.inj hg
          rw [← hy] at hu
          exact absurd rfl hu
        | hfun n =>
          have hy := Option.some.inj hg
          rw [← hy] at hu
          exact absurd rfl hu
        | hfactory s =>
          have hy := Option.some.inj hg
          rw [← hy] at hu
          exact absurd rfl hu
        | href a =>
          obtain ⟨fields, ha, hfl⟩ := hdecl a rfl
          have h3 := cloneDeepV_flat_inv fuel st a fields
            (st1, .href target) ha hfl h2
          have hA : st1 = st ++ [HEnt.hobj fields] := congrArg Prod.fst h3
          have hB : (HVal.href target : HVal) = .href st.length :=
            congrArg Prod.snd h3
          exact ⟨HVal.href.inj hB, _, hA⟩
    · rw [if_neg ht] at h2
      have h3 : (st, decl) = (st1, HVal.href target) := Option.some.inj h2
      have hd : decl = .href target := congrArg Prod.snd h3
      rw [hd] at ht
      exact absurd rfl ht

/-- The type-merge step writes only to its target address. -/
theorem normStep2H_pres (st : Store) (target : Nat) (ty : HVal) (st' : Store)
    (h : normStep2H st target ty = some st') :
    st'.length = st.length ∧ ∀ b, b ≠ target → st'[b]? = st[b]? := by
  unfold normStep2H at h
  split at h
  · split at h
    · split at h
      · obtain rfl := Option.some.inj h
        exact ⟨rfl, fun _ _ => rfl⟩
      · split at h
        · rename_i stm hm
          obtain ⟨l1, f1⟩ := mergeTypeObjH_pres _ _ _ _ hm
          obtain ⟨l2, f2⟩ := hSetField_pres _ _ _ _ _ h
          exact ⟨l2.trans l1, fun b hb => (f2 b hb).trans (f1 b hb)⟩
        · exact Option.noConfusion h
    · obtain rfl := Option.some.inj h
      exact ⟨rfl, fun _ _ => rfl⟩
  · obtain rfl := Option.some.inj h
    exact ⟨rfl, fun _ _ => rfl⟩

/-- The any/name-collapse step writes only to its target address. -/
theorem normStep3H_pres (st : Store) (target : Nat) (ty : HVal) (st' : Store)
    (h : normStep3H st target ty = some st') :
    st'.length = st.length ∧ ∀ b, b ≠ target → st'[b]? = st[b]? := by
  unfold normStep3H at h
  split at h
  · exact hSetField_pres _ _ _ _ _ h
  · exact hSetField_pres _ _ _ _ _ h
  · split at h
    · split at h
      · exact hSetField_pres _ _ _ _ _ h
      · obtain rfl := Option.some.inj h
        exact ⟨rfl, fun _ _ => rfl⟩
    · obtain rfl := Option.some.inj h
      exact ⟨rfl, fun _ _ => rfl⟩

/-- The lowercase step writes only to its target address. -/
theorem normStep4H_pres (st : Store) (target : Nat) (ty : HVal) (st' : Store)
    (h : normStep4H st target ty = some st') :
    st'.length = st.length ∧ ∀ b, b ≠ target → st'[b]? = st[b]? := by
  unfold normStep4H at h
  split at h
  · exact hSetField_pres _ _ _ _ _ h
  · obtain rfl := Option.some.inj h
    exact ⟨rfl, fun _ _ => rfl⟩

/-- The array-shorthand step writes only to its target address. -/
theorem normStep5H_pres (st : Store) (target : Nat) (ty : HVal) (st' : Store)
    (h : normStep5H st target ty = some st') :
    st'.length = st.length ∧ ∀ b, b ≠ target → st'[b]? = st[b]? := by
  unfold normStep5H at h
  split at h
  · split at h
    · split at h
      · rename_i stm hm
        have hf1 : stm.length = st.length ∧
            ∀ b, b ≠ target → stm[b]? = st[b]? := by
          split at hm
          · obtain rfl := Option.some.inj hm
            exact ⟨rfl, fun _ _ => rfl⟩
          · exact hSetField_pres _ _ _ _ _ hm
        obtain ⟨l2, f2⟩ := hSetField_pres _ _ _ _ _ h
        exact ⟨l2.trans hf1.1, fun b hb => (f2 b hb).trans (hf1.2 b hb)⟩
      · exact Option.noConfusion h
    · obtain rfl := Option.some.inj h
      exact ⟨rfl, fun _ _ => rfl⟩
  · obtain rfl := Option.some.inj h
    exact ⟨rfl, fun _ _ => rfl⟩

/-- The function/object step writes only to its target address. -/
theorem normStep6H_pres (st : Store) (target : Nat) (ty : HVal) (st' : Store)
    (h : normStep6H st target ty = some st') :
    st'.length = st.length ∧ ∀ b, b ≠ target → st'[b]? = st[b]? := by
  unfold normStep6H at h
  split at h
  · obtain rfl := Option.some.inj h
    exact ⟨rfl, fun _ _ => rfl⟩
  · split at h
    · split at h
      · rename_i stm hm
        obtain ⟨l1, f1⟩ := hSetField_pres _ _ _ _ _ hm
        obtain ⟨l2, f2⟩ := hSetField_pres _ _ _ _ _ h
        exact ⟨l2.trans l1, fun b hb => (f2 b hb).trans (f1 b hb)⟩
      · exact Option.noConfusion h
    · split at h
      · split at h
        · rename_i stm hm
          have hf1 : stm.length = st.length ∧
              ∀ b, b ≠ target → stm[b]? = st[b]? := by
            split at hm
            · exact hSetField_pres _ _ _ _ _ hm
            · obtain rfl := Option.some.inj hm
              exact ⟨rfl, fun _ _ => rfl⟩
          obtain ⟨l2, f2⟩ := hSetField_pres _ _ _ _ _ h
          exact ⟨l2.trans hf1.1, fun b hb => (f2 b hb).trans (hf1.2 b hb)⟩
        · exact Option.noConfusion h
      · obtain rfl := Option.some.inj h
        exact ⟨rfl, fun _ _ => rfl⟩

/-- The name step writes only to its target address. -/
theorem normStep7H_pres (st : Store) (target : Nat) (name : Option String)
    (st' : Store) (h : normStep7H st target name = some st') :
    st'.length = st.length ∧ ∀ b, b ≠ target → st'[b]? = st[b]? := by
  unfold normStep7H at h
  split at h
  · exact hSetField_pres _ _ _ _ _ h
  · obtain rfl := Option.some.inj h
    exact ⟨rfl, fun _ _ => rfl⟩

/-- `normalizeProperties` of a flat declaration never writes to a
pre-existing store address: all its mutations hit the freshly allocated
wrapper/clone. -/
theorem normalizePropsH_frame (fuel : Nat) (st : Store) (decl : HVal)
    (name : Option String) (st' : Store) (r : HVal)
    (hdecl : ∀ a : Nat, decl = .href a →
      ∃ fields, st[a]? = some (.hobj fields) ∧
        ∀ p ∈ fields, ∀ b : Nat, p.2 ≠ .href b)
    (h : normalizePropsH fuel st decl name = some (st', r)) :
    (∀ b, b < st.length → st'[b]? = st[b]?) ∧ st.length ≤ st'.length := by
  unfold normalizePropsH at h
  split at h
  · exact Option.noConfusion h
  · rename_i st1 properties h1
    split at h
    · rename_i target
      obtain ⟨htar, ent, hst1⟩ := normStage1H_chr fuel st decl st1 target
        hdecl h1
      subst htar
      subst hst1
      split at h
      · exact Option.noConfusion h
      · rename_i ty1 hty1
        split at h
        · exact Option.noConfusion h
        · rename_i st2 hs2
          obtain ⟨hl2, hf2⟩ := normStep2H_pres _ _ _ _ hs2
          split at h
          · exact Option.noConfusion h
          · rename_i ty2 hty2
            split at h
            · exact Option.noConfusion h
            · rename_i st3 hs3
              obtain ⟨hl3, hf3⟩ := normStep3H_pres _ _ _ _ hs3
              split at h
              · exact Option.noConfusion h
              · rename_i ty3 hty3
                split at h
                · exact Option.noConfusion h
                · rename_i st4 hs4
                  obtain ⟨hl4, hf4⟩ := normStep4H_pres _ _ _ _ hs4
                  split at h
                  · exact Option.noConfusion h
                  · rename_i ty4 hty4
                    split at h
                    · exact Option.noConfusion h
                    · rename_i st5 hs5
                      obtain ⟨hl5, hf5⟩ := normStep5H_pres _ _ _ _ hs5
                      split at h
                      · exact Option.noConfusion h
                      · rename_i ty5 hty5
                        split at h
                        · exact Option.noConfusion h
                        · rename_i st6 hs6
                          obtain ⟨hl6, hf6⟩ := normStep6H_pres _ _ _ _ hs6
                          split at h
                          · rename_i st7 hs7
                            obtain ⟨hl7, hf7⟩ := normStep7H_pres _ _ _ _ hs7
                            have h2 := Option.some.inj h
                            have hst' : st' = st7 :=
                              (congrArg Prod.fst h2).symm
                            subst hst'
                            have hlen1 : (st ++ [ent]).length = st.length + 1 := by
                              simp
                            constructor
                            · intro b hb
                              have hbne : b ≠ st.length := Nat.ne_of_lt hb
                              rw [hf7 b hbne, hf6 b hbne, hf5 b hbne,
                                hf4 b hbne, hf3 b hbne, hf2 b hbne]
                              rw [List.getElem?_append]
                              exact if_pos hb
                            · omega
                          · exact Option.noConfusion h
    · exact Option.noConfusion h

/-- Indexing a list at the position just overwritten. -/
theorem getElem?_set_self_of_lt (l : List HEnt) (i : Nat) (a : HEnt) :
    ∀ _ : i < l.length, (l.set i a)[i]? = some a := by
  induction l generalizing i with
  | nil => intro hlt; exact absurd hlt (by simp)
  | cons x xs ih =>
    intro hlt
    cases i with
    | zero => simp
    | succ n =>
      simp only [List.set_cons_succ, List.getElem?_cons_succ]
      exact ih n (by simpa using hlt)

/-- `hobjSet` leaves every other key's lookup unchanged. -/
theorem hobjLookup_cons (n : String) (w : HVal) (rest : List (String × HVal))
    (k2 : String) :
    hobjLookup ((n, w) :: rest) k2
      = if n = k2 then w else hobjLookup rest k2 := by
  by_cases hnk : n = k2
  · simp [hobjLookup, List.find?, hnk]
  · simp [hobjLookup, List.find?, hnk]

/-- Writing one key of a plain object does not change the other keys. -/
theorem hobjLookup_hobjSet_ne (fields : List (String × HVal)) (k k2 : String)
    (v : HVal) (hne : k2 ≠ k) :
    hobjLookup (hobjSet fields k v) k2 = hobjLookup fields k2 := by
  induction fields with
  | nil =>
    have hn2 : ¬ (k = k2) := fun e => hne e.symm
    simp [hobjSet, hobjLookup, List.find?, hn2]
  | cons p rest ih =>
    rcases p with ⟨n, w⟩
    by_cases hn : n = k
    · have hn2 : ¬ (n = k2) := fun e => hne (e.symm.trans hn)
      simp only [hobjSet, if_pos hn, hobjLookup_cons, if_neg hn2]
    · simp only [hobjSet, if_neg hn, hobjLookup_cons]
      by_cases hk2 : n = k2
      · simp [hk2]
      · simp [hk2, ih]

/-- The result of a successful property write on a known plain object. -/
theorem hSetField_lookup (st : Store) (a : Nat) (k : String) (v : HVal)
    (fields : List (String × HVal)) (st' : Store)
    (ha : st[a]? = some (.hobj fields))
    (h : hSetField st a k v = some st') :
    st' = st.set a (.hobj (hobjSet fields k v)) := by
  unfold hSetField at h
  rw [ha] at h
  exact (Option.some.inj h).symm

/-- A defined index is within bounds. -/
theorem lt_length_of_getElem?_eq_some (l : List HEnt) (i : Nat) (e : HEnt)
    (h : l[i]? = some e) : i < l.length := by
  by_contra hc
  push_neg at hc
  rw [List.getElem?_eq_none hc] at h
  exact Option.noConfusion h

/-- The constructor's normalization loop over flat declarations writes to no
pre-existing store address other than the schema object itself. -/
theorem normalizeLoopH_frame (schemaRef : Nat) (keys : List String) :
    ∀ fuel st sfields st',
    st[schemaRef]? = some (.hobj sfields) →
    keys.Nodup →
    (∀ k ∈ keys, DeclFlat st schemaRef (hobjLookup sfields k)) →
    normalizeLoopH fuel st schemaRef keys = some st' →
    (∀ b, b < st.length → b ≠ schemaRef → st'[b]? = st[b]?) ∧
      st.length ≤ st'.length := by
  induction keys with
  | nil =>
    intro fuel st sfields st' _ _ _ h
    obtain rfl := Option.some.inj h
    exact ⟨fun _ _ _ => rfl, Nat.le_refl _⟩
  | cons k rest ih =>
    intro fuel st sfields st' hs hnd hflat h
    have hstep : normalizeLoopH fuel st schemaRef (k :: rest)
        = (match hGetField st (.href schemaRef) k with
          | some decl =>
            (match normalizePropsH fuel st decl (some k) with
            | some (st1, norm) =>
              (match hSetField st1 schemaRef k norm with
              | some st2 => normalizeLoopH fuel st2 schemaRef rest
              | none => none)
            | none => none)
          | none => none) := rfl
    rw [hstep] at h
    have hg : hGetField st (.href schemaRef) k
        = some (hobjLookup sfields k) := by
      simp [hGetField, hs]
    simp only [hg] at h
    rcases hn : normalizePropsH fuel st (hobjLookup sfields k) (some k)
      with _ | ⟨st1, norm⟩
    · simp only [hn] at h
      exact Option.noConfusion h
    · simp only [hn] at h
      have hdecl : ∀ a : Nat, hobjLookup sfields k = .href a →
          ∃ fields, st[a]? = some (.hobj fields) ∧
            ∀ p ∈ fields, ∀ b : Nat, p.2 ≠ .href b :=
        fun a ha => (hflat k (by simp) a ha).2
      obtain ⟨hf1, hl1⟩ := normalizePropsH_frame fuel st (hobjLookup sfields k)
        (some k) st1 norm hdecl hn
      have hsr_lt : schemaRef < st.length :=
        lt_length_of_getElem?_eq_some st schemaRef _ hs
      have hs1 : st1[schemaRef]? = some (.hobj sfields) :=
        (hf1 schemaRef hsr_lt).trans hs
      rcases hset : hSetField st1 schemaRef k norm with _ | st2
      · simp only [hset] at h
        exact Option.noConfusion h
      · simp only [hset] at h
        have hst2 : st2 = st1.set schemaRef (.hobj (hobjSet sfields k norm)) :=
          hSetField_lookup st1 schemaRef k norm sfields st2 hs1 hset
        have hsr_lt1 : schemaRef < st1.length :=
          lt_length_of_getElem?_eq_some st1 schemaRef _ hs1
        have hs2 : st2[schemaRef]? = some (.hobj (hobjSet sfields k norm)) := by
          rw [hst2]
          exact getElem?_set_self_of_lt st1 schemaRef _ hsr_lt1
        have hnd2 := List.nodup_cons.mp hnd
        have hflat2 : ∀ k2 ∈ rest,
            DeclFlat st2 schemaRef (hobjLookup (hobjSet sfields k norm) k2) := by
          intro k2 hk2
          have hne : k2 ≠ k := fun e => hnd2.1 (e ▸ hk2)
          rw [hobjLookup_hobjSet_ne sfields k k2 norm hne]
          intro a ha
          obtain ⟨hasr, fields, haf, hffl⟩ := hflat k2 (by simp [hk2]) a ha
          refine ⟨hasr, fields, ?_, hffl⟩
          have halt : a < st.length :=
            lt_length_of_getElem?_eq_some st a _ haf
          have h21 : st2[a]? = st1[a]? := by
            rw [hst2]
            exact List.getElem?_set_ne (fun e => hasr e.symm)
          rw [h21, hf1 a halt]
          exact haf
        obtain ⟨hfR, hlR⟩ := ih fuel st2 (hobjSet sfields k norm) st'
          hs2 hnd2.2 hflat2 h
        have hlen2 : st2.length = st1.length := by
          rw [hst2]
          exact List.length_set ..
        constructor
        · intro b hb hbne
          have h2b : st2[b]? = st1[b]? := by
            rw [hst2]
            exact List.getElem?_set_ne (fun e => hbne e.symm)
          have hblt2 : b < st2.length := by omega
          rw [hfR b hblt2 hbne, h2b, hf1 b hb]
        · omega

/-- C6 (amended): compiling a raw schema object whose field declarations are
flat plain objects never writes to any of the caller's pre-existing objects
except the schema object itself — every store address other than the schema
reference holds its original entity after the constructor's normalization
loop (the schema object itself is overwritten, as the counterexample
exhibits). -/
theorem C6_declaration_objects_never_written (fuel : Nat) (st : Store)
    (schemaRef : Nat) (sfields : List (String × HVal)) (st' : Store)
    (hs : st[schemaRef]? = some (.hobj sfields))
    (hnd : (sfields.map Prod.fst).Nodup)
    (hflat : ∀ k ∈ sfields.map Prod.fst,
      DeclFlat st schemaRef (hobjLookup sfields k))
    (h : constructNormalizeH fuel st schemaRef = some st') :
    ∀ b, b < st.length → b ≠ schemaRef → st'[b]? = st[b]? := by
  unfold constructNormalizeH at h
  have hkeys : schemaKeysH st schemaRef = sfields.map Prod.fst := by
    simp [schemaKeysH, hs]
  rw [hkeys] at h
  exact (normalizeLoopH_frame schemaRef (sfields.map Prod.fst) fuel st
    sfields st' hs hnd hflat h).1

/-- Witness for the C6 amended theorem: in the concrete two-object store of
the counterexample (`{ age: { type: 'number' } }`), the caller's declaration
object at address 1 is untouched by compilation. -/
theorem C6_amended_witness :
    ∃ st', constructNormalizeH 9 c6st0 0 = some st' ∧ st'[1]? = c6st0[1]? := by
  refine ⟨[.hobj [("age", .href 2)], .hobj [("type", .hstr "number")],
    .hobj [("type", .hstr "number"), ("name", .hstr "age")]], rfl, ?_⟩
  refine C6_declaration_objects_never_written 9 c6st0 0 [("age", .href 1)]
    _ rfl (by decide) ?_ rfl 1 (by decide) (by decide)
  intro k hk
  have hk2 : k = "age" := by simpa using hk
  subst hk2
  intro a ha
  have ha2 : HVal.href 1 = .href a := ha
  obtain rfl := HVal.href.inj ha2
  refine ⟨by decide, [("type", .hstr "number")], rfl, ?_⟩
  intro p hp b
  have hp2 : p = ("type", HVal.hstr "number") := by simpa using hp
  rw [hp2]
  exact fun hcc => HVal.noConfusion hcc


theorem FieldVoid_undef : ∀ t : FType, FieldVoid t (.prim .undef)
  | .scalar k => .scalarV k
  | .arrT u e => .arrU u e
  | .objT sub => .objU sub

theorem emptyInst_agree : ∀ sch : Schema, InstAgree sch emptyInst []
  | .snil => .nil emptyInst
  | .scons name common t rest =>
    .absent name common t rest emptyInst [] (FieldVoid_undef t)
      (emptyInst_agree rest)

theorem FieldVoid_scalar_inv (k : ScalarT) (sv : FVal)
    (h : FieldVoid (.scalar k) sv) : sv = .prim .undef := by
  cases h
  rfl

theorem FieldVoid_arr_inv (u : Bool) (e : Option EDesc) (sv : FVal)
    (h : FieldVoid (.arrT u e) sv) : sv = .prim .undef ∨ sv = .arrV [] := by
  cases h
  · exact Or.inl rfl
  · exact Or.inr rfl

theorem FieldVoid_objS_inv (sub : Schema) (sv : FVal)
    (h : FieldVoid (.objT (some sub)) sv) :
    sv = .prim .undef ∨ ∃ m, sv = .instV m ∧ InstAgree sub m [] := by
  cases h
  case objU => exact Or.inl rfl
  case objI m hag => exact Or.inr ⟨m, rfl, hag⟩

theorem FieldVoid_objN_inv (sv : FVal) (h : FieldVoid (.objT none) sv) :
    sv = .prim .undef ∨ sv = .prim (.obj []) := by
  cases h
  · exact Or.inl rfl
  · exact Or.inr rfl

theorem InstAgree_congr : ∀ (sch : Schema) (i i' : Inst)
    (out : List (String × JSValue)),
    (∀ n, n ∈ Schema.names sch → i'.get n = i.get n) →
    InstAgree sch i out → InstAgree sch i' out
  | .snil, _, i', _, _, hag => by
    cases hag
    exact .nil i'
  | .scons name common t rest, i, i', out, hget, hag => by
    have hname : i'.get name = i.get name :=
      hget name (by simp [Schema.names])
    have hrest : ∀ n, n ∈ Schema.names rest → i'.get n = i.get n :=
      fun n hn => hget n (by simp [Schema.names, hn])
    cases hag
    case present v2 out2 hst hr =>
      exact .present name common t rest i' v2 out2
        (by rw [hname]; exact hst)
        (InstAgree_congr rest i i' out2 hrest hr)
    case absent hvd hr =>
      exact .absent name common t rest i' out
        (by rw [hname]; exact hvd)
        (InstAgree_congr rest i i' out hrest hr)

theorem snapKeys_sub (opts : Options) : ∀ (sch : Schema)
    (out : List (String × JSValue)), SnapCastGood opts sch out →
    ∀ p ∈ out, p.1 ∈ Schema.names sch
  | .snil, _, hg => by
    cases hg
    intro p hp
    exact absurd hp (by simp)
  | .scons name common t rest, out, hg => by
    cases hg
    case present v2 out2 hfg hrest =>
      intro p hp
      rcases List.mem_cons.mp hp with h1 | h2
      · subst h1
        simp [Schema.names]
      · have := snapKeys_sub opts rest out2 hrest p h2
        simp [Schema.names, this]
    case absent hrest =>
      intro p hp
      have := snapKeys_sub opts rest out hrest p hp
      simp [Schema.names, this]

theorem isNullV_eq (v : JSValue) (h : isNullV v = true) : v = .null := by
  cases v <;> first | rfl | exact absurd h (by simp [isNullV])

theorem isObjectJS_isNullV (v : JSValue) (h : v.isObjectJS = true) :
    isNullV v = false := by
  cases v <;> simp_all [JSValue.isObjectJS, isNullV]

theorem KeepPrim_null : KeepPrim .null :=
  ⟨fun h => JSValue.noConfusion h, fun _ h => JSValue.noConfusion h,
   fun _ h => JSValue.noConfusion h⟩

theorem defaultsF_wf : ∀ (sch : Schema) (fuel : Nat) (opts : Options)
    (inst inst' : Inst), SchemaWF sch →
    defaultsF fuel opts sch inst = some inst' → inst' = inst
  | _, 0, _, _, _, _, h => Option.noConfusion h
  | .snil, fuel + 1, _, _, _, _, h => (Option.some.inj h).symm
  | .scons name common t rest, fuel + 1, opts, inst, inst', hwf, h => by
    cases hwf
    case cons hdf hro hinv hnm hft hr =>
      have hwfr : SchemaWF rest := by assumption
      have hstep : defaultsF (fuel + 1) opts (.scons name common t rest) inst
          = (if isUndefV common.dflt then defaultsF fuel opts rest inst
            else
              match setFieldF fuel opts name { common with readOnly := false }
                  t inst common.dflt with
              | some inst2 => defaultsF fuel opts rest inst2
              | none => none) := rfl
      rw [hstep, hdf] at h
      rw [if_pos (show isUndefV JSValue.undef = true from rfl)] at h
      exact defaultsF_wf rest fuel opts inst inst' (by assumption) h

theorem constructF_wf_empty (fuel : Nat) (opts : Options) (sch : Schema)
    (i : Inst) (hwf : SchemaWF sch)
    (h : constructF fuel opts sch (.obj []) = some i) : i = emptyInst := by
  cases fuel with
  | zero => exact Option.noConfusion h
  | succ f =>
    have hstep : constructF (f + 1) opts sch (.obj [])
        = (match defaultsF f opts sch emptyInst with
          | some inst1 => populateF f opts sch inst1 (jsOwnKeys (.obj []))
          | none => none) := rfl
    rw [hstep] at h
    rcases hdf : defaultsF f opts sch emptyInst with _ | i1
    · rw [hdf] at h
      exact Option.noConfusion h
    · rw [hdf] at h
      have h2 : populateF f opts sch i1 [] = some i := h
      obtain rfl := defaultsF_wf sch f opts emptyInst i1 hwf hdf
      cases f with
      | zero => exact Option.noConfusion h2
      | succ g => exact (Option.some.inj h2).symm

theorem readFieldF_get_other (fuel : Nat) (opts : Options) (name : String)
    (common : FieldCommon) (t : FType) (inst : Inst) (orig : FVal) (mid : Inst)
    (h : readFieldF fuel opts name common t inst = some (orig, mid)) :
    ∀ k, k ≠ name → mid.get k = inst.get k := by
  cases fuel with
  | zero => exact Option.noConfusion h
  | succ f => exact (readFieldF_props f opts name common t inst orig mid h).2.2

theorem setFieldF_get_other (fuel : Nat) (opts : Options) (name : String)
    (common : FieldCommon) (t : FType) (inst : Inst) (value : JSValue)
    (inst' : Inst)
    (h : setFieldF fuel opts name common t inst value = some inst') :
    ∀ k, k ≠ name → inst'.get k = inst.get k := by
  cases fuel with
  | zero => exact Option.noConfusion h
  | succ f =>
    by_cases hro : common.readOnly
    · simp only [setFieldF, hro, if_true] at h
      obtain rfl := Option.some.inj h
      exact fun _ _ => rfl
    · simp only [setFieldF, hro, Bool.false_eq_true, if_false] at h
      rcases hr : readFieldF f opts name common t inst with _ | ⟨orig, mid⟩
      · simp only [hr] at h
        exact Option.noConfusion h
      · simp only [hr] at h
        have hmo := readFieldF_get_other f opts name common t inst orig mid hr
        rcases ht : typecastF f opts (some name) t value orig with _ | res
        · simp only [ht] at h
          exact Option.noConfusion h
        · simp only [ht] at h
          cases res with
          | okS store =>
            obtain rfl : inst' = mid.setVal name store :=
              (Option.some.inj h).symm
            intro k hk
            rw [get_setVal_other mid name k store hk, hmo k hk]
          | errS e after =>
            obtain rfl : inst' = (mid.setVal name after).pushErr e :=
              (Option.some.inj h).symm
            intro k hk
            rw [get_pushErr, get_setVal_other mid name k after hk, hmo k hk]

theorem populateF_get_other (opts : Options) :
    ∀ (kvs : List (String × JSValue)) (fuel : Nat) (sch : Schema)
    (inst inst' : Inst) (k : String),
    (∀ p ∈ kvs, p.1 ≠ k) →
    populateF fuel opts sch inst kvs = some inst' →
    inst'.get k = inst.get k
  | _, 0, _, _, _, _, _, h => Option.noConfusion h
  | [], fuel + 1, _, _, _, _, _, h => by
    obtain rfl := Option.some.inj h
    rfl
  | (k1, v1) :: rest, fuel + 1, sch, inst, inst', k, hne, h => by
    have hstep : populateF (fuel + 1) opts sch inst ((k1, v1) :: rest)
        = (match sch.lookupF k1 with
          | some (common, t) =>
            (match setFieldF fuel opts k1 common t inst v1 with
            | some inst2 => populateF fuel opts sch inst2 rest
            | none => none)
          | none => populateF fuel opts sch inst rest) := rfl
    rw [hstep] at h
    rcases hlk : sch.lookupF k1 with _ | ⟨common, t⟩
    · rw [hlk] at h
      have h2 : populateF fuel opts sch inst rest = some inst' := h
      exact populateF_get_other opts rest fuel sch inst inst' k
        (fun p hp => hne p (by simp [hp])) h2
    · rw [hlk] at h
      have h2 : (match setFieldF fuel opts k1 common t inst v1 with
        | some inst2 => populateF fuel opts sch inst2 rest
        | none => none) = some inst' := h
      rcases hsf : setFieldF fuel opts k1 common t inst v1 with _ | inst2
      · rw [hsf] at h2
        exact Option.noConfusion h2
      · rw [hsf] at h2
        have hko : inst2.get k = inst.get k :=
          setFieldF_get_other fuel opts k1 common t inst v1 inst2 hsf k
            (Ne.symm (hne (k1, v1) (by simp)))
        rw [populateF_get_other opts rest fuel sch inst2 inst' k
          (fun p hp => hne p (by simp [hp])) h2, hko]

theorem populate_skip (opts : Options) (name : String) (common : FieldCommon)
    (t : FType) (rest : Schema) :
    ∀ (kvs : List (String × JSValue)) (fuel : Nat) (inst : Inst),
    (∀ p ∈ kvs, p.1 ≠ name) →
    populateF fuel opts (.scons name common t rest) inst kvs
      = populateF fuel opts rest inst kvs
  | _, 0, _, _ => rfl
  | [], fuel + 1, _, _ => rfl
  | (k1, v1) :: kr, fuel + 1, inst, hne => by
    have hnk : ¬ (name = k1) := by
      intro e
      exact hne (k1, v1) (by simp) e.symm
    have hl : (Schema.scons name common t rest).lookupF k1
        = rest.lookupF k1 := by
      simp [Schema.lookupF, hnk]
    have hstepL : populateF (fuel + 1) opts (.scons name common t rest) inst
        ((k1, v1) :: kr)
        = (match (Schema.scons name common t rest).lookupF k1 with
          | some (c2, t2) =>
            (match setFieldF fuel opts k1 c2 t2 inst v1 with
            | some inst2 =>
              populateF fuel opts (.scons name common t rest) inst2 kr
            | none => none)
          | none => populateF fuel opts (.scons name common t rest) inst kr)
        := rfl
    have hstepR : populateF (fuel + 1) opts rest inst ((k1, v1) :: kr)
        = (match rest.lookupF k1 with
          | some (c2, t2) =>
            (match setFieldF fuel opts k1 c2 t2 inst v1 with
            | some inst2 => populateF fuel opts rest inst2 kr
            | none => none)
          | none => populateF fuel opts rest inst kr) := rfl
    rw [hstepL, hstepR, hl]
    rcases hlk : rest.lookupF k1 with _ | ⟨c2, t2⟩
    · exact populate_skip opts name common t rest kr fuel inst
        (fun p hp => hne p (by simp [hp]))
    · show (match setFieldF fuel opts k1 c2 t2 inst v1 with
        | some inst2 =>
          populateF fuel opts (.scons name common t rest) inst2 kr
        | none => none)
        = (match setFieldF fuel opts k1 c2 t2 inst v1 with
        | some inst2 => populateF fuel opts rest inst2 kr
        | none => none)
      rcases hsf : setFieldF fuel opts k1 c2 t2 inst v1 with _ | inst2
      · rfl
      · exact populate_skip opts name common t rest kr fuel inst2
          (fun p hp => hne p (by simp [hp]))

theorem SchemaWF_cons_inv (name : String) (common : FieldCommon) (t : FType)
    (rest : Schema) (h : SchemaWF (.scons name common t rest)) :
    common.dflt = .undef ∧ common.readOnly = false ∧
    common.invisible = false ∧ name ∉ Schema.names rest ∧
    FTypeWF t ∧ SchemaWF rest := by
  cases h
  exact ⟨by assumption, by assumption, by assumption, by assumption,
    by assumption, by assumption⟩

theorem clearFieldsF_get_other (opts : Options) :
    ∀ (fuel : Nat) (walk : Schema) (inst inst' : Inst) (k : String),
    k ∉ Schema.names walk →
    clearFieldsF fuel opts walk inst = some inst' →
    inst'.get k = inst.get k := by
  intro fuel
  induction fuel with
  | zero =>
    intro walk inst inst' k _ h
    exact Option.noConfusion h
  | succ f ih =>
    intro walk inst inst' k hk h
    cases walk with
    | snil =>
      obtain rfl := Option.some.inj h
      rfl
    | scons name common t rest =>
      have hkn : k ≠ name := by
        intro e
        exact hk (by simp [Schema.names, e])
      have hkr : k ∉ Schema.names rest := by
        intro e
        exact hk (by simp [Schema.names, e])
      cases t with
      | scalar sk =>
        have h2 : clearFieldsF f opts rest
            (inst.setVal name (.prim .undef)) = some inst' := h
        rw [ih rest _ inst' k hkr h2,
          get_setVal_other inst name k _ hkn]
      | arrT u e =>
        have h2 : (match readFieldF f opts name common (.arrT u e) inst with
          | some (_, i1) =>
            clearFieldsF f opts rest (i1.setVal name (.arrV []))
          | none => none) = some inst' := h
        rcases hr : readFieldF f opts name common (.arrT u e) inst
          with _ | ⟨o, i1⟩
        · rw [hr] at h2
          exact Option.noConfusion h2
        · rw [hr] at h2
          rw [ih rest _ inst' k hkr h2,
            get_setVal_other i1 name k _ hkn,
            readFieldF_get_other f opts name common _ inst o i1 hr k hkn]
      | objT sub =>
        cases sub with
        | none =>
          have h2 : (match readFieldF f opts name common (.objT none) inst with
            | some (.instV ni, i1) => (none : Option Inst)
            | some _ => none
            | none => none) = some inst' := h
          rcases hr : readFieldF f opts name common (.objT none) inst
            with _ | ⟨o, i1⟩
          · rw [hr] at h2
            exact Option.noConfusion h2
          · rw [hr] at h2
            cases o with
            | instV ni => exact Option.noConfusion h2
            | prim p => exact Option.noConfusion h2
            | arrV xs => exact Option.noConfusion h2
        | some subsch =>
          have h2 : (match readFieldF f opts name common
              (.objT (some subsch)) inst with
            | some (.instV ni, i1) =>
              (match clearFieldsF f opts subsch ni with
              | some ni2 =>
                clearFieldsF f opts rest (i1.setVal name (.instV ni2))
              | none => none)
            | some _ => none
            | none => none) = some inst' := h
          rcases hr : readFieldF f opts name common (.objT (some subsch)) inst
            with _ | ⟨o, i1⟩
          · rw [hr] at h2
            exact Option.noConfusion h2
          · rw [hr] at h2
            cases o with
            | instV ni =>
              have h3 : (match clearFieldsF f opts subsch ni with
                | some ni2 =>
                  clearFieldsF f opts rest (i1.setVal name (.instV ni2))
                | none => none) = some inst' := h2
              rcases hc : clearFieldsF f opts subsch ni with _ | ni2
              · rw [hc] at h3
                exact Option.noConfusion h3
              · rw [hc] at h3
                rw [ih rest _ inst' k hkr h3,
                  get_setVal_other i1 name k _ hkn,
                  readFieldF_get_other f opts name common _ inst _ i1 hr k hkn]
            | prim p => exact Option.noConfusion h2
            | arrV xs => exact Option.noConfusion h2

theorem read_void (fuel : Nat) (opts : Options) (name : String)
    (common : FieldCommon) (t : FType) (inst : Inst) (orig : FVal) (mid : Inst)
    (hwf : FTypeWF t) (hd : common.dflt = .undef)
    (hv : FieldVoid t (inst.get name))
    (h : readFieldF fuel opts name common t inst = some (orig, mid)) :
    OrigVoid t orig := by
  cases fuel with
  | zero => exact Option.noConfusion h
  | succ f =>
    cases t with
    | scalar k =>
      have hg := FieldVoid_scalar_inv k _ hv
      have h2 : some (inst.get name, inst) = some (orig, mid) := h
      have h3 := Option.some.inj h2
      simp only [Prod.mk.injEq] at h3
      show orig = .prim .undef
      rw [← h3.1, hg]
    | arrT u e =>
      have h2 : (if !(inst.get name).truthy then
          some ((.arrV [] : FVal), inst.setVal name (.arrV []))
        else some (inst.get name, inst)) = some (orig, mid) := h
      rcases FieldVoid_arr_inv u e _ hv with hg | hg
      · rw [hg] at h2
        have h3 : some ((.arrV [] : FVal), inst.setVal name (.arrV []))
            = some (orig, mid) := h2
        have h4 := Option.some.inj h3
        simp only [Prod.mk.injEq] at h4
        show orig = .arrV []
        exact h4.1.symm
      · rw [hg] at h2
        have h3 : some ((.arrV [] : FVal), inst) = some (orig, mid) := h2
        have h4 := Option.some.inj h3
        simp only [Prod.mk.injEq] at h4
        show orig = .arrV []
        exact h4.1.symm
    | objT sub =>
      cases sub with
      | some subsch =>
        have h0 : (if !(inst.get name).truthy then
            (if !isUndefV common.dflt then
              some ((.prim common.dflt : FVal),
                inst.setVal name (.prim common.dflt))
            else
              match constructF f opts subsch (.obj []) with
              | some ni => some ((.instV ni : FVal),
                  inst.setVal name (.instV ni))
              | none => none)
          else some (inst.get name, inst)) = some (orig, mid) := h
        rcases FieldVoid_objS_inv subsch _ hv with hg | ⟨m, hg, hag⟩
        · rw [hg, hd] at h0
          have h2 : (match constructF f opts subsch (.obj []) with
            | some ni => some ((.instV ni : FVal),
                inst.setVal name (.instV ni))
            | none => none) = some (orig, mid) := h0
          rcases hc : constructF f opts subsch (.obj []) with _ | ni
          · rw [hc] at h2
            exact Option.noConfusion h2
          · rw [hc] at h2
            have h3 := Option.some.inj h2
            simp only [Prod.mk.injEq] at h3
            have hni : ni = emptyInst := by
              cases hwf
              case objW hsub =>
                exact constructF_wf_empty f opts subsch ni hsub hc
            show orig = .prim .undef ∨ ∃ m2, orig = .instV m2 ∧
              InstAgree subsch m2 []
            refine Or.inr ⟨ni, h3.1.symm, ?_⟩
            rw [hni]
            exact emptyInst_agree subsch
        · rw [hg] at h0
          have h2 : some ((.instV m : FVal), inst) = some (orig, mid) := h0
          have h3 := Option.some.inj h2
          simp only [Prod.mk.injEq] at h3
          show orig = .prim .undef ∨ ∃ m2, orig = .instV m2 ∧
            InstAgree subsch m2 []
          exact Or.inr ⟨m, h3.1.symm, hag⟩
      | none =>
        have h0 : (if !(inst.get name).truthy then
            (if !isUndefV common.dflt then
              some ((.prim common.dflt : FVal),
                inst.setVal name (.prim common.dflt))
            else some ((.prim (.obj []) : FVal),
              inst.setVal name (.prim (.obj []))))
          else some (inst.get name, inst)) = some (orig, mid) := h
        rcases FieldVoid_objN_inv _ hv with hg | hg
        · rw [hg, hd] at h0
          have h2 : some ((.prim (.obj []) : FVal),
              inst.setVal name (.prim (.obj []))) = some (orig, mid) := h0
          have h3 := Option.some.inj h2
          simp only [Prod.mk.injEq] at h3
          show orig = .prim (.obj [])
          exact h3.1.symm
        · rw [hg] at h0
          have h2 : some ((.prim (.obj []) : FVal), inst) = some (orig, mid)
            := h0
          have h3 := Option.some.inj h2
          simp only [Prod.mk.injEq] at h3
          show orig = .prim (.obj [])
          exact h3.1.symm

theorem FTypeWF_arr_inv (u : Bool) (e : Option EDesc)
    (h : FTypeWF (.arrT u e)) : u = false ∧ EOptWF e := by
  cases h
  exact ⟨rfl, by assumption⟩

theorem FTypeWF_obj_inv (sub : Schema) (h : FTypeWF (.objT (some sub))) :
    SchemaWF sub := by
  cases h
  assumption

theorem EOptWF_obj_inv (nm : Option String) (sub : Schema)
    (h : EOptWF (some (.mk nm (.objT (some sub))))) : SchemaWF sub := by
  cases h
  assumption

theorem StoredGood_scalar_inv (k : ScalarT) (sv : FVal) (v : JSValue)
    (h : StoredGood (.scalar k) sv v) : sv = .prim v ∧ KeepPrim v := by
  cases h
  case scalarG hk => exact ⟨rfl, hk⟩

theorem StoredGood_arr_inv (u : Bool) (e : Option EDesc) (sv : FVal)
    (v : JSValue) (h : StoredGood (.arrT u e) sv v) :
    ∃ evs os, sv = .arrV evs ∧ v = .arr os ∧ os ≠ [] ∧
      ElemsAgree e evs os := by
  cases h
  case arrG evs os hne hels => exact ⟨evs, os, rfl, rfl, hne, hels⟩

theorem StoredGood_objS_inv (sub : Schema) (sv : FVal) (v : JSValue)
    (h : StoredGood (.objT (some sub)) sv v) :
    ∃ m okvs, sv = .instV m ∧ v = .obj okvs ∧ okvs ≠ [] ∧
      InstAgree sub m okvs := by
  cases h
  case objG m okvs hne hag => exact ⟨m, okvs, rfl, rfl, hne, hag⟩

theorem StoredGood_objN_inv (sv : FVal) (v : JSValue)
    (h : StoredGood (.objT none) sv v) :
    sv = .prim v ∧ v.isObjectJS = true ∧ KeepPrim v := by
  cases h
  case objNoneG hobj hk => exact ⟨rfl, hobj, hk⟩

theorem isUndefV_false (p : JSValue) (h : p ≠ .undef) :
    isUndefV p = false := by
  cases p <;> first | rfl | exact absurd rfl h

theorem jsTruthy_of_objectJS (v : JSValue) (h : v.isObjectJS = true) :
    v.jsTruthy = true := by
  cases v <;> first | rfl | exact Bool.noConfusion h

theorem keepOfPrim (opts : Options) (hsu : opts.setUndefined = false)
    (p : JSValue) (hk : KeepPrim p) :
    (isUndefV p && !opts.setUndefined) = false ∧ keepB opts p = true := by
  obtain ⟨h1, h2, h3⟩ := hk
  constructor
  · rw [isUndefV_false p h1]
    rfl
  · cases p with
    | arr xs =>
      cases xs with
      | nil => exact absurd rfl (h2 [] rfl)
      | cons a as => simp [keepB, hsu]
    | obj kvs =>
      cases kvs with
      | nil => exact absurd rfl (h3 [] rfl)
      | cons a as => simp [keepB, hsu]
    | undef => rfl
    | null => rfl
    | bool b => rfl
    | num q => rfl
    | str s2 => rfl
    | date ms => rfl

theorem read_good (fuel : Nat) (opts : Options) (name : String)
    (common : FieldCommon) (t : FType) (inst : Inst) (orig : FVal)
    (mid : Inst) (v : JSValue)
    (hst : StoredGood t (inst.get name) v)
    (h : readFieldF fuel opts name common t inst = some (orig, mid)) :
    orig = inst.get name ∧ mid = inst := by
  cases fuel with
  | zero => exact Option.noConfusion h
  | succ f =>
    cases t with
    | scalar k =>
      have h2 : some (inst.get name, inst) = some (orig, mid) := h
      have h3 := Option.some.inj h2
      simp only [Prod.mk.injEq] at h3
      exact ⟨h3.1.symm, h3.2.symm⟩
    | arrT u e =>
      obtain ⟨evs, os, hgv, -, -, -⟩ := StoredGood_arr_inv u e _ v hst
      have h2 : (if !(inst.get name).truthy then
          some ((.arrV [] : FVal), inst.setVal name (.arrV []))
        else some (inst.get name, inst)) = some (orig, mid) := h
      rw [hgv] at h2
      have h3 : some ((.arrV evs : FVal), inst) = some (orig, mid) := h2
      have h4 := Option.some.inj h3
      simp only [Prod.mk.injEq] at h4
      exact ⟨by rw [hgv, ← h4.1], h4.2.symm⟩
    | objT sub =>
      cases sub with
      | some subsch =>
        obtain ⟨m, okvs, hgv, -, -, -⟩ := StoredGood_objS_inv subsch _ v hst
        have h2 : (if !(inst.get name).truthy then
            (if !isUndefV common.dflt then
              some ((.prim common.dflt : FVal),
                inst.setVal name (.prim common.dflt))
            else
              match constructF f opts subsch (.obj []) with
              | some ni => some ((.instV ni : FVal),
                  inst.setVal name (.instV ni))
              | none => none)
          else some (inst.get name, inst)) = some (orig, mid) := h
        rw [hgv] at h2
        have h3 : some ((.instV m : FVal), inst) = some (orig, mid) := h2
        have h4 := Option.some.inj h3
        simp only [Prod.mk.injEq] at h4
        exact ⟨by rw [hgv, ← h4.1], h4.2.symm⟩
      | none =>
        obtain ⟨hgv, hobj, -⟩ := StoredGood_objN_inv _ v hst
        have h2 : (if !(inst.get name).truthy then
            (if !isUndefV common.dflt then
              some ((.prim common.dflt : FVal),
                inst.setVal name (.prim common.dflt))
            else some ((.prim (.obj []) : FVal),
              inst.setVal name (.prim (.obj []))))
          else some (inst.get name, inst)) = some (orig, mid) := h
        rw [hgv] at h2
        have htr : FVal.truthy (.prim v) = true := by
          show v.jsTruthy = true
          exact jsTruthy_of_objectJS v hobj
        rw [htr] at h2
        have h3 : some ((.prim v : FVal), inst) = some (orig, mid) := h2
        have h4 := Option.some.inj h3
        simp only [Prod.mk.injEq] at h4
        exact ⟨by rw [hgv, ← h4.1], h4.2.symm⟩

theorem serializePack (opts : Options) (hsu : opts.setUndefined = false) :
    ∀ fuel : Nat,
    (∀ sch inst out res, SchemaWF sch → InstAgree sch inst out →
      toObjFieldsF fuel opts sch inst = some res → res.1 = out) ∧
    (∀ sch inst out res, SchemaWF sch → InstAgree sch inst out →
      toObjectF fuel opts sch inst = some res → res.1 = .obj out) ∧
    (∀ e evs os res, EOptWF e → ElemsAgree e evs os →
      toArrayF fuel opts e evs = some res → res = os) := by
  intro fuel
  induction fuel with
  | zero =>
    refine ⟨?_, ?_, ?_⟩ <;> intro _ _ _ _ _ _ h <;> exact Option.noConfusion h
  | succ f ih =>
    obtain ⟨ihF, ihO, ihA⟩ := ih
    refine ⟨?_, ?_, ?_⟩
    · intro sch inst out res hwf hag h
      cases sch with
      | snil =>
        cases hag
        have h2 : some (([], inst) :
            List (String × JSValue) × Inst) = some res := h
        obtain rfl := Option.some.inj h2
        rfl
      | scons name common t rest =>
        obtain ⟨hdf, hro, hinv, hnm, hft, hwfr⟩ :=
          SchemaWF_cons_inv name common t rest hwf
        simp only [toObjFieldsF, hinv, Bool.false_eq_true, if_false] at h
        rcases hread : readFieldF f opts name common t inst with _ | ⟨fv, i1⟩
        · simp only [hread] at h
          exact Option.noConfusion h
        · simp only [hread] at h
          have hi1get : ∀ n, n ∈ Schema.names rest → i1.get n = inst.get n :=
            fun n hn => readFieldF_get_other f opts name common t inst fv i1
              hread n (fun e => hnm (e ▸ hn))
          cases hag
          case present v2 out2 hst hrest =>
            have hag1 : InstAgree rest i1 out2 :=
              InstAgree_congr rest inst i1 out2 hi1get hrest
            obtain ⟨horig, hmid⟩ :=
              read_good f opts name common t inst fv i1 v2 hst hread
            cases t with
            | scalar k =>
              obtain ⟨hgv, hkeep⟩ := StoredGood_scalar_inv k _ v2 hst
              have hfv : fv = .prim v2 := by rw [horig, hgv]
              obtain ⟨hc1, hc2⟩ := keepOfPrim opts hsu v2 hkeep
              simp only [hfv, hc1, Bool.false_eq_true, if_false, hc2,
                if_true] at h
              rcases htail : toObjFieldsF f opts rest i1 with _ | ⟨out3, i2⟩
              · simp only [htail] at h
                exact Option.noConfusion h
              · simp only [htail] at h
                have he : out3 = out2 :=
                  ihF rest i1 out2 (out3, i2) hwfr hag1 htail
                have h3 := Option.some.inj h
                rw [← h3]
                simp [he]
            | arrT u e =>
              obtain ⟨evs, os, hgv, hvv, hosne, hels⟩ :=
                StoredGood_arr_inv u e _ v2 hst
              obtain ⟨hu, hewf⟩ := FTypeWF_arr_inv u e hft
              have hfv : fv = .arrV evs := by rw [horig, hgv]
              simp only [hfv] at h
              rcases hta : toArrayF f opts e evs with _ | os3
              · simp only [hta] at h
                exact Option.noConfusion h
              · simp only [hta] at h
                have hos3 : os3 = os := ihA e evs os os3 hewf hels hta
                have hosne3 : os3.isEmpty = false := by
                  rw [hos3]
                  cases os with
                  | nil => exact absurd rfl hosne
                  | cons a as => rfl
                simp only [hsu, hosne3, Bool.not_false, Bool.false_or,
                  if_true] at h
                rcases htail : toObjFieldsF f opts rest i1 with _ | ⟨out3, i2⟩
                · simp only [htail] at h
                  exact Option.noConfusion h
                · simp only [htail] at h
                  have he : out3 = out2 :=
                    ihF rest i1 out2 (out3, i2) hwfr hag1 htail
                  have h3 := Option.some.inj h
                  rw [← h3]
                  simp [he, hos3, hvv]
            | objT sub =>
              cases sub with
              | some subsch =>
                obtain ⟨m, okvs, hgv, hvv, hosne, hagm⟩ :=
                  StoredGood_objS_inv subsch _ v2 hst
                have hsub : SchemaWF subsch := FTypeWF_obj_inv subsch hft
                have hfv : fv = .instV m := by rw [horig, hgv]
                simp only [hfv] at h
                rcases ho : toObjectF f opts subsch m with _ | ⟨o1, ni2⟩
                · simp only [ho] at h
                  exact Option.noConfusion h
                · simp only [ho] at h
                  have ho1 : o1 = .obj okvs := by
                    have := ihO subsch m okvs (o1, ni2) hsub hagm ho
                    simpa using this
                  have hokvsne : (jsOwnKeys o1).isEmpty = false := by
                    rw [ho1]
                    show okvs.isEmpty = false
                    cases okvs with
                    | nil => exact absurd rfl hosne
                    | cons a as => rfl
                  simp only [hsu, hokvsne, Bool.not_false, Bool.false_or,
                    if_true] at h
                  have hag2 : InstAgree rest (i1.setVal name (.instV ni2))
                      out2 :=
                    InstAgree_congr rest i1 _ out2
                      (fun n hn => get_setVal_other i1 name n _
                        (fun e => hnm (e ▸ hn))) hag1
                  rcases htail : toObjFieldsF f opts rest
                      (i1.setVal name (.instV ni2)) with _ | ⟨out3, i3⟩
                  · simp only [htail] at h
                    exact Option.noConfusion h
                  · simp only [htail] at h
                    have he : out3 = out2 :=
                      ihF rest _ out2 (out3, i3) hwfr hag2 htail
                    have h3 := Option.some.inj h
                    rw [← h3]
                    simp [he, ho1, hvv]
              | none =>
                obtain ⟨hgv, hobj, hkeep⟩ := StoredGood_objN_inv _ v2 hst
                have hfv : fv = .prim v2 := by rw [horig, hgv]
                obtain ⟨hc1, hc2⟩ := keepOfPrim opts hsu v2 hkeep
                simp only [hfv, hc1, Bool.false_eq_true, if_false, hc2,
                  if_true] at h
                rcases htail : toObjFieldsF f opts rest i1 with _ | ⟨out3, i2⟩
                · simp only [htail] at h
                  exact Option.noConfusion h
                · simp only [htail] at h
                  have he : out3 = out2 :=
                    ihF rest i1 out2 (out3, i2) hwfr hag1 htail
                  have h3 := Option.some.inj h
                  rw [← h3]
                  simp [he]
          case absent hvd hrest =>
            have hag1 : InstAgree rest i1 out :=
              InstAgree_congr rest inst i1 out hi1get hrest
            have hov : OrigVoid t fv :=
              read_void f opts name common t inst fv i1 hft hdf hvd hread
            cases t with
            | scalar k =>
              have hfv : fv = .prim .undef := hov
              simp only [hfv, isUndefV, hsu, Bool.not_false, Bool.and_self,
                if_true] at h
              exact ihF rest i1 out res hwfr hag1 h
            | arrT u e =>
              have hfv : fv = .arrV [] := hov
              obtain ⟨hu, hewf⟩ := FTypeWF_arr_inv u e hft
              simp only [hfv] at h
              rcases hta : toArrayF f opts e [] with _ | os3
              · simp only [hta] at h
                exact Option.noConfusion h
              · simp only [hta] at h
                have hos3 : os3 = [] := ihA e [] [] os3 hewf (.nil e) hta
                simp only [hos3, hsu, List.isEmpty_nil, Bool.not_true,
                  Bool.false_or, Bool.false_eq_true, if_false] at h
                exact ihF rest i1 out res hwfr hag1 h
            | objT sub =>
              cases sub with
              | some subsch =>
                have hsub : SchemaWF subsch := FTypeWF_obj_inv subsch hft
                rcases hov with hfv | ⟨m, hfv, hagm⟩
                · simp only [hfv, isUndefV, hsu, Bool.not_false,
                    Bool.and_self, if_true] at h
                  exact ihF rest i1 out res hwfr hag1 h
                · simp only [hfv] at h
                  rcases ho : toObjectF f opts subsch m with _ | ⟨o1, ni2⟩
                  · simp only [ho] at h
                    exact Option.noConfusion h
                  · simp only [ho] at h
                    have ho1 : o1 = .obj [] := by
                      have := ihO subsch m [] (o1, ni2) hsub hagm ho
                      simpa using this
                    simp only [ho1, jsOwnKeys, List.isEmpty_nil, hsu,
                      Bool.not_true, Bool.false_or, Bool.false_eq_true,
                      if_false] at h
                    have hag2 : InstAgree rest (i1.setVal name (.instV ni2))
                        out :=
                      InstAgree_congr rest i1 _ out
                        (fun n hn => get_setVal_other i1 name n _
                          (fun e => hnm (e ▸ hn))) hag1
                    exact ihF rest _ out res hwfr hag2 h
              | none =>
                have hfv : fv = .prim (.obj []) := hov
                simp [hfv, isUndefV, hsu, keepB] at h
                exact ihF rest i1 out res hwfr hag1 h
    · intro sch inst out res hwf hag h
      simp only [toObjectF] at h
      rcases hf2 : toObjFieldsF f opts sch inst with _ | ⟨out2, i2⟩
      · simp only [hf2] at h
        exact Option.noConfusion h
      · simp only [hf2] at h
        have he : out2 = out := ihF sch inst out (out2, i2) hwf hag hf2
        have h3 := Option.some.inj h
        rw [← h3]
        simp [he]
    · intro e evs os res hwf hels h
      cases hels
      case nil =>
        have h2 : some ([] : List JSValue) = some res := h
        obtain rfl := Option.some.inj h2
        rfl
      case cons =>
        rename_i evs2 os2 hel hrest
        rename_i ev1 o2
        cases hel
        case prim =>
          simp only [toArrayF] at h
          rcases ht : toArrayF f opts e evs2 with _ | os3
          · simp only [ht] at h
            exact Option.noConfusion h
          · simp only [ht] at h
            have h3 := Option.some.inj h
            rw [← h3, ihA e evs2 os2 os3 hwf hrest ht]
        case inst =>
          rename_i nm sub m okvs hag2
          have hsub : SchemaWF sub := EOptWF_obj_inv nm sub hwf
          simp only [toArrayF, EDesc.t] at h
          rcases ho : toObjectF f opts sub m with _ | ⟨o1, mres⟩
          · simp only [ho] at h
            exact Option.noConfusion h
          · simp only [ho] at h
            rcases ht : toArrayF f opts (some (.mk nm (.objT (some sub))))
                evs2 with _ | os3
            · simp only [ht] at h
              exact Option.noConfusion h
            · simp only [ht] at h
              have h1 : o1 = .obj okvs := by
                have := ihO sub m okvs (o1, mres) hsub hag2 ho
                simpa using this
              have h3 := Option.some.inj h
              rw [← h3, h1, ihA _ evs2 os2 os3 hwf hrest ht]

theorem FieldCastGood_scalar_inv (opts : Options) (fn : Option String)
    (k : ScalarT) (v : JSValue) (h : FieldCastGood opts fn (.scalar k) v) :
    (v = .null ∧ opts.preserveNull = true) ∨
    (typecastScalar opts k fn v (.js .undef) = .ok v ∧ KeepPrim v) := by
  cases h
  case scalarNull hpn => exact Or.inl ⟨rfl, hpn⟩
  case scalarOk hok hk => exact Or.inr ⟨by assumption, by assumption⟩

theorem FieldCastGood_arr_inv (opts : Options) (fn : Option String) (u : Bool)
    (e : Option EDesc) (v : JSValue)
    (h : FieldCastGood opts fn (.arrT u e) v) :
    ∃ os, v = .arr os ∧ os ≠ [] ∧ ∀ o, o ∈ os → ElemCastGood opts e o := by
  cases h
  case arrGood os hne hels => exact ⟨os, rfl, hne, hels⟩

theorem FieldCastGood_objS_inv (opts : Options) (fn : Option String)
    (sub : Schema) (v : JSValue)
    (h : FieldCastGood opts fn (.objT (some sub)) v) :
    ∃ okvs, v = .obj okvs ∧ okvs ≠ [] ∧ SnapCastGood opts sub okvs := by
  cases h
  case objGood okvs hne hsg => exact ⟨okvs, rfl, hne, hsg⟩

theorem FieldCastGood_objN_inv (opts : Options) (fn : Option String)
    (v : JSValue) (h : FieldCastGood opts fn (.objT none) v) :
    v.isObjectJS = true ∧ KeepPrim v := by
  cases h
  case objNoneGood hobj hk => exact ⟨hobj, hk⟩

theorem ElemCastGood_scalar_inv (opts : Options) (nm : Option String)
    (k : ScalarT) (o : JSValue)
    (h : ElemCastGood opts (some (.mk nm (.scalar k))) o) :
    (o = .null ∧ opts.preserveNull = true) ∨
    typecastScalar opts k nm o (.js .undef) = .ok o := by
  cases h
  case nullE hpn => exact Or.inl ⟨rfl, hpn⟩
  case scalarE hok => exact Or.inr hok

theorem ElemCastGood_objS_inv (opts : Options) (nm : Option String)
    (sub : Schema) (o : JSValue)
    (h : ElemCastGood opts (some (.mk nm (.objT (some sub)))) o) :
    (o = .null ∧ opts.preserveNull = true) ∨
    ∃ okvs, o = .obj okvs ∧ SnapCastGood opts sub okvs := by
  cases h
  case nullE hpn => exact Or.inl ⟨rfl, hpn⟩
  case objE okvs hsg => exact Or.inr ⟨okvs, rfl, hsg⟩

theorem EOptWF_some_inv (ed : EDesc) (h : EOptWF (some ed)) :
    (∃ nm k, ed = .mk nm (.scalar k)) ∨
    (∃ nm sub, ed = .mk nm (.objT (some sub)) ∧ SchemaWF sub) := by
  cases h
  case escalar nm k => exact Or.inl ⟨nm, k, rfl⟩
  case eobj nm sub hsub => exact Or.inr ⟨nm, sub, rfl, hsub⟩

theorem SnapCastGood_nil_inv (opts : Options)
    (out : List (String × JSValue)) (h : SnapCastGood opts .snil out) :
    out = [] := by
  cases h
  rfl

theorem SnapCastGood_cons_inv (opts : Options) (name : String)
    (common : FieldCommon) (t : FType) (rest : Schema)
    (out : List (String × JSValue))
    (h : SnapCastGood opts (.scons name common t rest) out) :
    (∃ v out2, out = (name, v) :: out2 ∧ FieldCastGood opts (some name) t v ∧
      SnapCastGood opts rest out2) ∨ SnapCastGood opts rest out := by
  cases h
  case present v out2 hfg hrest => exact Or.inl ⟨v, out2, rfl, hfg, hrest⟩
  case absent hrest => exact Or.inr hrest

theorem InstAgree_nil_cons_inv (name : String) (common : FieldCommon)
    (t : FType) (rest : Schema) (i : Inst)
    (h : InstAgree (.scons name common t rest) i []) :
    FieldVoid t (i.get name) ∧ InstAgree rest i [] := by
  cases h
  case absent hvd hrest => exact ⟨hvd, hrest⟩

theorem ElemsAgree_single_inv (e : Option EDesc) (evs : List EVal)
    (x : JSValue) (h : ElemsAgree e evs [x]) :
    ∃ ev, evs = [ev] ∧ ElemAgree e ev x := by
  cases h
  case cons ev evs2 hel hels =>
    cases hels
    exact ⟨ev, rfl, hel⟩

theorem elems_map_agree (e : Option EDesc) :
    ∀ args : List JSValue, ElemsAgree e (args.map .eprim) args
  | [] => .nil e
  | a :: rest => .cons e (.eprim a) a (rest.map .eprim) rest
      (.prim e a) (elems_map_agree e rest)

theorem roundPack (opts : Options) :
    ∀ fuel : Nat,
    (∀ sch m m', SchemaWF sch → InstAgree sch m [] →
      clearFieldsF fuel opts sch m = some m' → InstAgree sch m' []) ∧
    (∀ t fn v orig res, FTypeWF t → FieldCastGood opts fn t v →
      OrigVoid t orig → typecastF fuel opts fn t v orig = some res →
      ∃ store, res = .okS store ∧ StoredGood t store v) ∧
    (∀ ed o res, EOptWF (some ed) → ElemCastGood opts (some ed) o →
      typecastF fuel opts ed.name ed.t o (.prim .undef) = some res →
      ∃ ev, res = .okS (evalToFVal ev) ∧ ElemAgree (some ed) ev o) ∧
    (∀ ed args r, EOptWF (some ed) →
      (∀ o, o ∈ args → ElemCastGood opts (some ed) o) →
      pushCastF fuel opts ed args = some r →
      ∃ evs, r = .ok evs ∧ ElemsAgree (some ed) evs args) ∧
    (∀ e cur args r, EOptWF e →
      (∀ o, o ∈ args → ElemCastGood opts e o) →
      pushF fuel opts false e cur args = some r →
      ∃ evs, r = .ok (cur ++ evs) ∧ ElemsAgree e evs args) ∧
    (∀ e fname cur xs r, EOptWF e →
      (∀ o, o ∈ xs → ElemCastGood opts e o) →
      arrAssignF fuel opts fname false e cur xs = some r →
      ∃ evs, r = .ok (cur ++ evs) ∧ ElemsAgree e evs xs) ∧
    (∀ name common t inst v inst', FTypeWF t →
      FieldCastGood opts (some name) t v → common.readOnly = false →
      common.dflt = .undef → FieldVoid t (inst.get name) →
      setFieldF fuel opts name common t inst v = some inst' →
      StoredGood t (inst'.get name) v) ∧
    (∀ sch inst0 out instB, SchemaWF sch → InstAgree sch inst0 [] →
      SnapCastGood opts sch out →
      populateF fuel opts sch inst0 out = some instB →
      InstAgree sch instB out) := by
  intro fuel
  induction fuel using Nat.strong_induction_on with
  | _ fuel IH =>
    cases fuel with
    | zero =>
      refine ⟨?_, ?_, ?_, ?_, ?_, ?_, ?_, ?_⟩
      · intro _ _ _ _ _ h; exact Option.noConfusion h
      · intro _ _ _ _ _ _ _ _ h; exact Option.noConfusion h
      · intro _ _ _ _ _ h; exact Option.noConfusion h
      · intro _ _ _ _ _ h; exact Option.noConfusion h
      · intro _ _ _ _ _ _ h; exact Option.noConfusion h
      · intro _ _ _ _ _ _ _ h; exact Option.noConfusion h
      · intro _ _ _ _ _ _ _ _ _ _ _ h; exact Option.noConfusion h
      · intro _ _ _ _ _ _ _ h; exact Option.noConfusion h
    | succ g =>
      obtain ⟨ihClear, ihTC, ihETC, ihPC, ihPush, ihAssign, ihSet, ihPop⟩ :=
        IH g (Nat.lt_succ_self g)
      refine ⟨?_, ?_, ?_, ?_, ?_, ?_, ?_, ?_⟩
      · intro sch m m' hwf hag h
        cases sch with
        | snil =>
          obtain rfl := Option.some.inj h
          exact hag
        | scons name common t rest =>
          obtain ⟨hdf, hro, hinv, hnm, hft, hwfr⟩ :=
            SchemaWF_cons_inv name common t rest hwf
          obtain ⟨hvd, hagr⟩ := InstAgree_nil_cons_inv name common t rest m hag
          cases t with
          | scalar sk =>
            have h2 : clearFieldsF g opts rest
                (m.setVal name (.prim .undef)) = some m' := h
            have hag2 : InstAgree rest (m.setVal name (.prim .undef)) [] :=
              InstAgree_congr rest m _ []
                (fun n hn => get_setVal_other m name n _
                  (fun e2 => hnm (e2 ▸ hn))) hagr
            have hrec := ihClear rest _ m' hwfr hag2 h2
            refine .absent name common _ rest m' [] ?_ hrec
            have hgn : m'.get name = .prim .undef := by
              rw [clearFieldsF_get_other opts g rest _ m' name hnm h2,
                get_setVal_self]
            rw [hgn]
            exact .scalarV sk
          | arrT u e =>
            have h2 : (match readFieldF g opts name common (.arrT u e) m with
              | some (_, i1) =>
                clearFieldsF g opts rest (i1.setVal name (.arrV []))
              | none => none) = some m' := h
            rcases hr : readFieldF g opts name common (.arrT u e) m
              with _ | ⟨o, i1⟩
            · rw [hr] at h2
              exact Option.noConfusion h2
            · rw [hr] at h2
              have hag2 : InstAgree rest (i1.setVal name (.arrV [])) [] :=
                InstAgree_congr rest m _ []
                  (fun n hn => by
                    rw [get_setVal_other i1 name n _ (fun e2 => hnm (e2 ▸ hn)),
                      readFieldF_get_other g opts name common _ m o i1 hr n
                        (fun e2 => hnm (e2 ▸ hn))]) hagr
              have hrec := ihClear rest _ m' hwfr hag2 h2
              refine .absent name common _ rest m' [] ?_ hrec
              have hgn : m'.get name = .arrV [] := by
                rw [clearFieldsF_get_other opts g rest _ m' name hnm h2,
                  get_setVal_self]
              rw [hgn]
              exact .arrE u e
          | objT sub =>
            cases sub with
            | none =>
              have h2 : (match readFieldF g opts name common (.objT none) m
                  with
                | some (.instV ni, i1) => (none : Option Inst)
                | some _ => none
                | none => none) = some m' := h
              rcases hr : readFieldF g opts name common (.objT none) m
                with _ | ⟨o, i1⟩
              · rw [hr] at h2
                exact Option.noConfusion h2
              · rw [hr] at h2
                cases o with
                | instV ni => exact Option.noConfusion h2
                | prim p => exact Option.noConfusion h2
                | arrV xs => exact Option.noConfusion h2
            | some subsch =>
              have hsub : SchemaWF subsch := FTypeWF_obj_inv subsch hft
              have h2 : (match readFieldF g opts name common
                  (.objT (some subsch)) m with
                | some (.instV ni, i1) =>
                  (match clearFieldsF g opts subsch ni with
                  | some ni2 =>
                    clearFieldsF g opts rest (i1.setVal name (.instV ni2))
                  | none => none)
                | some _ => none
                | none => none) = some m' := h
              rcases hr : readFieldF g opts name common (.objT (some subsch)) m
                with _ | ⟨o, i1⟩
              · rw [hr] at h2
                exact Option.noConfusion h2
              · rw [hr] at h2
                have hov := read_void g opts name common _ m o i1 hft hdf
                  hvd hr
                cases o with
                | prim p => exact Option.noConfusion h2
                | arrV xs => exact Option.noConfusion h2
                | instV ni =>
                  have hagn : InstAgree subsch ni [] := by
                    rcases hov with hbad | ⟨m2, he2, hag2⟩
                    · exact FVal.noConfusion hbad
                    · injection he2 with hni
                      rw [hni]
                      exact hag2
                  have h3 : (match clearFieldsF g opts subsch ni with
                    | some ni2 =>
                      clearFieldsF g opts rest (i1.setVal name (.instV ni2))
                    | none => none) = some m' := h2
                  rcases hc : clearFieldsF g opts subsch ni with _ | ni2
                  · rw [hc] at h3
                    exact Option.noConfusion h3
                  · rw [hc] at h3
                    have hagn2 : InstAgree subsch ni2 [] :=
                      ihClear subsch ni ni2 hsub hagn hc
                    have hag2 : InstAgree rest
                        (i1.setVal name (.instV ni2)) [] :=
                      InstAgree_congr rest m _ []
                        (fun n hn => by
                          rw [get_setVal_other i1 name n _
                              (fun e2 => hnm (e2 ▸ hn)),
                            readFieldF_get_other g opts name common _ m _ i1
                              hr n (fun e2 => hnm (e2 ▸ hn))]) hagr
                    have hrec := ihClear rest _ m' hwfr hag2 h3
                    refine .absent name common _ rest m' [] ?_ hrec
                    have hgn : m'.get name = .instV ni2 := by
                      rw [clearFieldsF_get_other opts g rest _ m' name hnm h3,
                        get_setVal_self]
                    rw [hgn]
                    exact .objI subsch ni2 hagn2
      · intro t fn v orig res hwf hg hov h
        by_cases hpn : (isNullV v && opts.preserveNull) = true
        · have hvn : v = .null := by
            have h2 := (Bool.and_eq_true _ _).mp hpn
            exact isNullV_eq v h2.1
          simp only [typecastF, hpn, if_true] at h
          obtain rfl := Option.some.inj h
          subst hvn
          cases t with
          | scalar k =>
            exact ⟨.prim .null, rfl, .scalarG k .null KeepPrim_null⟩
          | arrT u e =>
            obtain ⟨os, hveq, -, -⟩ := FieldCastGood_arr_inv opts fn u e _ hg
            exact JSValue.noConfusion hveq
          | objT sub =>
            cases sub with
            | some subsch =>
              obtain ⟨okvs, hveq, -, -⟩ :=
                FieldCastGood_objS_inv opts fn subsch _ hg
              exact JSValue.noConfusion hveq
            | none =>
              obtain ⟨hobj, -⟩ := FieldCastGood_objN_inv opts fn _ hg
              exact Bool.noConfusion hobj
        · cases t with
          | scalar k =>
            have horig : orig = .prim .undef := hov
            subst horig
            rcases FieldCastGood_scalar_inv opts fn k v hg
              with ⟨hvn, hpn2⟩ | ⟨hcast, hkeep⟩
            · exfalso
              apply hpn
              rw [hvn]
              simp [isNullV, hpn2]
            · simp only [typecastF, hpn, Bool.false_eq_true, if_false,
                errValOfF, hcast] at h
              obtain rfl := Option.some.inj h
              exact ⟨.prim v, rfl, .scalarG k v hkeep⟩
          | arrT u e =>
            obtain ⟨os, hveq, hosne, hels⟩ :=
              FieldCastGood_arr_inv opts fn u e _ hg
            obtain ⟨hu, hewf⟩ := FTypeWF_arr_inv u e hwf
            have horig : orig = .arrV [] := hov
            subst horig
            subst hveq
            subst hu
            simp only [typecastF, hpn, Bool.false_eq_true, if_false,
              JSValue.isObjectJS, if_true] at h
            rcases ha : arrAssignF g opts fn false e [] os with _ | r2
            · simp only [ha] at h
              exact Option.noConfusion h
            · simp only [ha] at h
              obtain ⟨evs, hr2, hagv⟩ := ihAssign e fn [] os r2 hewf hels ha
              rw [List.nil_append] at hr2
              subst hr2
              obtain rfl := Option.some.inj h
              exact ⟨.arrV evs, rfl, .arrG false e evs os hosne hagv⟩
          | objT sub =>
            cases sub with
            | some subsch =>
              obtain ⟨okvs, hveq, hone, hsg⟩ :=
                FieldCastGood_objS_inv opts fn subsch _ hg
              have hsub : SchemaWF subsch := FTypeWF_obj_inv subsch hwf
              subst hveq
              simp only [typecastF, hpn, Bool.false_eq_true, if_false,
                JSValue.isObjectJS, Bool.not_true] at h
              rcases hov with horig | ⟨m, horig, hagm⟩
              · subst horig
                rcases hc : constructF g opts subsch (.obj []) with _ | fresh
                · simp only [hc] at h
                  exact Option.noConfusion h
                · simp only [hc] at h
                  obtain rfl : fresh = emptyInst :=
                    constructF_wf_empty g opts subsch fresh hsub hc
                  rcases hp : populateF g opts subsch emptyInst
                      (jsOwnKeys (.obj okvs)) with _ | filled
                  · simp only [hp] at h
                    exact Option.noConfusion h
                  · simp only [hp] at h
                    have hagf : InstAgree subsch filled okvs :=
                      ihPop subsch emptyInst okvs filled hsub
                        (emptyInst_agree subsch) hsg hp
                    obtain rfl := Option.some.inj h
                    exact ⟨.instV filled, rfl,
                      .objG subsch filled okvs hone hagf⟩
              · subst horig
                rcases hcl : clearFieldsF g opts subsch m with _ | cleared
                · simp only [hcl] at h
                  exact Option.noConfusion h
                · simp only [hcl] at h
                  have hagc : InstAgree subsch cleared [] :=
                    ihClear subsch m cleared hsub hagm hcl
                  rcases hp : populateF g opts subsch cleared
                      (jsOwnKeys (.obj okvs)) with _ | filled
                  · simp only [hp] at h
                    exact Option.noConfusion h
                  · simp only [hp] at h
                    have hagf : InstAgree subsch filled okvs :=
                      ihPop subsch cleared okvs filled hsub hagc hsg hp
                    obtain rfl := Option.some.inj h
                    exact ⟨.instV filled, rfl,
                      .objG subsch filled okvs hone hagf⟩
            | none =>
              obtain ⟨hobj, hkeep⟩ := FieldCastGood_objN_inv opts fn _ hg
              simp only [typecastF, hpn, Bool.false_eq_true, if_false, hobj,
                Bool.not_true] at h
              obtain rfl := Option.some.inj h
              exact ⟨.prim v, rfl, .objNoneG v hobj hkeep⟩
      · intro ed o res hwf hg h
        rcases EOptWF_some_inv ed hwf with ⟨nm, k, hed⟩ | ⟨nm, sub, hed, hsub⟩
        · subst hed
          rcases ElemCastGood_scalar_inv opts nm k o hg
            with ⟨hon, hpn⟩ | hcast
          · subst hon
            have hpn2 : (isNullV JSValue.null && opts.preserveNull) = true :=
              by simp [isNullV, hpn]
            simp only [EDesc.t, EDesc.name, typecastF, hpn2, if_true] at h
            obtain rfl := Option.some.inj h
            exact ⟨.eprim .null, rfl, .prim _ _⟩
          · by_cases hpn : (isNullV o && opts.preserveNull) = true
            · have hon : o = .null := by
                have h2 := (Bool.and_eq_true _ _).mp hpn
                exact isNullV_eq o h2.1
              subst hon
              simp only [EDesc.t, EDesc.name, typecastF, hpn, if_true] at h
              obtain rfl := Option.some.inj h
              exact ⟨.eprim .null, rfl, .prim _ _⟩
            · simp only [EDesc.t, EDesc.name, typecastF, hpn,
                Bool.false_eq_true, if_false, errValOfF, hcast] at h
              obtain rfl := Option.some.inj h
              exact ⟨.eprim o, rfl, .prim _ _⟩
        · subst hed
          rcases ElemCastGood_objS_inv opts nm sub o hg
            with ⟨hon, hpn⟩ | ⟨okvs, hon, hsg⟩
          · subst hon
            have hpn2 : (isNullV JSValue.null && opts.preserveNull) = true :=
              by simp [isNullV, hpn]
            simp only [EDesc.t, EDesc.name, typecastF, hpn2, if_true] at h
            obtain rfl := Option.some.inj h
            exact ⟨.eprim .null, rfl, .prim _ _⟩
          · subst hon
            by_cases hpn :
                (isNullV (JSValue.obj okvs) && opts.preserveNull) = true
            · exfalso
              simp [isNullV] at hpn
            · simp only [EDesc.t, EDesc.name, typecastF, hpn,
                Bool.false_eq_true, if_false, JSValue.isObjectJS,
                Bool.not_true] at h
              rcases hc : constructF g opts sub (.obj []) with _ | fresh
              · simp only [hc] at h
                exact Option.noConfusion h
              · simp only [hc] at h
                obtain rfl : fresh = emptyInst :=
                  constructF_wf_empty g opts sub fresh hsub hc
                rcases hp : populateF g opts sub emptyInst
                    (jsOwnKeys (.obj okvs)) with _ | filled
                · simp only [hp] at h
                  exact Option.noConfusion h
                · simp only [hp] at h
                  have hagf : InstAgree sub filled okvs :=
                    ihPop sub emptyInst okvs filled hsub
                      (emptyInst_agree sub) hsg hp
                  obtain rfl := Option.some.inj h
                  exact ⟨.einst filled, rfl, .inst nm sub filled okvs hagf⟩
      · intro ed args r hwf hg h
        cases args with
        | nil =>
          have h2 : some (Except.ok ([] : List EVal)) = some r := h
          obtain rfl := Option.some.inj h2
          exact ⟨[], rfl, .nil _⟩
        | cons a rest =>
          have h2 : (match typecastF g opts ed.name ed.t a (.prim .undef) with
            | some (.errS e2 _) => some (Except.error e2)
            | some (.okS sv) =>
              (match (match sv with
                | .prim p => some (EVal.eprim p)
                | .instV i => some (EVal.einst i)
                | .arrV _ => none) with
              | none => none
              | some ev =>
                (match pushCastF g opts ed rest with
                | some (.ok evs) => some (.ok (ev :: evs))
                | some (.error e2) => some (.error e2)
                | none => none))
            | none => none) = some r := h
          rcases ht : typecastF g opts ed.name ed.t a (.prim .undef)
            with _ | tres
          · rw [ht] at h2
            exact Option.noConfusion h2
          · rw [ht] at h2
            obtain ⟨ev, htr, hel⟩ := ihETC ed a tres hwf (hg a (by simp)) ht
            subst htr
            cases ev with
            | eprim p =>
              have h3 : (match pushCastF g opts ed rest with
                | some (.ok evs) => some (Except.ok (EVal.eprim p :: evs))
                | some (.error e2) => some (.error e2)
                | none => none) = some r := h2
              rcases hpc : pushCastF g opts ed rest with _ | r2
              · rw [hpc] at h3
                exact Option.noConfusion h3
              · rw [hpc] at h3
                obtain ⟨evs2, hr2, hagr⟩ := ihPC ed rest r2 hwf
                  (fun o ho => hg o (by simp [ho])) hpc
                subst hr2
                obtain rfl := Option.some.inj h3
                exact ⟨.eprim p :: evs2, rfl, .cons _ _ _ _ _ hel hagr⟩
            | einst m =>
              have h3 : (match pushCastF g opts ed rest with
                | some (.ok evs) => some (Except.ok (EVal.einst m :: evs))
                | some (.error e2) => some (.error e2)
                | none => none) = some r := h2
              rcases hpc : pushCastF g opts ed rest with _ | r2
              · rw [hpc] at h3
                exact Option.noConfusion h3
              · rw [hpc] at h3
                obtain ⟨evs2, hr2, hagr⟩ := ihPC ed rest r2 hwf
                  (fun o ho => hg o (by simp [ho])) hpc
                subst hr2
                obtain rfl := Option.some.inj h3
                exact ⟨.einst m :: evs2, rfl, .cons _ _ _ _ _ hel hagr⟩
      · intro e cur args r hwf hg h
        cases e with
        | some ed =>
          have h2 : (match pushCastF g opts ed args with
            | some (.error e2) => some (Except.error e2)
            | some (.ok values) => some (Except.ok (cur ++ values))
            | none => none) = some r := h
          rcases hpc : pushCastF g opts ed args with _ | r2
          · rw [hpc] at h2
            exact Option.noConfusion h2
          · rw [hpc] at h2
            obtain ⟨evs, hr2, hagr⟩ := ihPC ed args r2 hwf hg hpc
            subst hr2
            obtain rfl := Option.some.inj h2
            exact ⟨evs, rfl, hagr⟩
        | none =>
          have h2 : some (Except.ok (cur ++ args.map .eprim)) = some r := h
          obtain rfl := Option.some.inj h2
          exact ⟨args.map .eprim, rfl, elems_map_agree none args⟩
      · intro e fname cur xs r hwf hg h
        cases xs with
        | nil =>
          have h2 : some (Except.ok cur) = some r := h
          obtain rfl := Option.some.inj h2
          exact ⟨[], by simp, .nil e⟩
        | cons x rest =>
          have h2 : (match pushF g opts false e cur [x] with
            | some (.ok cur2) => arrAssignF g opts fname false e cur2 rest
            | some (.error e2) => some (Except.error (e2, cur))
            | none => none) = some r := h
          rcases hp : pushF g opts false e cur [x] with _ | r2
          · rw [hp] at h2
            exact Option.noConfusion h2
          · rw [hp] at h2
            obtain ⟨evs1, hr2, hag1⟩ := ihPush e cur [x] r2 hwf
              (fun o ho => by
                rw [List.mem_singleton] at ho
                subst ho
                exact hg o (by simp)) hp
            obtain ⟨ev, hevs1, hel⟩ := ElemsAgree_single_inv e evs1 x hag1
            subst hevs1
            subst hr2
            obtain ⟨evs2, hr, hag2⟩ := ihAssign e fname (cur ++ [ev]) rest r
              hwf (fun o ho => hg o (by simp [ho])) h2
            refine ⟨ev :: evs2, ?_, .cons _ _ _ _ _ hel hag2⟩
            rw [hr]
            simp
      · intro name common t inst v inst' hwf hg hro hdf hv h
        simp only [setFieldF, hro, Bool.false_eq_true, if_false] at h
        rcases hr : readFieldF g opts name common t inst with _ | ⟨orig, mid⟩
        · simp only [hr] at h
          exact Option.noConfusion h
        · simp only [hr] at h
          have hov : OrigVoid t orig :=
            read_void g opts name common t inst orig mid hwf hdf hv hr
          rcases ht : typecastF g opts (some name) t v orig with _ | tres
          · simp only [ht] at h
            exact Option.noConfusion h
          · simp only [ht] at h
            obtain ⟨store, hts, hst⟩ :=
              ihTC t (some name) v orig tres hwf hg hov ht
            subst hts
            obtain rfl := Option.some.inj h
            rw [get_setVal_self]
            exact hst
      · have key : ∀ n, ∀ sch : Schema, sizeOf sch ≤ n →
            ∀ inst0 out instB, SchemaWF sch → InstAgree sch inst0 [] →
            SnapCastGood opts sch out →
            populateF (g + 1) opts sch inst0 out = some instB →
            InstAgree sch instB out := by
          intro n
          induction n with
          | zero =>
            intro sch hsz inst0 out instB hwf hag hsg h
            exact absurd hsz (by cases sch <;> simp)
          | succ n ihn =>
            intro sch hsz inst0 out instB hwf hag hsg h
            cases sch with
            | snil =>
              obtain rfl := SnapCastGood_nil_inv opts out hsg
              have h2 : some inst0 = some instB := h
              obtain rfl := Option.some.inj h2
              exact hag
            | scons name common t rest =>
              obtain ⟨hdf, hro, hinv, hnm, hft, hwfr⟩ :=
                SchemaWF_cons_inv name common t rest hwf
              obtain ⟨hvd, hagr⟩ :=
                InstAgree_nil_cons_inv name common t rest inst0 hag
              have hszr : sizeOf rest ≤ n := by
                simp only [Schema.scons.sizeOf_spec] at hsz
                omega
              rcases SnapCastGood_cons_inv opts name common t rest out hsg
                with ⟨v, out2, hout, hfg, hsgr⟩ | hsgr
              · subst hout
                have h2 : (match (Schema.scons name common t rest).lookupF
                    name with
                  | some (c2, t2) =>
                    (match setFieldF g opts name c2 t2 inst0 v with
                    | some inst2 =>
                      populateF g opts (.scons name common t rest) inst2 out2
                    | none => none)
                  | none =>
                    populateF g opts (.scons name common t rest) inst0 out2)
                  = some instB := h
                have hlk : (Schema.scons name common t rest).lookupF name
                    = some (common, t) := by
                  simp [Schema.lookupF]
                rw [hlk] at h2
                have h3 : (match setFieldF g opts name common t inst0 v with
                  | some inst2 =>
                    populateF g opts (.scons name common t rest) inst2 out2
                  | none => none) = some instB := h2
                rcases hsf : setFieldF g opts name common t inst0 v
                  with _ | inst2
                · rw [hsf] at h3
                  exact Option.noConfusion h3
                · rw [hsf] at h3
                  have h4 : populateF g opts (.scons name common t rest)
                      inst2 out2 = some instB := h3
                  have hstored : StoredGood t (inst2.get name) v :=
                    ihSet name common t inst0 v inst2 hft hfg hro hdf hvd hsf
                  have hkeys2 : ∀ p ∈ out2, p.1 ≠ name := by
                    intro p hp e2
                    exact hnm (e2 ▸ snapKeys_sub opts rest out2 hsgr p hp)
                  rw [populate_skip opts name common t rest out2 g inst2
                    hkeys2] at h4
                  have hag2 : InstAgree rest inst2 [] :=
                    InstAgree_congr rest inst0 inst2 []
                      (fun k hk => setFieldF_get_other g opts name common t
                        inst0 v inst2 hsf k (fun e2 => hnm (e2 ▸ hk))) hagr
                  have hagB : InstAgree rest instB out2 :=
                    ihPop rest inst2 out2 instB hwfr hag2 hsgr h4
                  have hgetB : instB.get name = inst2.get name :=
                    populateF_get_other opts out2 g rest inst2 instB name
                      hkeys2 h4
                  refine .present name common t rest instB v out2 ?_ hagB
                  rw [hgetB]
                  exact hstored
              · have hkeys2 : ∀ p ∈ out, p.1 ≠ name := by
                  intro p hp e2
                  exact hnm (e2 ▸ snapKeys_sub opts rest out hsgr p hp)
                rw [populate_skip opts name common t rest out (g + 1) inst0
                  hkeys2] at h
                have hagB : InstAgree rest instB out :=
                  ihn rest hszr inst0 out instB hwfr hagr hsgr h
                have hgetB : instB.get name = inst0.get name :=
                  populateF_get_other opts out (g + 1) rest inst0 instB name
                    hkeys2 h
                refine .absent name common t rest instB out ?_ hagB
                rw [hgetB]
                exact hvd
        intro sch inst0 out instB hwf hag hsg h
        exact key (sizeOf sch) sch (Nat.le_refl _) inst0 out instB hwf hag
          hsg h

theorem c7w_wf : SchemaWF c7wSchema :=
  .cons "title" {} _ .snil rfl rfl rfl (by simp [Schema.names])
    (.scalarW _) .nil

theorem c7w_keep : KeepPrim (.str "a") :=
  ⟨fun h => JSValue.noConfusion h, fun _ h => JSValue.noConfusion h,
   fun _ h => JSValue.noConfusion h⟩

theorem c7w_agree : InstAgree c7wSchema c7wInstW [("title", .str "a")] :=
  .present "title" {} _ .snil c7wInstW (.str "a") []
    (.scalarG _ _ c7w_keep) (.nil _)

theorem c7w_snap : SnapCastGood {} c7wSchema [("title", .str "a")] :=
  .present "title" {} _ .snil (.str "a") []
    (.scalarOk (some "title") (.strT {}) (.str "a") rfl c7w_keep) .nil

/-- C7 (amended): for a hook-free well-formed schema — no declared defaults,
no read-only or invisible fields, distinct field names, non-unique arrays of
untyped, scalar or nested-schema elements — under options that do not
serialize undefined, serializing an instance whose stored data is validly
cast, constructing a fresh instance from the snapshot and serializing again
reproduces the snapshot exactly. (A declared field default breaks this round
trip, as the counterexample exhibits.) -/
theorem C7_serialize_construct_serialize (opts : Options) (sch : Schema)
    (inst : Inst) (out : List (String × JSValue)) (f1 f2 f3 : Nat)
    (snap : JSValue) (inst1 inst2 : Inst) (snap2 : JSValue) (inst3 : Inst)
    (hsu : opts.setUndefined = false)
    (hwf : SchemaWF sch)
    (hag : InstAgree sch inst out)
    (hsg : SnapCastGood opts sch out)
    (h1 : toObjectF f1 opts sch inst = some (snap, inst1))
    (h2 : constructF f2 opts sch snap = some inst2)
    (h3 : toObjectF f3 opts sch inst2 = some (snap2, inst3)) :
    snap2 = snap := by
  have hs1 : snap = .obj out := by
    have hp := (serializePack opts hsu f1).2.1 sch inst out (snap, inst1)
      hwf hag h1
    simpa using hp
  subst hs1
  cases f2 with
  | zero => exact Option.noConfusion h2
  | succ f =>
    have hstep : constructF (f + 1) opts sch (.obj out)
        = (match defaultsF f opts sch emptyInst with
          | some i1 => populateF f opts sch i1 (jsOwnKeys (.obj out))
          | none => none) := rfl
    rw [hstep] at h2
    rcases hdfl : defaultsF f opts sch emptyInst with _ | i1
    · rw [hdfl] at h2
      exact Option.noConfusion h2
    · rw [hdfl] at h2
      obtain rfl := defaultsF_wf sch f opts emptyInst i1 hwf hdfl
      have h2b : populateF f opts sch emptyInst out = some inst2 := h2
      have hag2 : InstAgree sch inst2 out :=
        (roundPack opts f).2.2.2.2.2.2.2 sch emptyInst out inst2 hwf
          (emptyInst_agree sch) hsg h2b
      have hp := (serializePack opts hsu f3).2.1 sch inst2 out (snap2, inst3)
        hwf hag2 h3
      simpa using hp

/-- Witness for the amended C7 claim: the snapshot `{title: "a"}` of a
one-string-field schema survives serialize-construct-serialize unchanged. -/
theorem C7_amended_witness :
    ∃ inst2 snap2 inst3,
      toObjectF 5 {} c7wSchema c7wInstW
        = some (.obj [("title", .str "a")], c7wInstW) ∧
      constructF 5 {} c7wSchema (.obj [("title", .str "a")]) = some inst2 ∧
      toObjectF 5 {} c7wSchema inst2 = some (snap2, inst3) ∧
      snap2 = .obj [("title", .str "a")] := by
  refine ⟨Inst.mk [] [("title", .prim (.str "a"))],
    .obj [("title", .str "a")], Inst.mk [] [("title", .prim (.str "a"))],
    rfl, rfl, rfl, ?_⟩
  exact C7_serialize_construct_serialize {} c7wSchema c7wInstW
    [("title", .str "a")] 5 5 5 (.obj [("title", .str "a")]) c7wInstW
    (Inst.mk [] [("title", .prim (.str "a"))]) (.obj [("title", .str "a")])
    (Inst.mk [] [("title", .prim (.str "a"))]) rfl c7w_wf c7w_agree c7w_snap
    rfl rfl rfl

end SchemaObj
